import Mathlib

/-!
dr-peste: share allocation and the item store

A shallow embedding of the loot-tracking bot:

* the share computation of `handleSlashSell` (`commands/commands.go`),
* the SQLite-backed store of `db/db.go` as explicit state passing,
* the handlers `handleSlashAdd` and `handleSlashSell` over that store,
* the leaderboard of `handleSlashProfits`,
* the profit queries `GetUserProfitHistory` and `GetTotalUserProfit`.

Go `int64` values are embedded as `Int`.  Division and remainder are Go's
truncating `/` and `%` (`Int.tdiv`, `Int.tmod`).  The only arithmetic applied to
a share is `++`, and for an `int64` sale amount `≥ 0` every share stays inside
the `int64` range (`shares_within_int64`), so no wrap-around is modelled.
-/

set_option autoImplicit false

/-! ## Data model (`db/db.go`) -/

/-- Participant of an item drop, as `GetItem` returns it (Go `Participant`). -/
structure Participant where
  ID : Int
  ItemID : Int
  UserID : String
  ShareAmount : Int
deriving DecidableEq, Repr

/-- The user IDs of a participant slice, in slice order. -/
def userIDs (ps : List Participant) : List String :=
  ps.map (fun p => p.UserID)

/-! ## Go `map[string]int64`

A map is embedded as an association list.  Reading a missing key yields the zero
value, writing a present key replaces its value in place and writing a missing
key adds an entry, as the Go built-in does. -/

/-- Embedding of `map[string]int64`. -/
abbrev Shares := List (String × Int)

/-- Go `m[k]` as an r-value: the stored value, or `0` when `k` is absent. -/
def sharesGet : Shares → String → Int
  | [], _ => 0
  | (k', v) :: rest, k => if k' = k then v else sharesGet rest k

/-- Go `m[k] = v`. -/
def sharesSet : Shares → String → Int → Shares
  | [], k, v => [(k, v)]
  | (k', v') :: rest, k, v =>
    if k' = k then (k', v) :: rest else (k', v') :: sharesSet rest k v

/-- Go `m[k]++`. -/
def sharesIncr (m : Shares) (k : String) : Shares :=
  sharesSet m k (sharesGet m k + 1)

/-- The keys of a map. -/
def sharesKeys (m : Shares) : List String :=
  m.map Prod.fst

/-- The sum of the values of a map. -/
def sharesSum (m : Shares) : Int :=
  (m.map Prod.snd).sum

/-! ## Share computation of `handleSlashSell` (`commands.go`, lines 833-883)

`rand.Shuffle` permutes `otherParticipants` in place through the swap closure;
its outcome is the parameter `shuffle`, a function from the slice before the
call to the slice after it. -/

/-- Lines 834-835: `saleAmount / numParticipants`. -/
def baseShareAmount (saleAmount : Int) (participants : List Participant) : Int :=
  saleAmount.tdiv (participants.length : Int)

/-- Lines 834, 836: `saleAmount % numParticipants`. -/
def saleRemainder (saleAmount : Int) (participants : List Participant) : Int :=
  saleAmount.tmod (participants.length : Int)

/-- Lines 839-844: every participant is entered with the base amount. -/
def initShares (base : Int) (participants : List Participant) : Shares :=
  participants.foldl (fun m p => sharesSet m p.UserID base) []

/-- Lines 859-864: the user IDs of the participants other than the seller. -/
def otherParticipants (participants : List Participant) (assignedTo : String) :
    List String :=
  (participants.filter (fun p => p.UserID ≠ assignedTo)).map (fun p => p.UserID)

/-- Lines 866-877: the participants visited by the loop
`for i := 0; i < int(remainder) && i < len(otherParticipants); i++`, where
`remainder` is the value left after the seller's unit was taken. -/
def luckyParticipants (shuffle : List String → List String)
    (participants : List Participant) (assignedTo : String) (remainder : Int) :
    List String :=
  (shuffle (otherParticipants participants assignedTo)).take remainder.toNat

/-- Lines 833-883 of `handleSlashSell`: the `shares` map handed to
`MarkItemAsSoldAndDistribute`.  `none` is the run-time panic of the integer
division when the item has no participant. -/
def handleSlashSellShares (shuffle : List String → List String) (saleAmount : Int)
    (participants : List Participant) (assignedTo : String) : Option Shares :=
  if participants.length = 0 then none
  else
    let base := baseShareAmount saleAmount participants
    let remainder := saleRemainder saleAmount participants
    let shares := initShares base participants
    if remainder > 0 then
      let shares := sharesIncr shares assignedTo
      let remainder := remainder - 1
      if remainder = 0 then some shares
      else
        some ((luckyParticipants shuffle participants assignedTo remainder).foldl
          sharesIncr shares)
    else some shares

/-- Participant record with only the user ID of interest. -/
def mkParticipant (n : Int) (u : String) : Participant :=
  { ID := n, ItemID := 1, UserID := u, ShareAmount := 0 }

/-- The three-participant item of the worked scenarios. -/
def abc : List Participant :=
  [mkParticipant 1 "A", mkParticipant 2 "B", mkParticipant 3 "C"]

/-! ## The store (`db/db.go`)

The SQLite database is embedded as a value of type `Store`; every operation is a
function from the store before the call to the returned Go values and the store
after it.  `time.Now()` is the parameter `now`.  A call that the driver may fail
(`Begin`, `Exec`, `QueryRow`, `Commit`, ...) consults the parameter `faults`: the
`k`-th such call issued by the operation fails exactly when `faults k` holds.  A
transaction works on a copy of the store; `Commit` returns the copy and every
error path returns the store of before the call (the deferred `tx.Rollback()`).
Foreign keys are declared but SQLite does not enforce them unless the pragma is
switched on, which the program never does. -/

/-- Row of table `items`; `assigned_to` and `sale_amount` are nullable. -/
structure ItemRow where
  id : Int
  name : String
  estimated_value : Int
  status : String
  assigned_to : Option String
  sale_amount : Option Int
  created_at : Nat
  updated_at : Nat
deriving DecidableEq, Repr

/-- Row of table `participants`; `share_amount` is nullable. -/
structure ParticipantRow where
  id : Int
  item_id : Int
  user_id : String
  share_amount : Option Int
deriving DecidableEq, Repr

/-- Row of table `profit_history`. -/
structure ProfitRow where
  id : Int
  user_id : String
  item_id : Int
  amount : Int
  transaction_date : Nat
deriving DecidableEq, Repr

/-- The three tables and the `sqlite_sequence` counters of their `AUTOINCREMENT`
keys. -/
structure Store where
  items : List ItemRow
  participants : List ParticipantRow
  profit_history : List ProfitRow
  seq_items : Int
  seq_participants : Int
  seq_profit_history : Int
deriving DecidableEq, Repr

/-- The database right after `createTables`. -/
def emptyStore : Store :=
  { items := [], participants := [], profit_history := [],
    seq_items := 0, seq_participants := 0, seq_profit_history := 0 }

/-- Key given by `INTEGER PRIMARY KEY AUTOINCREMENT`: one more than the largest
key the table has ever held. -/
def nextRowid (seq : Int) (ids : List Int) : Int :=
  ids.foldl max seq + 1

/-- Which driver calls of an operation fail. -/
abbrev Faults := Nat → Bool

/-- No driver call fails. -/
def noFaults : Faults := fun _ => false

/-- Go `error` values returned by the store. -/
inductive DbError where
  /-- the error of the `k`-th driver call -/
  | driver (k : Nat)
  /-- message `UNIQUE constraint failed: participants.item_id, participants.user_id` -/
  | uniqueViolation
  /-- message `item with ID %d not found` -/
  | notFound (itemID : Int)
  /-- message `item must be assigned before it can be sold` -/
  | mustBeAssigned
  /-- message `item must be sold before it can be distributed` -/
  | mustBeSold
  /-- message `no participants found for item %d` -/
  | noParticipants (itemID : Int)
deriving DecidableEq, Repr

/-- Go `strings.TrimPrefix`. -/
def trimPrefix (s pre : String) : String :=
  if pre.toList.isPrefixOf s.toList then String.mk (s.toList.drop pre.toList.length) else s

/-- Go `strings.TrimSuffix`. -/
def trimSuffix (s suf : String) : String :=
  if suf.toList.isSuffixOf s.toList then
    String.mk (s.toList.take (s.toList.length - suf.toList.length))
  else s

/-- The mention clean-up repeated in `db.go`:
`TrimPrefix "<@"`, then `TrimPrefix "!"`, then `TrimSuffix ">"`. -/
def cleanUserID (userID : String) : String :=
  trimSuffix (trimPrefix (trimPrefix userID "<@") "!") ">"

/-- First row of `SELECT ... FROM items WHERE id = ?`. -/
def findItem (s : Store) (itemID : Int) : Option ItemRow :=
  s.items.find? (fun it => decide (it.id = itemID))

/-- The rows of table `participants` with `item_id = ?`, as the table holds them
(in the order of insertion).  The order in which a `SELECT` hands them over is
the parameter `rowOrder` of `GetItem`. -/
def participantsOf (s : Store) (itemID : Int) : List ParticipantRow :=
  s.participants.filter (fun p => decide (p.item_id = itemID))

/-- Statement `UPDATE items SET ... WHERE id = ?` with the assignment `f`. -/
def updateItems (itemID : Int) (f : ItemRow → ItemRow) (s : Store) : Store :=
  { s with items := s.items.map (fun it => if it.id = itemID then f it else it) }

/-- Loop of `AddItem` (lines 151-164): one `INSERT INTO participants` per entry;
`k` is the number of the next driver call. -/
def insertParticipants (faults : Faults) (itemID : Int) :
    Nat → List String → Store → Except DbError Store
  | _, [], tx => .ok tx
  | k, userID :: rest, tx =>
    let userID := cleanUserID userID
    if faults k then .error (.driver k)
    else if tx.participants.any (fun p => decide (p.item_id = itemID ∧ p.user_id = userID))
    then .error .uniqueViolation
    else
      let id := nextRowid tx.seq_participants (tx.participants.map (fun p => p.id))
      insertParticipants faults itemID (k + 1) rest
        { tx with
          participants := tx.participants ++
            [{ id := id, item_id := itemID, user_id := userID, share_amount := none }],
          seq_participants := id }

/-- Function `AddItem` (lines 127-171).  Driver calls: 0 `Begin`, 1 the item insert,
2 `LastInsertId`, then one insert per participant, then `Commit`. -/
def AddItem (faults : Faults) (now : Nat) (name : String) (estimatedValue : Int)
    (participants : List String) (s : Store) : (Int × Option DbError) × Store :=
  if faults 0 then ((0, some (.driver 0)), s)
  else if faults 1 then ((0, some (.driver 1)), s)
  else
    let itemID := nextRowid s.seq_items (s.items.map (fun it => it.id))
    let tx : Store :=
      { s with
        items := s.items ++
          [{ id := itemID, name := name, estimated_value := estimatedValue,
             status := "assigned", assigned_to := none, sale_amount := none,
             created_at := now, updated_at := now }],
        seq_items := itemID }
    if faults 2 then ((0, some (.driver 2)), s)
    else
      match insertParticipants faults itemID 3 participants tx with
      | .error e => ((0, some e), s)
      | .ok tx =>
        if faults (3 + participants.length) then
          ((0, some (.driver (3 + participants.length))), s)
        else ((itemID, none), tx)

/-- Function `AssignItem` (lines 174-186): one unconditional `UPDATE` outside any
transaction; a statement that matches no row is not an error. -/
def AssignItem (faults : Faults) (now : Nat) (itemID : Int) (userID : String)
    (s : Store) : Option DbError × Store :=
  let userID := cleanUserID userID
  if faults 0 then (some (.driver 0), s)
  else
    (none, updateItems itemID
      (fun it => { it with status := "assigned", assigned_to := some userID,
                           updated_at := now }) s)

/-- Loop of `MarkItemAsSoldAndDistribute` (lines 222-245) over the entries of the
map in the order `range` yields them: per entry one `UPDATE participants` and
one `INSERT INTO profit_history`; `k` is the number of the next driver call. -/
def distributeShares (faults : Faults) (now : Nat) (itemID : Int) :
    Nat → Shares → Store → Except DbError Store
  | _, [], tx => .ok tx
  | k, (userID, shareAmount) :: rest, tx =>
    let cleanID := cleanUserID userID
    if faults k then .error (.driver k)
    else
      let tx : Store :=
        { tx with
          participants := tx.participants.map (fun p =>
            if p.item_id = itemID ∧ p.user_id = cleanID then
              { p with share_amount := some shareAmount }
            else p) }
      if faults (k + 1) then .error (.driver (k + 1))
      else
        let id := nextRowid tx.seq_profit_history (tx.profit_history.map (fun r => r.id))
        distributeShares faults now itemID (k + 2) rest
          { tx with
            profit_history := tx.profit_history ++
              [{ id := id, user_id := cleanID, item_id := itemID, amount := shareAmount,
                 transaction_date := now }],
            seq_profit_history := id }

/-- Function `MarkItemAsSoldAndDistribute` (lines 189-248).  `shares` lists the entries of
the Go map in iteration order.  Driver calls: 0 `Begin`, 1 the status query,
2 the item update, then two per entry, then `Commit`. -/
def MarkItemAsSoldAndDistribute (faults : Faults) (now : Nat) (itemID : Int)
    (saleAmount : Int) (shares : Shares) (s : Store) : Option DbError × Store :=
  if faults 0 then (some (.driver 0), s)
  else if faults 1 then (some (.driver 1), s)
  else
    match findItem s itemID with
    | none => (some (.notFound itemID), s)
    | some it =>
      if it.status ≠ "assigned" then (some .mustBeAssigned, s)
      else if faults 2 then (some (.driver 2), s)
      else
        let tx := updateItems itemID
          (fun it => { it with status := "distributed", sale_amount := some saleAmount,
                               updated_at := now }) s
        match distributeShares faults now itemID 3 shares tx with
        | .error e => (some e, s)
        | .ok tx =>
          if faults (3 + 2 * shares.length) then
            (some (.driver (3 + 2 * shares.length)), s)
          else (none, tx)

/-- Function `MarkItemAsSold` (lines 251-305).  Driver calls: 0 `Begin`, 1 the status
query, 2 the item update, 3 the participant count, 4 the share update,
5 `Commit`. -/
def MarkItemAsSold (faults : Faults) (now : Nat) (itemID : Int) (saleAmount : Int)
    (s : Store) : Option DbError × Store :=
  if faults 0 then (some (.driver 0), s)
  else if faults 1 then (some (.driver 1), s)
  else
    match findItem s itemID with
    | none => (some (.notFound itemID), s)
    | some it =>
      if it.status ≠ "assigned" then (some .mustBeAssigned, s)
      else if faults 2 then (some (.driver 2), s)
      else
        let tx := updateItems itemID
          (fun it => { it with status := "sold", sale_amount := some saleAmount,
                               updated_at := now }) s
        if faults 3 then (some (.driver 3), s)
        else
          let count := (participantsOf tx itemID).length
          if count = 0 then (some (.noParticipants itemID), s)
          else
            let shareAmount := saleAmount.tdiv (count : Int)
            if faults 4 then (some (.driver 4), s)
            else
              let tx : Store :=
                { tx with
                  participants := tx.participants.map (fun p =>
                    if p.item_id = itemID then { p with share_amount := some shareAmount }
                    else p) }
              if faults 5 then (some (.driver 5), s) else (none, tx)

/-- Function `MarkItemAsDistributed` (lines 308-329): a status query (call 0) and an
update (call 1), outside any transaction. -/
def MarkItemAsDistributed (faults : Faults) (now : Nat) (itemID : Int) (s : Store) :
    Option DbError × Store :=
  if faults 0 then (some (.driver 0), s)
  else
    match findItem s itemID with
    | none => (some (.notFound itemID), s)
    | some it =>
      if it.status ≠ "sold" then (some .mustBeSold, s)
      else if faults 1 then (some (.driver 1), s)
      else
        (none, updateItems itemID
          (fun it => { it with status := "distributed", updated_at := now }) s)

/-- Go `Item`, as `GetItem` fills it. -/
structure Item where
  ID : Int
  Name : String
  EstimatedValue : Int
  Status : String
  AssignedTo : String
  SaleAmount : Int
  CreatedAt : Nat
  UpdatedAt : Nat
  Participants : List Participant
deriving DecidableEq, Repr

/-- Function `GetItem` (lines 332-395): the item row (call 0) and its participant rows
(call 1); a `NULL` seller reads as the empty string, a `NULL` amount as 0.

The second `SELECT` has no `ORDER BY`, so the engine chooses the order of the
rows: SQLite answers it from the index of `UNIQUE(item_id, user_id)`, which
yields them by `user_id`, where a scan of the table would yield them as they
were inserted.  The parameter `rowOrder` is what the loop `for rows.Next()`
hands over of the matching rows; the theorems that depend on it assume no more
than that it is a permutation of them, every row handed over once.  (The loop
never reads `rows.Err()`: an iteration the driver cut short would end the loop
with the rows seen so far and no error, which is a `rowOrder` that is no
permutation.  The per-row `Scan` reads columns that every statement of `db.go`
fills with the types it scans into.) -/
def GetItem (rowOrder : List ParticipantRow → List ParticipantRow) (faults : Faults)
    (itemID : Int) (s : Store) : Except DbError Item :=
  if faults 0 then .error (.driver 0)
  else
    match findItem s itemID with
    | none => .error (.notFound itemID)
    | some it =>
      if faults 1 then .error (.driver 1)
      else
        .ok
          { ID := it.id, Name := it.name, EstimatedValue := it.estimated_value,
            Status := it.status,
            AssignedTo := it.assigned_to.getD "",
            SaleAmount := it.sale_amount.getD 0,
            CreatedAt := it.created_at, UpdatedAt := it.updated_at,
            Participants := (rowOrder (participantsOf s itemID)).map (fun p =>
              { ID := p.id, ItemID := p.item_id, UserID := p.user_id,
                ShareAmount := p.share_amount.getD 0 }) }

/-- The order in which SQLite walks the index of `UNIQUE(item_id, user_id)` for
one item: by `user_id`, compared bytewise. -/
def byUserID (rows : List ParticipantRow) : List ParticipantRow :=
  rows.insertionSort (fun a b => a.user_id.toList ≤ b.user_id.toList)

/-! ## `handleSlashSell` (`commands.go`, lines 775-949) -/

/-- What `handleSlashSell` answers. -/
inductive SellOutcome where
  /-- answer `Invalid item ID. Please provide a valid number.` -/
  | invalidItemID
  /-- answer `Failed to get item: ...` -/
  | failedToGetItem (e : DbError)
  /-- answer `This item has already been sold for %d Exalted Orbs.` -/
  | alreadySold (saleAmount : Int)
  /-- answer `Only the assigned seller can mark this item as sold.` -/
  | notSeller
  /-- run-time panic: integer divide by zero -/
  | divideByZero
  /-- answer `Failed to process sale: ...` -/
  | failedToProcess (e : DbError)
  /-- the embed `Item Sold and Profits Distributed` with the shares -/
  | sold (shares : Shares)
deriving DecidableEq, Repr

/-- Handler `handleSlashSell`.  `parsedItemID` is the result of `strconv.ParseInt` on the
`item` option (`none` when it fails), `requester` is `i.Member.User.ID`,
`rowOrder` is the order in which `GetItem` reads the participant rows,
`rangeOrder` is the order in which `range shares` visits the map inside
`MarkItemAsSoldAndDistribute`, and `faultsGet`, `faultsMark` are the driver
failures of the two store calls. -/
def handleSlashSell (rowOrder : List ParticipantRow → List ParticipantRow)
    (shuffle : List String → List String) (rangeOrder : Shares → Shares)
    (faultsGet faultsMark : Faults) (now : Nat) (requester : String)
    (parsedItemID : Option Int) (saleAmount : Int) (s : Store) : SellOutcome × Store :=
  match parsedItemID with
  | none => (.invalidItemID, s)
  | some itemID =>
    match GetItem rowOrder faultsGet itemID s with
    | .error e => (.failedToGetItem e, s)
    | .ok item =>
      if item.Status = "sold" ∨ item.Status = "distributed" then
        (.alreadySold item.SaleAmount, s)
      else if item.AssignedTo ≠ requester then (.notSeller, s)
      else
        match handleSlashSellShares shuffle saleAmount item.Participants item.AssignedTo with
        | none => (.divideByZero, s)
        | some shares =>
          match MarkItemAsSoldAndDistribute faultsMark now itemID saleAmount
              (rangeOrder shares) s with
          | (some e, s') => (.failedToProcess e, s')
          | (none, s') => (.sold shares, s')

/-- The store after `AddItem "ring" 90 [A, B, C]` and `AssignItem 1 A` at time 1. -/
def ringAssigned : Store :=
  (AssignItem noFaults 1 1 "A" (AddItem noFaults 1 "ring" 90 ["A", "B", "C"] emptyStore).2).2

/-- The store `ringAssigned` after the ring was sold for 101 at time 2. -/
def ringDistributed : Store :=
  (MarkItemAsSoldAndDistribute noFaults 2 1 101 [("A", 34), ("B", 33), ("C", 34)]
    ringAssigned).2

/-- The store after `AddItem "gem" 10 ["!!5"]` and `AssignItem 1 "!!5"` at time 1:
the clean-up strips one `!` and stores the participant `!5`. -/
def gemAssigned : Store :=
  (AssignItem noFaults 1 1 "!!5" (AddItem noFaults 1 "gem" 10 ["!!5"] emptyStore).2).2

/-- The item row of `ringDistributed`. -/
def ringRow : ItemRow :=
  { id := 1, name := "ring", estimated_value := 90, status := "distributed",
    assigned_to := some "A", sale_amount := some 101, created_at := 1, updated_at := 2 }

/-- The item row of `ringAssigned`. -/
def ringAssignedRow : ItemRow :=
  { id := 1, name := "ring", estimated_value := 90, status := "assigned",
    assigned_to := some "A", sale_amount := none, created_at := 1, updated_at := 1 }

/-! ## Closed forms used by the proofs -/

/-- The association list that gives every key of `us` the value `f u`. -/
def tabulate (us : List String) (f : String → Int) : Shares :=
  us.map (fun u => (u, f u))

/-- The participants whose entry is incremented: the seller, then the lucky ones. -/
def bumped (shuffle : List String → List String) (saleAmount : Int)
    (ps : List Participant) (seller : String) : List String :=
  if saleRemainder saleAmount ps > 0 then
    seller :: luckyParticipants shuffle ps seller (saleRemainder saleAmount ps - 1)
  else []

/-- The effect of the loop of `MarkItemAsSoldAndDistribute` on one participant
row: every entry whose cleaned key names the row overwrites its share. -/
def applyShares (itemID : Int) (shares : Shares) (p : ParticipantRow) : ParticipantRow :=
  shares.foldl (fun p kv =>
    if p.item_id = itemID ∧ p.user_id = cleanUserID kv.1 then
      { p with share_amount := some kv.2 }
    else p) p

/-- The columns of a ledger row other than its key. -/
def ProfitRow.fact (r : ProfitRow) : String × Int × Int × Nat :=
  (r.user_id, r.item_id, r.amount, r.transaction_date)


/-! ## Reachable stores -/

/-- The item key the next `AddItem` hands out. -/
def nextItemID (s : Store) : Int :=
  nextRowid s.seq_items (s.items.map (fun it => it.id))

/-- Every participant row belongs to an item of the store.  Only `AddItem`
inserts participant rows, under the key of the item row it has just inserted,
and nothing is ever deleted, so this holds in every store the operations reach
from the empty one. -/
def participantsHaveItems (s : Store) : Prop :=
  ∀ p ∈ s.participants, ∃ it ∈ s.items, it.id = p.item_id

instance (s : Store) : Decidable (participantsHaveItems s) := by
  unfold participantsHaveItems
  infer_instance

/-- The stores reachable from the empty store through the five mutating
operations of `db.go`, called with any arguments at any time and with any
driver failures. -/
inductive Reachable : Store → Prop where
  | empty : Reachable emptyStore
  | addItem (faults : Faults) (now : Nat) (name : String) (estimatedValue : Int)
      (participants : List String) (s : Store) :
      Reachable s → Reachable (AddItem faults now name estimatedValue participants s).2
  | assignItem (faults : Faults) (now : Nat) (itemID : Int) (userID : String) (s : Store) :
      Reachable s → Reachable (AssignItem faults now itemID userID s).2
  | markItemAsSoldAndDistribute (faults : Faults) (now : Nat) (itemID saleAmount : Int)
      (shares : Shares) (s : Store) :
      Reachable s →
      Reachable (MarkItemAsSoldAndDistribute faults now itemID saleAmount shares s).2
  | markItemAsSold (faults : Faults) (now : Nat) (itemID saleAmount : Int) (s : Store) :
      Reachable s → Reachable (MarkItemAsSold faults now itemID saleAmount s).2
  | markItemAsDistributed (faults : Faults) (now : Nat) (itemID : Int) (s : Store) :
      Reachable s → Reachable (MarkItemAsDistributed faults now itemID s).2

/-- The user IDs of the participants `GetItem` returns, or the empty list when it
fails. -/
def getItemUserIDs (rowOrder : List ParticipantRow → List ParticipantRow) (faults : Faults)
    (itemID : Int) (s : Store) : List String :=
  match GetItem rowOrder faults itemID s with
  | .ok item => item.Participants.map (fun p => p.UserID)
  | .error _ => []

/-- The store `s'` arises from `s` by rewriting rows in place: item rows keep
their key, participant rows keep their item and user. -/
def RowwiseUpdate (s s' : Store) : Prop :=
  ∃ (f : ItemRow → ItemRow) (g : ParticipantRow → ParticipantRow),
    (∀ it, (f it).id = it.id)
    ∧ (∀ p, (g p).item_id = p.item_id ∧ (g p).user_id = p.user_id)
    ∧ s'.items = s.items.map f ∧ s'.participants = s.participants.map g

/-! ## `handleSlashAdd` (`commands.go`, lines 329-506) -/

/-- Go `unicode.IsSpace`: the code points with the property `White_Space`. -/
def isSpace (c : Char) : Bool :=
  let n := c.toNat
  (0x09 ≤ n && n ≤ 0x0D) || n == 0x20 || n == 0x85 || n == 0xA0 || n == 0x1680
    || (0x2000 ≤ n && n ≤ 0x200A) || n == 0x2028 || n == 0x2029 || n == 0x202F
    || n == 0x205F || n == 0x3000

/-- Go `strings.TrimSpace`. -/
def trimSpace (s : String) : String :=
  String.mk ((s.toList.dropWhile isSpace).reverse.dropWhile isSpace).reverse

/-- The fields of a character sequence between the occurrences of `sep`; the
result is never empty. -/
def splitChars (sep : Char) : List Char → List (List Char)
  | [] => [[]]
  | c :: cs =>
    if c = sep then [] :: splitChars sep cs
    else
      match splitChars sep cs with
      | [] => [[c]]
      | field :: fields => (c :: field) :: fields

/-- Go `strings.Split(s, sep)` for a separator of one character. -/
def strSplit (s : String) (sep : Char) : List String :=
  (splitChars sep s.toList).map String.mk

/-- Go `strings.Count(s, "<@")`: the occurrences of `<@`, which cannot overlap. -/
def countMentionStarts : List Char → Nat
  | [] => 0
  | [_] => 0
  | c :: d :: cs =>
    if c = '<' ∧ d = '@' then countMentionStarts cs + 1 else countMentionStarts (d :: cs)

/-- The regular expression `^<@!?\d+>$` of line 382. -/
def validMention (s : String) : Bool :=
  match s.toList with
  | '<' :: '@' :: rest =>
    let digitsThenClose := match rest with
      | '!' :: r => r
      | r => r
    match digitsThenClose.reverse with
    | '>' :: digits => !digits.isEmpty && digits.all Char.isDigit
    | _ => false
  | _ => false

/-- How `handleSlashAdd` ends. -/
inductive AddOutcome where
  /-- answer `Docteur Peste cannot be the seller of an item.` -/
  | botSeller
  /-- answer `Invalid mention format. Please use proper Discord mentions ...` -/
  | invalidMention
  /-- answer `Invalid mention format. Please separate user mentions ...` -/
  | concatenatedMentions
  /-- answer `User <@%s> cannot be listed multiple times. ...` -/
  | duplicateUser (userID : String)
  /-- answer `Failed to add item: ...` -/
  | failedToAdd (e : DbError)
  /-- answer `Failed to assign item to seller: ...` -/
  | failedToAssign (e : DbError)
  /-- the embed `Item Added` -/
  | added (itemID : Int) (participants : List String)
deriving DecidableEq, Repr

/-- The two variables the parsing loop updates: the keys of the map
`uniqueParticipants` and the slice `participants`. -/
structure ParseState where
  uniqueParticipants : List String
  participants : List String
deriving DecidableEq, Repr

/-- Lines 409-422 and 450-462: a mention that passed validation is cleaned and,
unless it names the bot, appended; a user seen before ends the parsing with
`duplicateFound`. -/
def addMention (botID : String) (mention : String) (st : ParseState) :
    Except AddOutcome ParseState :=
  let userID := trimSuffix (trimPrefix (trimPrefix mention "<@") "!") ">"
  if userID ≠ botID then
    if userID ∈ st.uniqueParticipants then .error (.duplicateUser userID)
    else
      .ok { uniqueParticipants := userID :: st.uniqueParticipants,
            participants := st.participants ++ [userID] }
  else .ok st

/-- Lines 391-423: the inner loop over the space-separated parts of one entry. -/
def processParts (botID : String) : List String → ParseState → Except AddOutcome ParseState
  | [], st => .ok st
  | part :: rest, st =>
    let part := trimSpace part
    if part = "" then processParts botID rest st
    else if !validMention part then .error .invalidMention
    else
      match addMention botID part st with
      | .error r => .error r
      | .ok st => processParts botID rest st

/-- Lines 384-469: the loop over the comma-separated entries. -/
def processMentions (botID : String) :
    List String → ParseState → Except AddOutcome ParseState
  | [], st => .ok st
  | mention :: rest, st =>
    let mention := trimSpace mention
    if ' ' ∈ mention.toList then
      match processParts botID (strSplit mention ' ') st with
      | .error r => .error r
      | .ok st => processMentions botID rest st
    else if countMentionStarts mention.toList > 1 then .error .concatenatedMentions
    else if mention ≠ "" ∧ !validMention mention then .error .invalidMention
    else if mention ≠ "" then
      match addMention botID mention st with
      | .error r => .error r
      | .ok st => processMentions botID rest st
    else processMentions botID rest st

/-- Handler `handleSlashAdd`.  `botID` is `s.State.User.ID`, `caller` is
`i.Member.User.ID`, `sellerOpt` is the ID of the user the `seller` option
resolves to (`none` when the option is absent or does not resolve); the two
store calls have their own clock readings and driver failures. -/
def handleSlashAdd (faultsAdd faultsAssign : Faults) (nowAdd nowAssign : Nat)
    (botID caller : String) (sellerOpt : Option String) (itemName : String)
    (estimatedValue : Int) (participantsStr : String) (s : Store) : AddOutcome × Store :=
  let sellerID := sellerOpt.getD caller
  if sellerID = botID then (.botSeller, s)
  else
    match processMentions botID (strSplit participantsStr ',')
        { uniqueParticipants := [sellerID], participants := [sellerID] } with
    | .error r => (r, s)
    | .ok st =>
      match AddItem faultsAdd nowAdd itemName estimatedValue st.participants s with
      | ((_, some e), s1) => (.failedToAdd e, s1)
      | ((itemID, none), s1) =>
        match AssignItem faultsAssign nowAssign itemID sellerID s1 with
        | (some e, s2) => (.failedToAssign e, s2)
        | (none, s2) => (.added itemID st.participants, s2)

/-- The stores reachable from the empty store through the commands that write:
`/docteur add` and `/docteur sell`, with any options, at any time, with any
driver failures and with the participant rows read in any order (or cut
short). -/
inductive CommandReachable : Store → Prop where
  | empty : CommandReachable emptyStore
  | add (faultsAdd faultsAssign : Faults) (nowAdd nowAssign : Nat)
      (botID caller : String) (sellerOpt : Option String) (itemName : String)
      (estimatedValue : Int) (participantsStr : String) (s : Store) :
      CommandReachable s →
      CommandReachable (handleSlashAdd faultsAdd faultsAssign nowAdd nowAssign botID caller
        sellerOpt itemName estimatedValue participantsStr s).2
  | sell (rowOrder : List ParticipantRow → List ParticipantRow)
      (shuffle : List String → List String) (rangeOrder : Shares → Shares)
      (faultsGet faultsMark : Faults) (now : Nat) (requester : String)
      (parsedItemID : Option Int) (saleAmount : Int) (s : Store) :
      CommandReachable s →
      CommandReachable (handleSlashSell rowOrder shuffle rangeOrder faultsGet faultsMark now
        requester parsedItemID saleAmount s).2

/-- Every item row has a participant row, and the seller of an item that has one
is among its participants. -/
def itemsHaveSellerAmongParticipants (s : Store) : Prop :=
  ∀ it ∈ s.items,
    (∃ p ∈ s.participants, p.item_id = it.id)
    ∧ ∀ u ∈ it.assigned_to, ∃ p ∈ s.participants, p.item_id = it.id ∧ p.user_id = u

instance (s : Store) : Decidable (itemsHaveSellerAmongParticipants s) := by
  unfold itemsHaveSellerAmongParticipants
  infer_instance

/-- The store after `AddItem "gem" 10 []` on the empty store: an item without
participants and without seller. -/
def gemAlone : Store :=
  (AddItem noFaults 1 "gem" 10 [] emptyStore).2

/-- The store `ringAssigned` after `AssignItem 1 "Z"`: the seller `Z` is none of
the participants `A`, `B`, `C`. -/
def ringStranger : Store :=
  (AssignItem noFaults 3 1 "Z" ringAssigned).2

/-- The store `ringAssigned` after the seller `A` sold the ring for 101 through
`handleSlashSell` at time 2. -/
def ringSold : Store :=
  (handleSlashSell id List.reverse List.reverse noFaults noFaults 2 "A" (some 1) 101
    ringAssigned).2

/-- The store `gemAssigned` after the seller `!5` sold the gem for 10 through
`handleSlashSell` at time 2. -/
def gemSold : Store :=
  (handleSlashSell id List.reverse List.reverse noFaults noFaults 2 "!5" (some 1) 10
    gemAssigned).2

/-! ## The leaderboard of `handleSlashProfits` (`commands.go`, lines 960-1005)

The records come from `db.GetAllProfitHistory`, whose body is in no source file
at hand; the leaderboard is computed for an arbitrary list of records.  The map
`userProfits` is embedded as the list of its values in insertion order;
`rangeOrder` is the order in which `range userProfits` visits them and
`sortSlice` is the outcome of `sort.Slice` with the comparison of line 1004. -/

/-- Go `db.ProfitRecord`. -/
structure ProfitRecord where
  ID : Int
  UserID : String
  ItemID : Int
  ItemName : String
  Amount : Int
  TransactionDate : Nat
deriving DecidableEq, Repr

/-- The local type `UserProfit` of `handleSlashProfits`; the zero `time.Time` is
the instant 0. -/
structure UserProfit where
  UserID : String
  Total : Int
  LastProfit : Nat
deriving DecidableEq, Repr

/-- Two's-complement wrap-around of `int64` arithmetic. -/
def wrapInt64 (x : Int) : Int :=
  (x + 2 ^ 63) % 2 ^ 64 - 2 ^ 63

/-- Lines 988-991: `profit.Total += record.Amount` and the update of
`profit.LastProfit`. -/
def creditRecord (profit : UserProfit) (record : ProfitRecord) : UserProfit :=
  { profit with
    Total := wrapInt64 (profit.Total + record.Amount),
    LastProfit :=
      if record.TransactionDate > profit.LastProfit then record.TransactionDate
      else profit.LastProfit }

/-- Lines 979-992 for one record: the entry of the user is looked up, created
when absent, and credited. -/
def addRecord : List UserProfit → ProfitRecord → List UserProfit
  | [], record =>
    [creditRecord { UserID := record.UserID, Total := 0, LastProfit := 0 } record]
  | profit :: rest, record =>
    if profit.UserID = record.UserID then creditRecord profit record :: rest
    else profit :: addRecord rest record

/-- Lines 978-992: the map `userProfits` after the loop over the records. -/
def userProfits (records : List ProfitRecord) : List UserProfit :=
  records.foldl addRecord []

/-- Lines 994-1005: the slice `profits` after `sort.Slice`. -/
def leaderboard (rangeOrder sortSlice : List UserProfit → List UserProfit)
    (records : List ProfitRecord) : List UserProfit :=
  sortSlice ((rangeOrder (userProfits records)).filter (fun p => decide (p.Total > 0)))

/-- What `sort.Slice` with the comparison `profits[i].Total > profits[j].Total`
guarantees: the same elements, no element before one of larger total. -/
def SortsByTotal (sortSlice : List UserProfit → List UserProfit) : Prop :=
  ∀ l, (sortSlice l).Perm l ∧ (sortSlice l).Pairwise (fun a b => ¬ (b.Total > a.Total))

/-- Insertion of one element into a slice sorted by total, after the elements of
equal total. -/
def insertByTotal (p : UserProfit) : List UserProfit → List UserProfit
  | [] => [p]
  | q :: rest => if p.Total > q.Total then p :: q :: rest else q :: insertByTotal p rest

/-- An insertion sort by descending total, one admissible outcome of `sort.Slice`. -/
def sortByTotal (l : List UserProfit) : List UserProfit :=
  l.foldr insertByTotal []

/-- Two records with equal amounts for the users `A` and `B`. -/
def tiedRecords : List ProfitRecord :=
  [{ ID := 1, UserID := "A", ItemID := 1, ItemName := "ring", Amount := 5,
     TransactionDate := 2 },
   { ID := 2, UserID := "B", ItemID := 1, ItemName := "ring", Amount := 5,
     TransactionDate := 2 }]

/-! ## Profit queries (`db/db.go`, lines 441-485) -/

/-- SQLite `SUM` over integers, accumulated in row order: an integer overflow at
any point of the computation is an error (`none`). -/
def sumInt64 : Int → List Int → Option Int
  | acc, [] => some acc
  | acc, x :: xs =>
    if -(2 : Int) ^ 63 ≤ acc + x ∧ acc + x < (2 : Int) ^ 63 then sumInt64 (acc + x) xs
    else none

/-- Rows of `profit_history p JOIN items i ON p.item_id = i.id WHERE p.user_id = ?`
as Go `ProfitRecord` values. -/
def joinedProfitRows (s : Store) (userID : String) : List ProfitRecord :=
  (s.profit_history.filter (fun p => decide (p.user_id = userID))).flatMap (fun p =>
    (s.items.filter (fun i => decide (p.item_id = i.id))).map (fun i =>
      { ID := p.id, UserID := p.user_id, ItemID := p.item_id, ItemName := i.name,
        Amount := p.amount, TransactionDate := p.transaction_date }))

/-- Function `GetUserProfitHistory` (lines 442-473): the user ID is cleaned, then
the joined rows are read.  `orderBy` is the order in which SQLite returns the
rows for `ORDER BY p.transaction_date DESC`.  Driver calls: 0 the query, then
one `Scan` per row. -/
def GetUserProfitHistory (faults : Faults) (orderBy : List ProfitRecord → List ProfitRecord)
    (userID : String) (s : Store) : Except DbError (List ProfitRecord) :=
  let userID := cleanUserID userID
  if faults 0 then .error (.driver 0)
  else
    let rows := orderBy (joinedProfitRows s userID)
    match (List.range rows.length).find? (fun i => faults (1 + i)) with
    | some i => .error (.driver (1 + i))
    | none => .ok rows

/-- Function `GetTotalUserProfit` (lines 476-485): `COALESCE(SUM(amount), 0)` over
the ledger rows whose `user_id` is the argument as given; on an error `total`
keeps its zero value.  Driver call 0 is the query with its `Scan`, which also
reports the overflow of `SUM`. -/
def GetTotalUserProfit (faults : Faults) (userID : String) (s : Store) :
    Int × Option DbError :=
  if faults 0 then (0, some (.driver 0))
  else
    match sumInt64 0
        ((s.profit_history.filter (fun p => decide (p.user_id = userID))).map
          (fun p => p.amount)) with
    | some total => (total, none)
    | none => (0, some (.driver 0))

/-- The sum of the `Amount` fields of the records `GetUserProfitHistory` returns,
0 when it fails. -/
def historyTotal (faults : Faults) (orderBy : List ProfitRecord → List ProfitRecord)
    (userID : String) (s : Store) : Int :=
  match GetUserProfitHistory faults orderBy userID s with
  | .ok records => (records.map (fun r => r.Amount)).sum
  | .error _ => 0

/-- Every ledger row has exactly one item row: the primary key of `items` and the
foreign key of `profit_history` that the schema declares. -/
def ledgerRowsHaveOneItem (s : Store) : Prop :=
  ∀ p ∈ s.profit_history, (s.items.filter (fun i => decide (p.item_id = i.id))).length = 1

instance (s : Store) : Decidable (ledgerRowsHaveOneItem s) := by
  unfold ledgerRowsHaveOneItem
  infer_instance

/-- The store after the user `123` added a gem alone and sold it for 10. -/
def gemSold123 : Store :=
  (handleSlashSell id List.reverse id noFaults noFaults 3 "123" (some 1) 10
    (handleSlashAdd noFaults noFaults 1 2 "99" "123" none "gem" 10 "" emptyStore).2).2
/-! ## Lemmas on the map embedding -/

theorem sharesKeys_tabulate (us : List String) (f : String → Int) :
    sharesKeys (tabulate us f) = us := by
  induction us with
  | nil => rfl
  | cons u us ih =>
    simp only [tabulate, sharesKeys, List.map_cons, List.cons.injEq, true_and] at ih ⊢
    exact ih

theorem sharesGet_tabulate (us : List String) (f : String → Int) (k : String)
    (hk : k ∈ us) : sharesGet (tabulate us f) k = f k := by
  induction us with
  | nil => cases hk
  | cons u us ih =>
    simp only [tabulate, List.map_cons, sharesGet]
    by_cases h : u = k
    · simp [h]
    · rw [if_neg h]
      rcases List.mem_cons.1 hk with h1 | h1
      · exact absurd h1.symm h
      · exact ih h1

theorem sharesGet_tabulate_not_mem (us : List String) (f : String → Int) (k : String)
    (hk : k ∉ us) : sharesGet (tabulate us f) k = 0 := by
  induction us with
  | nil => rfl
  | cons u us ih =>
    simp only [tabulate, List.map_cons, sharesGet]
    have h : u ≠ k := fun h => hk (h ▸ List.mem_cons_self _ _)
    rw [if_neg h]
    exact ih (fun h1 => hk (List.mem_cons_of_mem _ h1))

theorem tabulate_congr (us : List String) (f g : String → Int)
    (h : ∀ u ∈ us, f u = g u) : tabulate us f = tabulate us g := by
  unfold tabulate
  exact List.map_congr_left (fun u hu => by rw [h u hu])

theorem sharesSet_tabulate (us : List String) (f : String → Int) (k : String) (v : Int)
    (hnd : us.Nodup) (hk : k ∈ us) :
    sharesSet (tabulate us f) k v = tabulate us (fun u => if u = k then v else f u) := by
  induction us with
  | nil => cases hk
  | cons u us ih =>
    have hnd' := List.nodup_cons.1 hnd
    by_cases h : u = k
    · subst h
      have hrest : tabulate us (fun x => if x = u then v else f x) = tabulate us f :=
        tabulate_congr _ _ _ (fun x hx => by
          have : x ≠ u := fun e => hnd'.1 (e ▸ hx)
          simp [this])
      simp only [tabulate, List.map_cons, sharesSet, if_true] at hrest ⊢
      rw [hrest]
    · have hk' : k ∈ us := by
        rcases List.mem_cons.1 hk with h1 | h1
        · exact absurd h1.symm h
        · exact h1
      have := ih hnd'.2 hk'
      simp only [tabulate, List.map_cons, sharesSet, if_neg h] at this ⊢
      rw [this]

theorem sharesSet_tabulate_not_mem (us : List String) (f : String → Int) (k : String)
    (v : Int) (hk : k ∉ us) :
    sharesSet (tabulate us f) k v = tabulate us f ++ [(k, v)] := by
  induction us with
  | nil => rfl
  | cons u us ih =>
    have h : u ≠ k := fun h => hk (h ▸ List.mem_cons_self _ _)
    have := ih (fun h1 => hk (List.mem_cons_of_mem _ h1))
    simp only [tabulate, List.map_cons, sharesSet, if_neg h, List.cons_append] at this ⊢
    rw [this]

theorem sharesIncr_tabulate (us : List String) (f : String → Int) (k : String)
    (hnd : us.Nodup) (hk : k ∈ us) :
    sharesIncr (tabulate us f) k = tabulate us (fun u => f u + if u = k then 1 else 0) := by
  unfold sharesIncr
  rw [sharesGet_tabulate us f k hk, sharesSet_tabulate us f k _ hnd hk]
  apply tabulate_congr
  intro u _
  by_cases h : u = k
  · simp [h]
  · simp [h]

theorem foldl_sharesIncr_tabulate (l us : List String) (f : String → Int)
    (hnd : us.Nodup) (hl : l.Nodup) (hsub : ∀ u ∈ l, u ∈ us) :
    l.foldl sharesIncr (tabulate us f)
      = tabulate us (fun u => f u + if u ∈ l then 1 else 0) := by
  induction l generalizing f with
  | nil => simp
  | cons a l ih =>
    have hl' := List.nodup_cons.1 hl
    rw [List.foldl_cons, sharesIncr_tabulate us f a hnd (hsub a (List.mem_cons_self _ _)),
      ih _ hl'.2 (fun u hu => hsub u (List.mem_cons_of_mem _ hu))]
    apply tabulate_congr
    intro u _
    by_cases h : u = a
    · subst h
      simp [hl'.1]
    · simp [h]

theorem initShares_eq (base : Int) (ps : List Participant) (hnd : (userIDs ps).Nodup) :
    initShares base ps = tabulate (userIDs ps) (fun _ => base) := by
  have key : ∀ (qs : List Participant) (acc : List String),
      (acc ++ userIDs qs).Nodup →
      qs.foldl (fun m p => sharesSet m p.UserID base) (tabulate acc (fun _ => base))
        = tabulate (acc ++ userIDs qs) (fun _ => base) := by
    intro qs
    induction qs with
    | nil => intro acc _; simp [userIDs]
    | cons q qs ih =>
      intro acc h
      have hq : q.UserID ∉ acc := by
        intro hmem
        have := (List.nodup_append.1 h).2.2
        exact this hmem (by simp [userIDs])
      rw [List.foldl_cons, sharesSet_tabulate_not_mem acc _ _ _ hq]
      have e : tabulate acc (fun _ => base) ++ [(q.UserID, base)]
          = tabulate (acc ++ [q.UserID]) (fun _ => base) := by
        simp [tabulate]
      rw [e, ih (acc ++ [q.UserID]) (by simpa [userIDs] using h)]
      simp [userIDs]
  have := key ps [] (by simpa using hnd)
  simpa [initShares, tabulate] using this

/-! ## Lemmas on the share computation -/

theorem otherParticipants_eq (ps : List Participant) (seller : String) :
    otherParticipants ps seller = (userIDs ps).filter (fun u => u ≠ seller) := by
  induction ps with
  | nil => rfl
  | cons p ps ih =>
    unfold otherParticipants userIDs at *
    by_cases h : p.UserID = seller
    · simp [List.filter_cons, h] at ih ⊢
      exact ih
    · simp [List.filter_cons, h] at ih ⊢
      exact ih

theorem otherParticipants_nodup (ps : List Participant) (seller : String)
    (hnd : (userIDs ps).Nodup) : (otherParticipants ps seller).Nodup := by
  rw [otherParticipants_eq]
  exact hnd.filter _

theorem mem_otherParticipants (ps : List Participant) (seller u : String) :
    u ∈ otherParticipants ps seller ↔ u ∈ userIDs ps ∧ u ≠ seller := by
  rw [otherParticipants_eq]
  simp

theorem otherParticipants_length (ps : List Participant) (seller : String)
    (hnd : (userIDs ps).Nodup) (hs : seller ∈ userIDs ps) :
    (otherParticipants ps seller).length + 1 = ps.length := by
  rw [otherParticipants_eq]
  have h1 : (userIDs ps).filter (fun u => u ≠ seller) = (userIDs ps).erase seller := by
    rw [hnd.erase_eq_filter]
    apply List.filter_congr
    intro x _
    by_cases hx : x = seller <;> simp [hx]
  rw [h1, List.length_erase_of_mem hs]
  have hlen : (userIDs ps).length = ps.length := by simp [userIDs]
  have hpos : 0 < (userIDs ps).length := List.length_pos_of_mem hs
  omega

theorem saleRemainder_nonneg (saleAmount : Int) (ps : List Participant)
    (h0 : 0 ≤ saleAmount) : 0 ≤ saleRemainder saleAmount ps := by
  unfold saleRemainder
  rw [Int.tmod_eq_emod h0 (Int.ofNat_nonneg _)]
  by_cases h : (ps.length : Int) = 0
  · rw [h]; simpa using h0
  · exact Int.emod_nonneg _ h

theorem saleRemainder_lt (saleAmount : Int) (ps : List Participant)
    (h0 : 0 ≤ saleAmount) (hn : 1 ≤ ps.length) :
    saleRemainder saleAmount ps < (ps.length : Int) := by
  unfold saleRemainder
  rw [Int.tmod_eq_emod h0 (Int.ofNat_nonneg _)]
  exact Int.emod_lt_of_pos _ (by omega)

theorem base_mul_add_remainder (saleAmount : Int) (ps : List Participant) :
    (ps.length : Int) * baseShareAmount saleAmount ps + saleRemainder saleAmount ps
      = saleAmount := by
  unfold baseShareAmount saleRemainder
  have := Int.tmod_add_tdiv saleAmount (ps.length : Int)
  omega

theorem luckyParticipants_sub (shuffle : List String → List String)
    (hsh : ∀ l, (shuffle l).Perm l) (ps : List Participant) (seller : String) (r : Int)
    (u : String) (hu : u ∈ luckyParticipants shuffle ps seller r) :
    u ∈ userIDs ps ∧ u ≠ seller := by
  have h1 : u ∈ shuffle (otherParticipants ps seller) := List.mem_of_mem_take hu
  exact (mem_otherParticipants ps seller u).1 ((hsh _).mem_iff.1 h1)

theorem luckyParticipants_nodup (shuffle : List String → List String)
    (hsh : ∀ l, (shuffle l).Perm l) (ps : List Participant) (seller : String) (r : Int)
    (hnd : (userIDs ps).Nodup) : (luckyParticipants shuffle ps seller r).Nodup := by
  unfold luckyParticipants
  have h1 : (shuffle (otherParticipants ps seller)).Nodup :=
    (hsh _).nodup_iff.2 (otherParticipants_nodup ps seller hnd)
  exact h1.sublist (List.take_sublist _ _)

theorem luckyParticipants_length (shuffle : List String → List String)
    (hsh : ∀ l, (shuffle l).Perm l) (ps : List Participant) (seller : String) (r : Int)
    (hr : r.toNat ≤ (otherParticipants ps seller).length) :
    (luckyParticipants shuffle ps seller r).length = r.toNat := by
  unfold luckyParticipants
  rw [List.length_take, (hsh _).length_eq]
  omega

theorem bumped_nodup (shuffle : List String → List String)
    (hsh : ∀ l, (shuffle l).Perm l) (saleAmount : Int) (ps : List Participant)
    (seller : String) (hnd : (userIDs ps).Nodup) :
    (bumped shuffle saleAmount ps seller).Nodup := by
  unfold bumped
  split
  · refine List.nodup_cons.2 ⟨?_, luckyParticipants_nodup shuffle hsh ps seller _ hnd⟩
    intro h
    exact (luckyParticipants_sub shuffle hsh ps seller _ seller h).2 rfl
  · exact List.nodup_nil

theorem bumped_sub (shuffle : List String → List String)
    (hsh : ∀ l, (shuffle l).Perm l) (saleAmount : Int) (ps : List Participant)
    (seller : String) (hs : seller ∈ userIDs ps) (u : String)
    (hu : u ∈ bumped shuffle saleAmount ps seller) : u ∈ userIDs ps := by
  unfold bumped at hu
  split at hu
  · rcases List.mem_cons.1 hu with h | h
    · exact h ▸ hs
    · exact (luckyParticipants_sub shuffle hsh ps seller _ u h).1
  · cases hu

theorem bumped_length (shuffle : List String → List String)
    (hsh : ∀ l, (shuffle l).Perm l) (saleAmount : Int) (ps : List Participant)
    (seller : String) (h0 : 0 ≤ saleAmount) (hnd : (userIDs ps).Nodup)
    (hs : seller ∈ userIDs ps) :
    ((bumped shuffle saleAmount ps seller).length : Int) = saleRemainder saleAmount ps := by
  have hn : 1 ≤ ps.length := by
    have : 0 < (userIDs ps).length := List.length_pos_of_mem hs
    simpa [userIDs] using this
  have hlt := saleRemainder_lt saleAmount ps h0 hn
  have hge := saleRemainder_nonneg saleAmount ps h0
  have hlen := otherParticipants_length ps seller hnd hs
  unfold bumped
  split
  · rw [List.length_cons, luckyParticipants_length shuffle hsh ps seller _ (by omega)]
    omega
  · simp only [List.length_nil]
    omega

/-- Closed form of the computed map: every participant, in slice order, with the
base amount plus one exactly for the incremented ones. -/
theorem handleSlashSellShares_eq (shuffle : List String → List String)
    (hsh : ∀ l, (shuffle l).Perm l) (saleAmount : Int) (ps : List Participant)
    (seller : String) (hnd : (userIDs ps).Nodup) (hs : seller ∈ userIDs ps) :
    handleSlashSellShares shuffle saleAmount ps seller
      = some (tabulate (userIDs ps) (fun u => baseShareAmount saleAmount ps
          + if u ∈ bumped shuffle saleAmount ps seller then 1 else 0)) := by
  have hn : ps.length ≠ 0 := by
    have : 0 < (userIDs ps).length := List.length_pos_of_mem hs
    have e : (userIDs ps).length = ps.length := by simp [userIDs]
    omega
  unfold handleSlashSellShares
  rw [if_neg hn]
  simp only [initShares_eq _ ps hnd]
  by_cases hr : saleRemainder saleAmount ps > 0
  · rw [if_pos hr, sharesIncr_tabulate _ _ _ hnd hs]
    have hb : bumped shuffle saleAmount ps seller
        = seller :: luckyParticipants shuffle ps seller (saleRemainder saleAmount ps - 1) := by
      unfold bumped; rw [if_pos hr]
    by_cases hr1 : saleRemainder saleAmount ps - 1 = 0
    · rw [if_pos hr1]
      congr 1
      apply tabulate_congr
      intro u _
      have : luckyParticipants shuffle ps seller (saleRemainder saleAmount ps - 1) = [] := by
        unfold luckyParticipants; rw [hr1]; simp
      rw [hb, this]
      simp
    · rw [if_neg hr1]
      congr 1
      rw [foldl_sharesIncr_tabulate _ _ _ hnd
        (luckyParticipants_nodup shuffle hsh ps seller _ hnd)
        (fun u hu => (luckyParticipants_sub shuffle hsh ps seller _ u hu).1)]
      apply tabulate_congr
      intro u _
      rw [hb]
      by_cases hu : u = seller
      · subst hu
        have : u ∉ luckyParticipants shuffle ps u (saleRemainder saleAmount ps - 1) :=
          fun h => (luckyParticipants_sub shuffle hsh ps u _ u h).2 rfl
        simp [this]
      · simp [hu]
  · rw [if_neg hr]
    congr 1
    apply tabulate_congr
    intro u _
    unfold bumped
    rw [if_neg hr]
    simp

/-- Counting the members of a duplicate-free sublist through an indicator sum. -/
theorem sum_indicator (us l : List String) (hnd : us.Nodup) (hl : l.Nodup)
    (hsub : ∀ u ∈ l, u ∈ us) :
    (us.map (fun u => if u ∈ l then (1 : Int) else 0)).sum = (l.length : Int) := by
  have h1 : ∀ (xs : List String),
      (xs.map (fun u => if u ∈ l then (1 : Int) else 0)).sum
        = ((xs.filter (fun u => decide (u ∈ l))).length : Int) := by
    intro xs
    induction xs with
    | nil => rfl
    | cons x xs ih =>
      by_cases hx : x ∈ l
      · simp [List.filter_cons, hx, ih]; omega
      · simp [List.filter_cons, hx, ih]
  rw [h1]
  have hperm : (us.filter (fun u => decide (u ∈ l))).Perm l := by
    rw [List.perm_ext_iff_of_nodup (hnd.filter _) hl]
    intro a
    simp only [List.mem_filter, decide_eq_true_eq]
    exact ⟨fun h => h.2, fun h => ⟨hsub a h, h⟩⟩
  rw [hperm.length_eq]

theorem sharesSum_tabulate (us : List String) (b : Int) (g : String → Int) :
    sharesSum (tabulate us (fun u => b + g u))
      = (us.length : Int) * b + (us.map g).sum := by
  induction us with
  | nil => simp [sharesSum, tabulate]
  | cons u us ih =>
    simp only [sharesSum, tabulate, List.map_cons, List.sum_cons, List.length_cons,
      List.map_map] at ih ⊢
    rw [ih]
    push_cast
    ring

theorem baseShareAmount_eq_div (saleAmount : Int) (ps : List Participant)
    (h0 : 0 ≤ saleAmount) :
    baseShareAmount saleAmount ps = saleAmount / (ps.length : Int) :=
  Int.tdiv_eq_ediv h0 (Int.ofNat_nonneg _)

theorem saleRemainder_eq_mod (saleAmount : Int) (ps : List Participant)
    (h0 : 0 ≤ saleAmount) :
    saleRemainder saleAmount ps = saleAmount % (ps.length : Int) :=
  Int.tmod_eq_emod h0 (Int.ofNat_nonneg _)

theorem length_filter_mem (us l : List String) (hnd : us.Nodup) (hl : l.Nodup)
    (hsub : ∀ u ∈ l, u ∈ us) :
    (us.filter (fun u => decide (u ∈ l))).length = l.length := by
  have hperm : (us.filter (fun u => decide (u ∈ l))).Perm l := by
    rw [List.perm_ext_iff_of_nodup (hnd.filter _) hl]
    intro a
    simp only [List.mem_filter, decide_eq_true_eq]
    exact ⟨fun h => h.2, fun h => ⟨hsub a h, h⟩⟩
  exact hperm.length_eq

/-- When at most one unit is left over the shuffle is never consulted. -/
theorem handleSlashSellShares_small_remainder (sh : List String → List String)
    (saleAmount : Int) (ps : List Participant) (seller : String)
    (hr : saleRemainder saleAmount ps ≤ 1) :
    handleSlashSellShares sh saleAmount ps seller
      = handleSlashSellShares id saleAmount ps seller := by
  unfold handleSlashSellShares
  by_cases hn : ps.length = 0
  · simp [hn]
  · simp only [if_neg hn]
    by_cases h : saleRemainder saleAmount ps > 0
    · have h1 : saleRemainder saleAmount ps - 1 = 0 := by omega
      simp only [if_pos h, if_pos h1]
    · simp only [if_neg h]

/-! ## The share allocation -/

/-- C1: for every sale amount `≥ 0`, duplicate-free participant list of size
`n ≥ 1`, seller in the list and shuffle outcome, the computed shares sum to the
sale amount exactly. -/
theorem shares_sum_eq_saleAmount (shuffle : List String → List String)
    (hsh : ∀ l, (shuffle l).Perm l) (saleAmount : Int) (ps : List Participant)
    (seller : String) (h0 : 0 ≤ saleAmount) (_hn : 1 ≤ ps.length)
    (hnd : (userIDs ps).Nodup) (hs : seller ∈ userIDs ps) :
    ∃ m, handleSlashSellShares shuffle saleAmount ps seller = some m
      ∧ sharesSum m = saleAmount := by
  refine ⟨_, handleSlashSellShares_eq shuffle hsh saleAmount ps seller hnd hs, ?_⟩
  rw [sharesSum_tabulate,
    sum_indicator _ _ hnd (bumped_nodup shuffle hsh saleAmount ps seller hnd)
      (bumped_sub shuffle hsh saleAmount ps seller hs),
    bumped_length shuffle hsh saleAmount ps seller h0 hnd hs]
  have hlen : (userIDs ps).length = ps.length := by simp [userIDs]
  rw [hlen]
  exact base_mul_add_remainder saleAmount ps

theorem shares_sum_eq_saleAmount_witness :
    (0 : Int) ≤ 101 ∧ (userIDs abc).Nodup ∧ "A" ∈ userIDs abc ∧
    ∃ m, handleSlashSellShares List.reverse 101 abc "A" = some m ∧ sharesSum m = 101 :=
  ⟨by decide, by decide, by decide,
    shares_sum_eq_saleAmount List.reverse (fun l => List.reverse_perm l) 101 abc "A"
      (by decide) (by decide) (by decide) (by decide)⟩

/-- C2: for every sale amount `≥ 0`, duplicate-free participant list of size
`n ≥ 1`, seller in the list and shuffle outcome, each participant's share is
`base` or `base + 1` with `base = saleAmount / n`, hence never above `base + 1`;
the same holds of every entry of the map. -/
theorem share_is_base_or_succ (shuffle : List String → List String)
    (hsh : ∀ l, (shuffle l).Perm l) (saleAmount : Int) (ps : List Participant)
    (seller : String) (h0 : 0 ≤ saleAmount) (_hn : 1 ≤ ps.length)
    (hnd : (userIDs ps).Nodup) (hs : seller ∈ userIDs ps) :
    ∃ m, handleSlashSellShares shuffle saleAmount ps seller = some m
      ∧ (∀ u ∈ userIDs ps,
          (sharesGet m u = saleAmount / (ps.length : Int)
            ∨ sharesGet m u = saleAmount / (ps.length : Int) + 1)
          ∧ sharesGet m u ≤ saleAmount / (ps.length : Int) + 1)
      ∧ (∀ kv ∈ m, kv.2 = saleAmount / (ps.length : Int)
          ∨ kv.2 = saleAmount / (ps.length : Int) + 1) := by
  refine ⟨_, handleSlashSellShares_eq shuffle hsh saleAmount ps seller hnd hs, ?_, ?_⟩
  · intro u hu
    rw [sharesGet_tabulate _ _ _ hu, baseShareAmount_eq_div _ _ h0]
    by_cases hb : u ∈ bumped shuffle saleAmount ps seller
    · simp [hb]
    · simp [hb]
  · intro kv hkv
    simp only [tabulate, List.mem_map] at hkv
    obtain ⟨u, _, rfl⟩ := hkv
    rw [baseShareAmount_eq_div _ _ h0]
    by_cases hb : u ∈ bumped shuffle saleAmount ps seller
    · simp [hb]
    · simp [hb]

theorem share_is_base_or_succ_witness :
    ∃ m, handleSlashSellShares List.reverse 101 abc "A" = some m
      ∧ (∀ u ∈ userIDs abc,
          (sharesGet m u = 101 / ((abc.length : Nat) : Int)
            ∨ sharesGet m u = 101 / ((abc.length : Nat) : Int) + 1)
          ∧ sharesGet m u ≤ 101 / ((abc.length : Nat) : Int) + 1)
      ∧ (∀ kv ∈ m, kv.2 = 101 / ((abc.length : Nat) : Int)
          ∨ kv.2 = 101 / ((abc.length : Nat) : Int) + 1) :=
  share_is_base_or_succ List.reverse (fun l => List.reverse_perm l) 101 abc "A"
    (by decide) (by decide) (by decide) (by decide)

/-- C3: for every sale amount `≥ 0` and duplicate-free participant list of size
`n ≥ 1` containing the seller, the seller's share is `base + 1` when
`saleAmount mod n > 0` and `base` when `saleAmount mod n = 0`, whatever the
shuffle; it is never below `base`. -/
theorem seller_share (shuffle : List String → List String)
    (hsh : ∀ l, (shuffle l).Perm l) (saleAmount : Int) (ps : List Participant)
    (seller : String) (h0 : 0 ≤ saleAmount) (_hn : 1 ≤ ps.length)
    (hnd : (userIDs ps).Nodup) (hs : seller ∈ userIDs ps) :
    ∃ m, handleSlashSellShares shuffle saleAmount ps seller = some m
      ∧ (saleAmount % (ps.length : Int) > 0 →
          sharesGet m seller = saleAmount / (ps.length : Int) + 1)
      ∧ (saleAmount % (ps.length : Int) = 0 →
          sharesGet m seller = saleAmount / (ps.length : Int))
      ∧ saleAmount / (ps.length : Int) ≤ sharesGet m seller := by
  refine ⟨_, handleSlashSellShares_eq shuffle hsh saleAmount ps seller hnd hs, ?_, ?_, ?_⟩
  · intro hr
    rw [sharesGet_tabulate _ _ _ hs, baseShareAmount_eq_div _ _ h0]
    have : seller ∈ bumped shuffle saleAmount ps seller := by
      unfold bumped
      rw [saleRemainder_eq_mod _ _ h0, if_pos hr]
      exact List.mem_cons_self _ _
    simp [this]
  · intro hr
    rw [sharesGet_tabulate _ _ _ hs, baseShareAmount_eq_div _ _ h0]
    have : bumped shuffle saleAmount ps seller = [] := by
      unfold bumped
      rw [saleRemainder_eq_mod _ _ h0, hr]
      simp
    simp [this]
  · rw [sharesGet_tabulate _ _ _ hs, baseShareAmount_eq_div _ _ h0]
    by_cases hb : seller ∈ bumped shuffle saleAmount ps seller
    · simp [hb]
    · simp [hb]

theorem seller_share_witness :
    ∃ m, handleSlashSellShares List.reverse 101 abc "A" = some m
      ∧ ((101 : Int) % ((abc.length : Nat) : Int) > 0 →
          sharesGet m "A" = 101 / ((abc.length : Nat) : Int) + 1)
      ∧ ((101 : Int) % ((abc.length : Nat) : Int) = 0 →
          sharesGet m "A" = 101 / ((abc.length : Nat) : Int))
      ∧ 101 / ((abc.length : Nat) : Int) ≤ sharesGet m "A" :=
  seller_share List.reverse (fun l => List.reverse_perm l) 101 abc "A"
    (by decide) (by decide) (by decide) (by decide)

/-- C4: for every sale amount `≥ 0`, duplicate-free participant list of size
`n ≥ 1` containing the seller and shuffle outcome, the number of participants
whose share is `base + 1` (the seller counted) is exactly `saleAmount mod n`,
and every other participant receives `base`. -/
theorem bonus_count_eq_remainder (shuffle : List String → List String)
    (hsh : ∀ l, (shuffle l).Perm l) (saleAmount : Int) (ps : List Participant)
    (seller : String) (h0 : 0 ≤ saleAmount) (_hn : 1 ≤ ps.length)
    (hnd : (userIDs ps).Nodup) (hs : seller ∈ userIDs ps) :
    ∃ m, handleSlashSellShares shuffle saleAmount ps seller = some m
      ∧ ((((userIDs ps).filter
            (fun u => decide (sharesGet m u = saleAmount / (ps.length : Int) + 1))).length
            : Nat) : Int) = saleAmount % (ps.length : Int)
      ∧ (∀ u ∈ userIDs ps, sharesGet m u ≠ saleAmount / (ps.length : Int) + 1 →
          sharesGet m u = saleAmount / (ps.length : Int)) := by
  refine ⟨_, handleSlashSellShares_eq shuffle hsh saleAmount ps seller hnd hs, ?_, ?_⟩
  · have hf : (userIDs ps).filter (fun u => decide (sharesGet
          (tabulate (userIDs ps) (fun u => baseShareAmount saleAmount ps
            + if u ∈ bumped shuffle saleAmount ps seller then 1 else 0)) u
          = saleAmount / (ps.length : Int) + 1))
        = (userIDs ps).filter (fun u => decide (u ∈ bumped shuffle saleAmount ps seller)) := by
      apply List.filter_congr
      intro u hu
      rw [sharesGet_tabulate _ _ _ hu, baseShareAmount_eq_div _ _ h0]
      by_cases hb : u ∈ bumped shuffle saleAmount ps seller
      · simp [hb]
      · simp [hb]
    rw [hf, length_filter_mem _ _ hnd (bumped_nodup shuffle hsh saleAmount ps seller hnd)
        (bumped_sub shuffle hsh saleAmount ps seller hs),
      bumped_length shuffle hsh saleAmount ps seller h0 hnd hs,
      saleRemainder_eq_mod _ _ h0]
  · intro u hu
    rw [sharesGet_tabulate _ _ _ hu, baseShareAmount_eq_div _ _ h0]
    by_cases hb : u ∈ bumped shuffle saleAmount ps seller
    · simp [hb]
    · simp [hb]

theorem bonus_count_eq_remainder_witness :
    ∃ m, handleSlashSellShares List.reverse 101 abc "A" = some m
      ∧ ((((userIDs abc).filter
            (fun u => decide (sharesGet m u = 101 / ((abc.length : Nat) : Int) + 1))).length
            : Nat) : Int) = 101 % ((abc.length : Nat) : Int)
      ∧ (∀ u ∈ userIDs abc, sharesGet m u ≠ 101 / ((abc.length : Nat) : Int) + 1 →
          sharesGet m u = 101 / ((abc.length : Nat) : Int)) :=
  bonus_count_eq_remainder List.reverse (fun l => List.reverse_perm l) 101 abc "A"
    (by decide) (by decide) (by decide) (by decide)

/-- C5: for every duplicate-free participant list of size `n ≥ 1` that contains
the seller, the key set of the computed map is exactly the set of participant
IDs: no key occurs twice, a string is a key iff it is a participant ID, and the
map has `n` entries. -/
theorem shares_keys_eq_participants (shuffle : List String → List String)
    (hsh : ∀ l, (shuffle l).Perm l) (saleAmount : Int) (ps : List Participant)
    (seller : String) (_hn : 1 ≤ ps.length)
    (hnd : (userIDs ps).Nodup) (hs : seller ∈ userIDs ps) :
    ∃ m, handleSlashSellShares shuffle saleAmount ps seller = some m
      ∧ (sharesKeys m).Nodup
      ∧ (∀ u, u ∈ sharesKeys m ↔ u ∈ userIDs ps)
      ∧ m.length = ps.length := by
  refine ⟨_, handleSlashSellShares_eq shuffle hsh saleAmount ps seller hnd hs, ?_, ?_, ?_⟩
  · rw [sharesKeys_tabulate]; exact hnd
  · intro u; rw [sharesKeys_tabulate]
  · simp [tabulate, userIDs]

theorem shares_keys_eq_participants_witness :
    ∃ m, handleSlashSellShares List.reverse 101 abc "A" = some m
      ∧ (sharesKeys m).Nodup
      ∧ (∀ u, u ∈ sharesKeys m ↔ u ∈ userIDs abc)
      ∧ m.length = abc.length :=
  shares_keys_eq_participants List.reverse (fun l => List.reverse_perm l) 101 abc "A"
    (by decide) (by decide) (by decide)

/-- C6: for every sale amount `≥ 0` and duplicate-free participant list of size
`n ≥ 1` containing the seller, the remainder left after the seller's unit is at
most `n - 1`, which is the number of non-seller participants, so the loop visits
exactly that many of them: every remaining unit is handed out. -/
theorem remainder_le_others (shuffle : List String → List String)
    (hsh : ∀ l, (shuffle l).Perm l) (saleAmount : Int) (ps : List Participant)
    (seller : String) (h0 : 0 ≤ saleAmount) (hn : 1 ≤ ps.length)
    (hnd : (userIDs ps).Nodup) (hs : seller ∈ userIDs ps)
    (hr : 0 < saleRemainder saleAmount ps) :
    saleRemainder saleAmount ps - 1 ≤ (ps.length : Int) - 1
      ∧ (((otherParticipants ps seller).length : Nat) : Int) = (ps.length : Int) - 1
      ∧ (((luckyParticipants shuffle ps seller (saleRemainder saleAmount ps - 1)).length
            : Nat) : Int) = saleRemainder saleAmount ps - 1 := by
  have hlt := saleRemainder_lt saleAmount ps h0 hn
  have hlen := otherParticipants_length ps seller hnd hs
  refine ⟨by omega, by omega, ?_⟩
  rw [luckyParticipants_length shuffle hsh ps seller _ (by omega)]
  omega

theorem remainder_le_others_witness :
    saleRemainder 101 abc - 1 ≤ ((abc.length : Nat) : Int) - 1
      ∧ (((otherParticipants abc "A").length : Nat) : Int) = ((abc.length : Nat) : Int) - 1
      ∧ (((luckyParticipants List.reverse abc "A" (saleRemainder 101 abc - 1)).length
            : Nat) : Int) = saleRemainder 101 abc - 1 :=
  remainder_le_others List.reverse (fun l => List.reverse_perm l) 101 abc "A"
    (by decide) (by decide) (by decide) (by decide) (by decide)

/-- C7: whenever `saleAmount ≥ 0` and `saleAmount mod n ≤ 1` (`n ≥ 1` distinct
participants, the seller among them) the shares map is the same for every
shuffle: the seller receives `base + (saleAmount mod n)` and every other
participant `base`; a single-participant item gives the seller the whole sale
amount. -/
theorem shares_independent_of_shuffle (saleAmount : Int) (ps : List Participant)
    (seller : String) (h0 : 0 ≤ saleAmount) (_hn : 1 ≤ ps.length)
    (hnd : (userIDs ps).Nodup) (hs : seller ∈ userIDs ps)
    (hr : saleAmount % (ps.length : Int) ≤ 1) :
    ∃ m, (∀ shuffle : List String → List String,
          handleSlashSellShares shuffle saleAmount ps seller = some m)
      ∧ sharesGet m seller = saleAmount / (ps.length : Int) + saleAmount % (ps.length : Int)
      ∧ (∀ u ∈ userIDs ps, u ≠ seller → sharesGet m u = saleAmount / (ps.length : Int))
      ∧ (ps.length = 1 → sharesGet m seller = saleAmount) := by
  have hperm : ∀ l : List String, (id l).Perm l := fun l => List.Perm.refl l
  have hr' : saleRemainder saleAmount ps ≤ 1 := by rw [saleRemainder_eq_mod _ _ h0]; exact hr
  have hge := saleRemainder_nonneg saleAmount ps h0
  have hb : bumped id saleAmount ps seller
      = if saleRemainder saleAmount ps > 0 then [seller] else [] := by
    unfold bumped
    by_cases h : saleRemainder saleAmount ps > 0
    · have h1 : saleRemainder saleAmount ps - 1 = 0 := by omega
      simp [h, luckyParticipants, h1]
    · simp [h]
  have hseller : sharesGet (tabulate (userIDs ps) (fun u => baseShareAmount saleAmount ps
        + if u ∈ bumped id saleAmount ps seller then 1 else 0)) seller
      = saleAmount / (ps.length : Int) + saleAmount % (ps.length : Int) := by
    rw [sharesGet_tabulate _ _ _ hs, baseShareAmount_eq_div _ _ h0, hb,
      ← saleRemainder_eq_mod _ _ h0]
    by_cases h : saleRemainder saleAmount ps > 0
    · have h1 : saleRemainder saleAmount ps = 1 := by omega
      simp [h1]
    · have h1 : saleRemainder saleAmount ps = 0 := by omega
      simp [h1]
  refine ⟨_, fun sh => ?_, hseller, ?_, ?_⟩
  · rw [handleSlashSellShares_small_remainder sh saleAmount ps seller hr']
    exact handleSlashSellShares_eq id hperm saleAmount ps seller hnd hs
  · intro u hu hne
    rw [sharesGet_tabulate _ _ _ hu, baseShareAmount_eq_div _ _ h0, hb]
    by_cases h : saleRemainder saleAmount ps > 0
    · simp [h, hne]
    · simp [h]
  · intro h1
    rw [hseller, h1]
    simp

theorem shares_independent_of_shuffle_witness :
    (∃ m, (∀ shuffle : List String → List String,
          handleSlashSellShares shuffle 100 abc "A" = some m)
      ∧ sharesGet m "A" = 100 / ((abc.length : Nat) : Int) + 100 % ((abc.length : Nat) : Int)
      ∧ (∀ u ∈ userIDs abc, u ≠ "A" → sharesGet m u = 100 / ((abc.length : Nat) : Int))
      ∧ (abc.length = 1 → sharesGet m "A" = 100))
    ∧ (∃ m, (∀ shuffle : List String → List String,
          handleSlashSellShares shuffle 7 [mkParticipant 1 "A"] "A" = some m)
      ∧ sharesGet m "A" = 7 / (([mkParticipant 1 "A"].length : Nat) : Int)
          + 7 % (([mkParticipant 1 "A"].length : Nat) : Int)
      ∧ (∀ u ∈ userIDs [mkParticipant 1 "A"], u ≠ "A" →
          sharesGet m u = 7 / (([mkParticipant 1 "A"].length : Nat) : Int))
      ∧ ([mkParticipant 1 "A"].length = 1 → sharesGet m "A" = 7)) :=
  ⟨shares_independent_of_shuffle 100 abc "A"
      (by decide) (by decide) (by decide) (by decide) (by decide),
    shares_independent_of_shuffle 7 [mkParticipant 1 "A"] "A"
      (by decide) (by decide) (by decide) (by decide) (by decide)⟩

/-- Scenario 1: `[A, B, C]`, seller `A`, sold for 100. -/
theorem scenario_100 (shuffle : List String → List String) :
    handleSlashSellShares shuffle 100 abc "A" = some [("A", 34), ("B", 33), ("C", 33)] := by
  rw [handleSlashSellShares_small_remainder shuffle 100 abc "A" (by decide)]
  decide

/-- Scenario 2: `[A, B, C]`, seller `A`, sold for 101: `A` gets 34 and exactly one
of `B`, `C` gets 34. -/
theorem scenario_101 (shuffle : List String → List String)
    (hsh : ∀ l, (shuffle l).Perm l) :
    handleSlashSellShares shuffle 101 abc "A" = some [("A", 34), ("B", 34), ("C", 33)]
      ∨ handleSlashSellShares shuffle 101 abc "A"
          = some [("A", 34), ("B", 33), ("C", 34)] := by
  have hp : (shuffle ["B", "C"]).Perm ["B", "C"] := hsh _
  have hl := hp.length_eq
  have hB : "B" ∈ shuffle ["B", "C"] := hp.mem_iff.2 (by simp)
  have hC : "C" ∈ shuffle ["B", "C"] := hp.mem_iff.2 (by simp)
  have hcases : shuffle ["B", "C"] = ["B", "C"] ∨ shuffle ["B", "C"] = ["C", "B"] := by
    match hxs : shuffle ["B", "C"], hl with
    | [x, y], _ =>
      rw [hxs] at hB hC hp
      have hnd : [x, y].Nodup := hp.nodup_iff.2 (by decide)
      simp only [List.mem_cons, List.mem_singleton, List.not_mem_nil, or_false] at hB hC
      simp only [List.nodup_cons, List.mem_singleton, List.not_mem_nil, not_false_eq_true,
        List.nodup_nil, and_self, and_true] at hnd
      rcases hB with hB | hB <;> rcases hC with hC | hC
      · exact absurd (hB.trans hC.symm) (by decide)
      · left; rw [← hB, ← hC]
      · right; rw [← hB, ← hC]
      · exact absurd (hB.trans hC.symm) (by decide)
  have hother : otherParticipants abc "A" = ["B", "C"] := by decide
  unfold handleSlashSellShares luckyParticipants
  rw [hother]
  rcases hcases with h | h
  · left; rw [h]; decide
  · right; rw [h]; decide

/-- For an `int64` sale amount `≥ 0` every computed share lies in `[0, 2^63)`: the
increments never leave the `int64` range, so the embedding over `Int` loses
nothing. -/
theorem shares_within_int64 (shuffle : List String → List String)
    (hsh : ∀ l, (shuffle l).Perm l) (saleAmount : Int) (ps : List Participant)
    (seller : String) (h0 : 0 ≤ saleAmount) (hmax : saleAmount < 2 ^ 63)
    (hnd : (userIDs ps).Nodup) (hs : seller ∈ userIDs ps) :
    ∃ m, handleSlashSellShares shuffle saleAmount ps seller = some m
      ∧ ∀ kv ∈ m, 0 ≤ kv.2 ∧ kv.2 < 2 ^ 63 := by
  refine ⟨_, handleSlashSellShares_eq shuffle hsh saleAmount ps seller hnd hs, ?_⟩
  intro kv hkv
  simp only [tabulate, List.mem_map] at hkv
  obtain ⟨u, _, rfl⟩ := hkv
  have hn : 1 ≤ ps.length := by
    have : 0 < (userIDs ps).length := List.length_pos_of_mem hs
    simpa [userIDs] using this
  have hb0 : 0 ≤ baseShareAmount saleAmount ps := by
    rw [baseShareAmount_eq_div _ _ h0]
    exact Int.ediv_nonneg h0 (Int.ofNat_nonneg _)
  have hr0 := saleRemainder_nonneg saleAmount ps h0
  have hsum := base_mul_add_remainder saleAmount ps
  have hmul : baseShareAmount saleAmount ps
      ≤ (ps.length : Int) * baseShareAmount saleAmount ps := by
    have h1 : (1 : Int) ≤ (ps.length : Int) := by exact_mod_cast hn
    nlinarith
  by_cases hb : u ∈ bumped shuffle saleAmount ps seller
  · have hr : saleRemainder saleAmount ps > 0 := by
      by_contra hc
      unfold bumped at hb
      rw [if_neg hc] at hb
      cases hb
    simp only [hb, if_true]
    constructor <;> omega
  · simp only [hb, if_false, add_zero]
    constructor <;> omega

theorem shares_within_int64_witness :
    ∃ m, handleSlashSellShares List.reverse 101 abc "A" = some m
      ∧ ∀ kv ∈ m, 0 ≤ kv.2 ∧ kv.2 < 2 ^ 63 :=
  shares_within_int64 List.reverse (fun l => List.reverse_perm l) 101 abc "A"
    (by decide) (by decide) (by decide) (by decide)

/-! ## Lemmas on the store -/

theorem findItem_updateItems (s : Store) (itemID : Int) (f : ItemRow → ItemRow)
    (hf : ∀ it, (f it).id = it.id) :
    findItem (updateItems itemID f s) itemID = (findItem s itemID).map f := by
  unfold findItem updateItems
  simp only
  induction s.items with
  | nil => rfl
  | cons a l ih =>
    by_cases h : a.id = itemID
    · simp [List.find?_cons, h, hf]
    · simp [List.find?_cons, h, ih]

theorem find?_map_fixed {α : Type} (P : α → Bool) (g : α → α) (l : List α)
    (hP : ∀ a, P (g a) = P a) (hg : ∀ a, P a = true → g a = a) :
    (l.map g).find? P = l.find? P := by
  induction l with
  | nil => rfl
  | cons a l ih =>
    rw [List.map_cons, List.find?_cons, List.find?_cons, hP a]
    cases h : P a with
    | true => simp only [hg a h]
    | false => exact ih

theorem findItem_updateItems_ne (s : Store) (itemID other : Int) (f : ItemRow → ItemRow)
    (hf : ∀ it, (f it).id = it.id) (hne : other ≠ itemID) :
    findItem (updateItems other f s) itemID = findItem s itemID := by
  unfold findItem updateItems
  apply find?_map_fixed
  · intro a
    by_cases h : a.id = other
    · simp [h, hf]
    · simp [h]
  · intro a ha
    have h1 : a.id = itemID := by simpa using ha
    have h2 : a.id ≠ other := fun e => hne (e.symm.trans h1)
    simp [h2]

theorem applyShares_cons (itemID : Int) (kv : String × Int) (rest : Shares)
    (p : ParticipantRow) :
    applyShares itemID (kv :: rest) p
      = applyShares itemID rest
          (if p.item_id = itemID ∧ p.user_id = cleanUserID kv.1 then
            { p with share_amount := some kv.2 }
          else p) := rfl

theorem applyShares_keeps (itemID : Int) (shares : Shares) (p : ParticipantRow) :
    (applyShares itemID shares p).id = p.id
      ∧ (applyShares itemID shares p).item_id = p.item_id
      ∧ (applyShares itemID shares p).user_id = p.user_id := by
  induction shares generalizing p with
  | nil => exact ⟨rfl, rfl, rfl⟩
  | cons kv rest ih =>
    rw [applyShares_cons]
    split
    · exact ih _
    · exact ih _

theorem applyShares_other_item (itemID : Int) (shares : Shares) (p : ParticipantRow)
    (h : p.item_id ≠ itemID) : applyShares itemID shares p = p := by
  induction shares with
  | nil => rfl
  | cons kv rest ih =>
    rw [applyShares_cons, if_neg (fun hc => h hc.1)]
    exact ih

theorem applyShares_share (itemID : Int) (shares : Shares) (p : ParticipantRow)
    (hp : p.item_id = itemID) (hnd : (sharesKeys shares).Nodup)
    (hclean : ∀ u ∈ sharesKeys shares, cleanUserID u = u) :
    (applyShares itemID shares p).share_amount
      = if p.user_id ∈ sharesKeys shares then some (sharesGet shares p.user_id)
        else p.share_amount := by
  induction shares generalizing p with
  | nil => simp [applyShares, sharesKeys]
  | cons kv rest ih =>
    obtain ⟨k, v⟩ := kv
    have hnd' : k ∉ sharesKeys rest ∧ (sharesKeys rest).Nodup := by
      simpa [sharesKeys] using hnd
    have hclean' : ∀ u ∈ sharesKeys rest, cleanUserID u = u := fun u hu =>
      hclean u (by simp only [sharesKeys, List.map_cons, List.mem_cons]; exact Or.inr hu)
    have hk : cleanUserID k = k := hclean k (by simp [sharesKeys])
    rw [applyShares_cons]
    simp only [hk]
    by_cases hu : p.user_id = k
    · rw [if_pos ⟨hp, hu⟩, ih { p with share_amount := some v } hp hnd'.2 hclean']
      have h1 : p.user_id ∉ sharesKeys rest := hu ▸ hnd'.1
      simp only [if_neg h1]
      simp [sharesKeys, sharesGet, hu]
    · rw [if_neg (fun hc => hu hc.2), ih p hp hnd'.2 hclean']
      have hk' : ¬ k = p.user_id := fun e => hu e.symm
      simp only [sharesKeys, List.map_cons, List.mem_cons, hu, false_or, sharesGet, hk',
        if_false]

/-- Without driver failures the loop of `MarkItemAsSoldAndDistribute` succeeds:
it leaves the items alone, rewrites the participant rows through `applyShares`
and appends one ledger row per map entry. -/
theorem distributeShares_noFaults (now : Nat) (itemID : Int) (shares : Shares) :
    ∀ (k : Nat) (tx : Store), ∃ tx' new,
      distributeShares noFaults now itemID k shares tx = .ok tx'
      ∧ tx'.items = tx.items
      ∧ tx'.participants = tx.participants.map (applyShares itemID shares)
      ∧ tx'.profit_history = tx.profit_history ++ new
      ∧ new.map ProfitRow.fact
          = shares.map (fun kv => (cleanUserID kv.1, itemID, kv.2, now)) := by
  induction shares with
  | nil =>
    intro k tx
    refine ⟨tx, [], rfl, rfl, ?_, by simp, rfl⟩
    have : applyShares itemID [] = id := by funext p; rfl
    rw [this, List.map_id]
  | cons kv rest ih =>
    intro k tx
    obtain ⟨u, v⟩ := kv
    simp only [distributeShares, noFaults, Bool.false_eq_true, if_false]
    obtain ⟨tx', new, h1, h2, h3, h4, h5⟩ := ih (k + 2)
      { items := tx.items,
        participants := tx.participants.map (fun p =>
          if p.item_id = itemID ∧ p.user_id = cleanUserID u then
            { p with share_amount := some v }
          else p),
        profit_history := tx.profit_history ++
          [{ id := nextRowid tx.seq_profit_history (tx.profit_history.map (fun r => r.id)),
             user_id := cleanUserID u, item_id := itemID, amount := v,
             transaction_date := now }],
        seq_items := tx.seq_items,
        seq_participants := tx.seq_participants,
        seq_profit_history :=
          nextRowid tx.seq_profit_history (tx.profit_history.map (fun r => r.id)) }
    refine ⟨tx',
      { id := nextRowid tx.seq_profit_history (tx.profit_history.map (fun r => r.id)),
        user_id := cleanUserID u, item_id := itemID, amount := v,
        transaction_date := now } :: new, h1, h2, ?_, ?_, ?_⟩
    · rw [h3, List.map_map]
      apply List.map_congr_left
      intro p _
      rfl
    · rw [h4]; simp
    · simp only [List.map_cons, h5]
      rfl

theorem GetItem_ok (rowOrder : List ParticipantRow → List ParticipantRow)
    (faults : Faults) (itemID : Int) (s : Store) (item : Item)
    (h : GetItem rowOrder faults itemID s = .ok item) :
    ∃ it, findItem s itemID = some it ∧ item.Status = it.status
      ∧ item.SaleAmount = it.sale_amount.getD 0 := by
  unfold GetItem at h
  split at h
  · cases h
  · split at h
    · cases h
    · rename_i it hit
      split at h
      · cases h
      · injection h with h
        subst h
        exact ⟨it, hit, rfl, rfl⟩

theorem MarkItemAsSoldAndDistribute_not_assigned (faults : Faults) (now : Nat)
    (itemID saleAmount : Int) (shares : Shares) (s : Store) (it : ItemRow)
    (hfind : findItem s itemID = some it) (hst : it.status ≠ "assigned") :
    ∃ e, MarkItemAsSoldAndDistribute faults now itemID saleAmount shares s = (some e, s) := by
  unfold MarkItemAsSoldAndDistribute
  by_cases h0 : faults 0 = true
  · exact ⟨_, by rw [if_pos h0]⟩
  · by_cases h1 : faults 1 = true
    · exact ⟨_, by rw [if_neg h0, if_pos h1]⟩
    · refine ⟨.mustBeAssigned, ?_⟩
      rw [if_neg h0, if_neg h1, hfind]
      simp only [if_pos hst]

/-! ## The sale transition -/

/-- C8: for every store, item whose status is not `assigned` (in particular
`distributed`), sale amount and share mapping, `MarkItemAsSoldAndDistribute`
returns an error (the invalid-state error unless the driver fails earlier) and
`handleSlashSell` does not report a sale (for `sold` and `distributed` items it
rejects with the stored sale amount before calling the store); in both cases the
whole store is the same before and after. -/
theorem sell_rejected_unless_assigned (s : Store) (itemID : Int) (it : ItemRow)
    (hfind : findItem s itemID = some it) (hst : it.status ≠ "assigned")
    (saleAmount : Int) (shares : Shares) (now : Nat) (faults : Faults) :
    (∃ e, MarkItemAsSoldAndDistribute faults now itemID saleAmount shares s = (some e, s))
    ∧ (faults 0 = false → faults 1 = false →
        MarkItemAsSoldAndDistribute faults now itemID saleAmount shares s
          = (some .mustBeAssigned, s))
    ∧ (∀ (rowOrder : List ParticipantRow → List ParticipantRow)
        (shuffle : List String → List String) (rangeOrder : Shares → Shares)
        (faultsGet : Faults) (requester : String),
        (handleSlashSell rowOrder shuffle rangeOrder faultsGet faults now requester (some itemID)
            saleAmount s).2 = s
        ∧ ∀ m, (handleSlashSell rowOrder shuffle rangeOrder faultsGet faults now requester
            (some itemID) saleAmount s).1 ≠ .sold m)
    ∧ (it.status = "sold" ∨ it.status = "distributed" →
        ∀ (rowOrder : List ParticipantRow → List ParticipantRow)
          (shuffle : List String → List String) (rangeOrder : Shares → Shares)
          (faultsGet : Faults) (requester : String),
          faultsGet 0 = false → faultsGet 1 = false →
          handleSlashSell rowOrder shuffle rangeOrder faultsGet faults now requester (some itemID)
              saleAmount s
            = (.alreadySold (it.sale_amount.getD 0), s)) := by
  refine ⟨MarkItemAsSoldAndDistribute_not_assigned faults now itemID saleAmount shares s it
      hfind hst, ?_, ?_, ?_⟩
  · intro h0 h1
    unfold MarkItemAsSoldAndDistribute
    rw [h0, h1, hfind]
    simp only [Bool.false_eq_true, if_false, if_pos hst]
  · intro rowOrder shuffle rangeOrder faultsGet requester
    unfold handleSlashSell
    simp only
    cases hg : GetItem rowOrder faultsGet itemID s with
    | error e => exact ⟨rfl, fun m h => by cases h⟩
    | ok item =>
      simp only
      split
      · exact ⟨rfl, fun m h => by cases h⟩
      · split
        · exact ⟨rfl, fun m h => by cases h⟩
        · cases hsh : handleSlashSellShares shuffle saleAmount item.Participants
              item.AssignedTo with
          | none => exact ⟨rfl, fun m h => by cases h⟩
          | some sh =>
            obtain ⟨e, he⟩ := MarkItemAsSoldAndDistribute_not_assigned faults now itemID
              saleAmount (rangeOrder sh) s it hfind hst
            simp only []
            rw [he]
            exact ⟨rfl, fun m h => by cases h⟩
  · intro hsd rowOrder shuffle rangeOrder faultsGet requester h0 h1
    unfold handleSlashSell GetItem
    simp only [h0, h1, hfind, Bool.false_eq_true, if_false, if_pos hsd]

theorem sell_rejected_unless_assigned_witness :
    (∃ e, MarkItemAsSoldAndDistribute noFaults 3 1 55 [("A", 55)] ringDistributed
        = (some e, ringDistributed))
    ∧ (noFaults 0 = false → noFaults 1 = false →
        MarkItemAsSoldAndDistribute noFaults 3 1 55 [("A", 55)] ringDistributed
          = (some .mustBeAssigned, ringDistributed))
    ∧ (∀ (rowOrder : List ParticipantRow → List ParticipantRow)
        (shuffle : List String → List String) (rangeOrder : Shares → Shares)
        (faultsGet : Faults) (requester : String),
        (handleSlashSell rowOrder shuffle rangeOrder faultsGet noFaults 3 requester (some 1)
            55 ringDistributed).2 = ringDistributed
        ∧ ∀ m, (handleSlashSell rowOrder shuffle rangeOrder faultsGet noFaults 3 requester
            (some 1) 55 ringDistributed).1 ≠ .sold m)
    ∧ (ringRow.status = "sold" ∨ ringRow.status = "distributed" →
        ∀ (rowOrder : List ParticipantRow → List ParticipantRow)
          (shuffle : List String → List String) (rangeOrder : Shares → Shares)
          (faultsGet : Faults) (requester : String),
          faultsGet 0 = false → faultsGet 1 = false →
          handleSlashSell rowOrder shuffle rangeOrder faultsGet noFaults 3 requester (some 1)
              55 ringDistributed
            = (.alreadySold (ringRow.sale_amount.getD 0), ringDistributed)) :=
  sell_rejected_unless_assigned ringDistributed 1 ringRow (by decide) (by decide)
    55 [("A", 55)] 3 noFaults

theorem participantsOf_map (ps : List ParticipantRow) (itemID : Int)
    (g : ParticipantRow → ParticipantRow) (hg : ∀ p, (g p).item_id = p.item_id) :
    (ps.map g).filter (fun p => decide (p.item_id = itemID))
      = (ps.filter (fun p => decide (p.item_id = itemID))).map g := by
  induction ps with
  | nil => rfl
  | cons p ps ih =>
    by_cases h : p.item_id = itemID
    · simp [List.filter_cons, hg, h, ih]
    · simp [List.filter_cons, hg, h, ih]

theorem ledger_filter_not_mem (itemID : Int) (now : Nat) (shares : Shares) :
    ∀ (new : List ProfitRow) (u : String),
      new.map ProfitRow.fact = shares.map (fun kv => (kv.1, itemID, kv.2, now)) →
      u ∉ sharesKeys shares →
      new.filter (fun r => decide (r.user_id = u)) = [] := by
  induction shares with
  | nil =>
    intro new u h _
    cases new with
    | nil => rfl
    | cons r rs => simp at h
  | cons kv rest ih =>
    intro new u h hu
    cases new with
    | nil => rfl
    | cons r rs =>
      simp only [List.map_cons, List.cons.injEq] at h
      have hk : r.user_id = kv.1 := congrArg Prod.fst h.1
      have hne : r.user_id ≠ u := by
        intro e
        apply hu
        simp only [sharesKeys, List.map_cons, List.mem_cons]
        exact Or.inl (e.symm.trans hk)
      have hrest : u ∉ sharesKeys rest := by
        intro hm
        apply hu
        simp only [sharesKeys, List.map_cons, List.mem_cons]
        exact Or.inr hm
      rw [List.filter_cons, ih rs u h.2 hrest]
      simp [hne]

/-- One ledger row per key: when the appended rows mirror the map entries and the
keys are distinct, every key has exactly one row, carrying its share. -/
theorem ledger_rows_of_shares (itemID : Int) (now : Nat) (shares : Shares) :
    ∀ (new : List ProfitRow),
      new.map ProfitRow.fact = shares.map (fun kv => (kv.1, itemID, kv.2, now)) →
      (sharesKeys shares).Nodup →
      ∀ u ∈ sharesKeys shares,
        (new.filter (fun r => decide (r.user_id = u))).length = 1
        ∧ ∃ r ∈ new, r.fact = (u, itemID, sharesGet shares u, now) := by
  induction shares with
  | nil => intro new _ _ u hu; simp [sharesKeys] at hu
  | cons kv rest ih =>
    intro new h hnd u hu
    obtain ⟨k, v⟩ := kv
    cases new with
    | nil => simp at h
    | cons r rs =>
      simp only [List.map_cons, List.cons.injEq] at h
      have hnd' : k ∉ sharesKeys rest ∧ (sharesKeys rest).Nodup := by
        simpa [sharesKeys] using hnd
      have hk : r.user_id = k := congrArg Prod.fst h.1
      by_cases e : u = k
      · subst e
        refine ⟨?_, r, List.mem_cons_self _ _, ?_⟩
        · rw [List.filter_cons, ledger_filter_not_mem itemID now rest rs u h.2 hnd'.1]
          simp [hk]
        · rw [h.1]; simp [sharesGet]
      · have hu' : u ∈ sharesKeys rest := by
          simp only [sharesKeys, List.map_cons, List.mem_cons] at hu
          rcases hu with hu | hu
          · exact absurd hu e
          · exact hu
        obtain ⟨h1, r', hr', h2⟩ := ih rs h.2 hnd'.2 u hu'
        have hne : r.user_id ≠ u := fun e' => e (e'.symm.trans hk)
        have hk' : ¬ k = u := fun e' => e e'.symm
        refine ⟨?_, r', List.mem_cons_of_mem _ hr', ?_⟩
        · rw [List.filter_cons]
          simp [hne, h1]
        · rw [h2]; simp [sharesGet, hk']

/-- C9 as amended: for every store, item in status `assigned` and share mapping
whose keys are exactly that item's participant IDs and are left unchanged by the
mention clean-up, `MarkItemAsSoldAndDistribute` (no driver failure) succeeds;
afterwards the item is `distributed` with the given sale amount, each
participant's stored share is its mapped value, and the ledger has grown by
exactly one row per participant, carrying that share and the one timestamp. -/
theorem distribute_records_shares (s : Store) (itemID : Int) (it : ItemRow)
    (saleAmount : Int) (shares : Shares) (now : Nat)
    (hfind : findItem s itemID = some it) (hst : it.status = "assigned")
    (hnd : (sharesKeys shares).Nodup)
    (hkeys : ∀ u ∈ sharesKeys shares,
      u ∈ (participantsOf s itemID).map (fun p => p.user_id))
    (hparts : ∀ u ∈ (participantsOf s itemID).map (fun p => p.user_id),
      u ∈ sharesKeys shares)
    (hclean : ∀ u ∈ sharesKeys shares, cleanUserID u = u) :
    ∃ s' new,
      MarkItemAsSoldAndDistribute noFaults now itemID saleAmount shares s = (none, s')
      ∧ findItem s' itemID
          = some { it with status := "distributed", sale_amount := some saleAmount,
                           updated_at := now }
      ∧ (participantsOf s' itemID).map (fun p => (p.id, p.user_id, p.share_amount))
          = (participantsOf s itemID).map
              (fun p => (p.id, p.user_id, some (sharesGet shares p.user_id)))
      ∧ s'.profit_history = s.profit_history ++ new
      ∧ new.map ProfitRow.fact = shares.map (fun kv => (kv.1, itemID, kv.2, now))
      ∧ (∀ p ∈ participantsOf s itemID,
          (new.filter (fun r => decide (r.user_id = p.user_id))).length = 1
          ∧ ∃ r ∈ new, r.fact = (p.user_id, itemID, sharesGet shares p.user_id, now))
      ∧ (∀ r ∈ new, r.user_id ∈ (participantsOf s itemID).map (fun p => p.user_id)) := by
  obtain ⟨tx', new, h1, h2, h3, h4, h5⟩ := distributeShares_noFaults now itemID shares 3
    (updateItems itemID
      (fun it => { it with status := "distributed", sale_amount := some saleAmount,
                           updated_at := now }) s)
  have h5' : new.map ProfitRow.fact = shares.map (fun kv => (kv.1, itemID, kv.2, now)) := by
    rw [h5]
    apply List.map_congr_left
    intro kv hkv
    have : kv.1 ∈ sharesKeys shares := List.mem_map_of_mem Prod.fst hkv
    rw [hclean _ this]
  refine ⟨tx', new, ?_, ?_, ?_, ?_, h5', ?_, ?_⟩
  · unfold MarkItemAsSoldAndDistribute
    simp only [noFaults, Bool.false_eq_true, if_false, hfind, hst, ne_eq, not_true_eq_false]
    rw [h1]
  · have e : findItem tx' itemID = findItem (updateItems itemID
        (fun it => { it with status := "distributed", sale_amount := some saleAmount,
                             updated_at := now }) s) itemID := by
      unfold findItem; rw [h2]
    rw [e, findItem_updateItems s itemID
      (fun it => { it with status := "distributed", sale_amount := some saleAmount,
                           updated_at := now }) (fun _ => rfl), hfind]
    rfl
  · unfold participantsOf
    rw [h3]
    simp only [updateItems]
    rw [participantsOf_map _ _ _ (fun p => (applyShares_keeps itemID shares p).2.1),
      List.map_map]
    apply List.map_congr_left
    intro p hp
    have hpi : p.item_id = itemID := by
      have := (List.mem_filter.1 hp).2
      simpa using this
    have hpk : p.user_id ∈ sharesKeys shares :=
      hparts _ (List.mem_map_of_mem (fun p => p.user_id) hp)
    have hk := applyShares_keeps itemID shares p
    simp only [Function.comp, hk.1, hk.2.2, applyShares_share itemID shares p hpi hnd hclean,
      if_pos hpk]
  · rw [h4]; rfl
  · intro p hp
    exact ledger_rows_of_shares itemID now shares new h5' hnd p.user_id
      (hparts _ (List.mem_map_of_mem (fun p => p.user_id) hp))
  · intro r hr
    have hm : r.fact ∈ shares.map (fun kv => (kv.1, itemID, kv.2, now)) := by
      rw [← h5']
      exact List.mem_map_of_mem ProfitRow.fact hr
    obtain ⟨kv, hkv, e⟩ := List.mem_map.1 hm
    have e1 : kv.1 = r.user_id := congrArg Prod.fst e
    rw [← e1]
    exact hkeys _ (List.mem_map_of_mem Prod.fst hkv)

theorem distribute_records_shares_witness :
    ∃ s' new,
      MarkItemAsSoldAndDistribute noFaults 2 1 101 [("A", 34), ("B", 33), ("C", 34)]
        ringAssigned = (none, s')
      ∧ findItem s' 1
          = some { ringAssignedRow with status := "distributed", sale_amount := some 101,
                                        updated_at := 2 }
      ∧ (participantsOf s' 1).map (fun p => (p.id, p.user_id, p.share_amount))
          = (participantsOf ringAssigned 1).map
              (fun p => (p.id, p.user_id,
                some (sharesGet [("A", 34), ("B", 33), ("C", 34)] p.user_id)))
      ∧ s'.profit_history = ringAssigned.profit_history ++ new
      ∧ new.map ProfitRow.fact
          = [("A", 34), ("B", 33), ("C", 34)].map (fun kv => (kv.1, 1, kv.2, 2))
      ∧ (∀ p ∈ participantsOf ringAssigned 1,
          (new.filter (fun r => decide (r.user_id = p.user_id))).length = 1
          ∧ ∃ r ∈ new, r.fact
              = (p.user_id, 1, sharesGet [("A", 34), ("B", 33), ("C", 34)] p.user_id, 2))
      ∧ (∀ r ∈ new, r.user_id ∈ (participantsOf ringAssigned 1).map (fun p => p.user_id)) :=
  distribute_records_shares ringAssigned 1 ringAssignedRow 101
    [("A", 34), ("B", 33), ("C", 34)] 2 (by decide) (by decide) (by decide) (by decide)
    (by decide) (by decide)

/-- C9 fails as stated: `AddItem` stores the participant `!5` for the entry `!!5`;
with the share map keyed by exactly that participant ID the call succeeds, yet
the clean-up turns the key into `5`, so the participant's stored share stays
unset and the ledger row is written for the user `5`. -/
theorem distribute_unclean_key_counterexample :
    (findItem gemAssigned 1).map (fun it => it.status) = some "assigned"
    ∧ (participantsOf gemAssigned 1).map (fun p => p.user_id) = ["!5"]
    ∧ sharesKeys [("!5", 10)] = ["!5"]
    ∧ (MarkItemAsSoldAndDistribute noFaults 2 1 10 [("!5", 10)] gemAssigned).1 = none
    ∧ (participantsOf
          (MarkItemAsSoldAndDistribute noFaults 2 1 10 [("!5", 10)] gemAssigned).2 1).map
        (fun p => (p.user_id, p.share_amount)) = [("!5", none)]
    ∧ ¬ (∀ p ∈ participantsOf
          (MarkItemAsSoldAndDistribute noFaults 2 1 10 [("!5", 10)] gemAssigned).2 1,
        p.share_amount = some (sharesGet [("!5", 10)] p.user_id))
    ∧ (MarkItemAsSoldAndDistribute noFaults 2 1 10 [("!5", 10)]
          gemAssigned).2.profit_history.map ProfitRow.fact = [("5", 1, 10, 2)] := by
  decide

/-- C10 (defect of `AssignItem`): on the distributed ring, `AssignItem 1 "B"`
succeeds and puts the item back to `assigned`; a second sale then goes through,
replacing the sale amount and every share and adding three more ledger rows. -/
theorem AssignItem_reopens_distributed_item :
    findItem ringDistributed 1 = some ringRow
    ∧ (AssignItem noFaults 3 1 "B" ringDistributed).1 = none
    ∧ findItem (AssignItem noFaults 3 1 "B" ringDistributed).2 1
        = some { ringRow with status := "assigned", assigned_to := some "B",
                              updated_at := 3 }
    ∧ (MarkItemAsSoldAndDistribute noFaults 4 1 7 [("A", 3), ("B", 2), ("C", 2)]
          (AssignItem noFaults 3 1 "B" ringDistributed).2).1 = none
    ∧ findItem (MarkItemAsSoldAndDistribute noFaults 4 1 7 [("A", 3), ("B", 2), ("C", 2)]
          (AssignItem noFaults 3 1 "B" ringDistributed).2).2 1
        = some { ringRow with assigned_to := some "B", sale_amount := some 7,
                              updated_at := 4 }
    ∧ (participantsOf ringDistributed 1).map (fun p => (p.user_id, p.share_amount))
        = [("A", some 34), ("B", some 33), ("C", some 34)]
    ∧ (participantsOf (MarkItemAsSoldAndDistribute noFaults 4 1 7
          [("A", 3), ("B", 2), ("C", 2)]
          (AssignItem noFaults 3 1 "B" ringDistributed).2).2 1).map
        (fun p => (p.user_id, p.share_amount))
        = [("A", some 3), ("B", some 2), ("C", some 2)]
    ∧ (MarkItemAsSoldAndDistribute noFaults 4 1 7 [("A", 3), ("B", 2), ("C", 2)]
          (AssignItem noFaults 3 1 "B" ringDistributed).2).2.profit_history.length = 6 := by
  decide

/-! ## What the operations leave alone -/

theorem le_foldl_max (ids : List Int) (seq x : Int) (hx : x ∈ ids) :
    x ≤ ids.foldl max seq := by
  have mono : ∀ (l : List Int) (a : Int), a ≤ l.foldl max a := by
    intro l
    induction l with
    | nil => intro a; exact le_refl a
    | cons b l ih => intro a; exact le_trans (le_max_left a b) (ih (max a b))
  induction ids generalizing seq with
  | nil => cases hx
  | cons b l ih =>
    rcases List.mem_cons.1 hx with h | h
    · subst h
      exact le_trans (le_max_right seq x) (mono l (max seq x))
    · exact ih (max seq b) h

theorem findItem_some (s : Store) (itemID : Int) (it : ItemRow)
    (h : findItem s itemID = some it) : it ∈ s.items ∧ it.id = itemID := by
  unfold findItem at h
  refine ⟨List.mem_of_find?_eq_some h, ?_⟩
  have := List.find?_some h
  simpa using this

theorem nextRowid_ne_of_findItem (s : Store) (itemID : Int) (it : ItemRow)
    (h : findItem s itemID = some it) :
    nextRowid s.seq_items (s.items.map (fun it => it.id)) ≠ itemID := by
  obtain ⟨hm, hid⟩ := findItem_some s itemID it h
  have hle : itemID ≤ (s.items.map (fun it => it.id)).foldl max s.seq_items :=
    le_foldl_max _ _ _ (hid ▸ List.mem_map_of_mem (fun it => it.id) hm)
  unfold nextRowid
  omega

/-- A successful run of the insert loop of `AddItem` only appends participant rows
of the new item, each without a share. -/
theorem insertParticipants_ok (faults : Faults) (itemID : Int) (ps : List String) :
    ∀ (k : Nat) (tx tx' : Store), insertParticipants faults itemID k ps tx = .ok tx' →
      tx'.items = tx.items ∧ tx'.profit_history = tx.profit_history
      ∧ tx'.seq_items = tx.seq_items ∧ tx'.seq_profit_history = tx.seq_profit_history
      ∧ ∃ new, tx'.participants = tx.participants ++ new
          ∧ new.map (fun p => p.user_id) = ps.map cleanUserID
          ∧ ∀ p ∈ new, p.item_id = itemID ∧ p.share_amount = none := by
  induction ps with
  | nil =>
    intro k tx tx' h
    simp only [insertParticipants, Except.ok.injEq] at h
    subst h
    exact ⟨rfl, rfl, rfl, rfl, [], by simp, rfl, fun p hp => by cases hp⟩
  | cons u rest ih =>
    intro k tx tx' h
    simp only [insertParticipants] at h
    split at h
    · cases h
    · split at h
      · cases h
      · obtain ⟨h1, h2, h3, h4, new, h5, h6, h7⟩ := ih _ _ _ h
        refine ⟨h1, h2, h3, h4,
          { id := nextRowid tx.seq_participants (tx.participants.map (fun p => p.id)),
            item_id := itemID, user_id := cleanUserID u, share_amount := none } :: new,
          ?_, ?_, ?_⟩
        · rw [h5]; simp only [List.append_assoc, List.singleton_append]
        · simp only [List.map_cons, h6]
        · intro p hp
          rcases List.mem_cons.1 hp with e | hp'
          · subst e; exact ⟨rfl, rfl⟩
          · exact h7 p hp'

/-- A successful run of the loop of `MarkItemAsSoldAndDistribute`, whatever the
driver does elsewhere, leaves the items alone, rewrites the participant rows
through `applyShares` and appends one ledger row per map entry. -/
theorem distributeShares_ok (faults : Faults) (now : Nat) (itemID : Int)
    (shares : Shares) :
    ∀ (k : Nat) (tx tx' : Store), distributeShares faults now itemID k shares tx = .ok tx' →
      tx'.items = tx.items
      ∧ tx'.participants = tx.participants.map (applyShares itemID shares)
      ∧ ∃ new, tx'.profit_history = tx.profit_history ++ new
          ∧ new.map ProfitRow.fact
              = shares.map (fun kv => (cleanUserID kv.1, itemID, kv.2, now)) := by
  induction shares with
  | nil =>
    intro k tx tx' h
    simp only [distributeShares, Except.ok.injEq] at h
    subst h
    have : applyShares itemID [] = id := by funext p; rfl
    exact ⟨rfl, by rw [this, List.map_id], [], by simp, rfl⟩
  | cons kv rest ih =>
    intro k tx tx' h
    obtain ⟨u, v⟩ := kv
    simp only [distributeShares] at h
    split at h
    · cases h
    · split at h
      · cases h
      · obtain ⟨h1, h2, new, h3, h4⟩ := ih _ _ _ h
        refine ⟨h1, ?_,
          { id := nextRowid tx.seq_profit_history (tx.profit_history.map (fun r => r.id)),
            user_id := cleanUserID u, item_id := itemID, amount := v,
            transaction_date := now } :: new, ?_, ?_⟩
        · rw [h2, List.map_map]
          apply List.map_congr_left
          intro p _
          rfl
        · rw [h3]; simp only [List.append_assoc, List.singleton_append]
        · simp only [List.map_cons, h4]
          rfl

theorem participantsOf_applyShares_ne (ps : List ParticipantRow) (itemID other : Int)
    (shares : Shares) (hne : other ≠ itemID) :
    (ps.map (applyShares other shares)).filter (fun p => decide (p.item_id = itemID))
      = ps.filter (fun p => decide (p.item_id = itemID)) := by
  rw [participantsOf_map _ _ _ (fun p => (applyShares_keeps other shares p).2.1)]
  conv_rhs => rw [← List.map_id (ps.filter (fun p => decide (p.item_id = itemID)))]
  apply List.map_congr_left
  intro p hp
  have hpi : p.item_id = itemID := by
    have := (List.mem_filter.1 hp).2
    simpa using this
  exact applyShares_other_item other shares p (fun e => hne (e.symm.trans hpi))

theorem findItem_append (s : Store) (itemID : Int) (it : ItemRow) (extra : List ItemRow)
    (h : findItem s itemID = some it) :
    (s.items ++ extra).find? (fun it => decide (it.id = itemID)) = some it := by
  unfold findItem at h
  rw [List.find?_append, h]
  rfl

/-- Function `AddItem` leaves every existing item and its participant rows as they are. -/
theorem AddItem_keeps_item (s : Store) (itemID : Int) (it : ItemRow)
    (hfind : findItem s itemID = some it) (faults : Faults) (now : Nat) (name : String)
    (estimatedValue : Int) (participants : List String) :
    findItem (AddItem faults now name estimatedValue participants s).2 itemID = some it
      ∧ participantsOf (AddItem faults now name estimatedValue participants s).2 itemID
          = participantsOf s itemID := by
  unfold AddItem
  split
  · exact ⟨hfind, rfl⟩
  · split
    · exact ⟨hfind, rfl⟩
    · simp only
      split
      · exact ⟨hfind, rfl⟩
      · split
        · exact ⟨hfind, rfl⟩
        · rename_i tx' hok
          split
          · exact ⟨hfind, rfl⟩
          · obtain ⟨h1, _, _, _, new, h5, _, h7⟩ := insertParticipants_ok _ _ _ _ _ _ hok
            constructor
            · unfold findItem
              rw [h1]
              exact findItem_append s itemID it _ hfind
            · unfold participantsOf
              rw [h5]
              simp only [List.filter_append]
              have hnew : new.filter (fun p => decide (p.item_id = itemID)) = [] := by
                rw [List.filter_eq_nil_iff]
                intro p hp
                have := (h7 p hp).1
                have hne := nextRowid_ne_of_findItem s itemID it hfind
                simp only [decide_eq_true_eq]
                intro e
                exact hne (this.symm.trans e)
              rw [hnew, List.append_nil]

/-- Function `MarkItemAsSoldAndDistribute`, on any item and with any arguments, leaves a
distributed item and its participant rows as they are. -/
theorem MarkItemAsSoldAndDistribute_keeps_distributed (s : Store) (itemID : Int)
    (it : ItemRow) (hfind : findItem s itemID = some it) (hst : it.status = "distributed")
    (faults : Faults) (now : Nat) (other saleAmount : Int) (shares : Shares) :
    findItem (MarkItemAsSoldAndDistribute faults now other saleAmount shares s).2 itemID
        = some it
      ∧ participantsOf (MarkItemAsSoldAndDistribute faults now other saleAmount shares s).2
          itemID = participantsOf s itemID := by
  by_cases hoi : other = itemID
  · subst hoi
    obtain ⟨e, he⟩ := MarkItemAsSoldAndDistribute_not_assigned faults now other saleAmount
      shares s it hfind (by rw [hst]; decide)
    rw [he]
    exact ⟨hfind, rfl⟩
  · unfold MarkItemAsSoldAndDistribute
    split
    · exact ⟨hfind, rfl⟩
    · split
      · exact ⟨hfind, rfl⟩
      · split
        · exact ⟨hfind, rfl⟩
        · split
          · exact ⟨hfind, rfl⟩
          · split
            · exact ⟨hfind, rfl⟩
            · simp only
              split
              · exact ⟨hfind, rfl⟩
              · rename_i tx' hok
                split
                · exact ⟨hfind, rfl⟩
                · obtain ⟨h1, h2, _⟩ := distributeShares_ok _ _ _ _ _ _ _ hok
                  constructor
                  · have e : findItem tx' itemID = findItem (updateItems other
                        (fun it => { it with status := "distributed",
                                             sale_amount := some saleAmount,
                                             updated_at := now }) s) itemID := by
                      unfold findItem; rw [h1]
                    rw [e]
                    refine (findItem_updateItems_ne s itemID other _ ?_ hoi).trans hfind
                    intro _
                    rfl
                  · unfold participantsOf
                    rw [h2]
                    exact participantsOf_applyShares_ne _ itemID other shares hoi

/-- The legacy `MarkItemAsSold` leaves a distributed item and its participant
rows as they are. -/
theorem MarkItemAsSold_keeps_distributed (s : Store) (itemID : Int)
    (it : ItemRow) (hfind : findItem s itemID = some it) (hst : it.status = "distributed")
    (faults : Faults) (now : Nat) (other saleAmount : Int) :
    findItem (MarkItemAsSold faults now other saleAmount s).2 itemID = some it
      ∧ participantsOf (MarkItemAsSold faults now other saleAmount s).2 itemID
          = participantsOf s itemID := by
  unfold MarkItemAsSold
  split
  · exact ⟨hfind, rfl⟩
  · split
    · exact ⟨hfind, rfl⟩
    · split
      · exact ⟨hfind, rfl⟩
      · rename_i it' hfind'
        split
        · exact ⟨hfind, rfl⟩
        · rename_i hst'
          have hoi : other ≠ itemID := by
            intro e
            subst e
            rw [hfind] at hfind'
            injection hfind' with e
            subst e
            rw [hst] at hst'
            exact hst' (by decide)
          split
          · exact ⟨hfind, rfl⟩
          · simp only
            split
            · exact ⟨hfind, rfl⟩
            · split
              · exact ⟨hfind, rfl⟩
              · split
                · exact ⟨hfind, rfl⟩
                · split
                  · exact ⟨hfind, rfl⟩
                  · constructor
                    · refine (findItem_updateItems_ne s itemID other _ ?_ hoi).trans hfind
                      intro _
                      rfl
                    · unfold participantsOf updateItems
                      simp only
                      rw [participantsOf_map _ _ _ (fun p => by split <;> rfl)]
                      conv_rhs => rw [← List.map_id
                        (s.participants.filter (fun p => decide (p.item_id = itemID)))]
                      apply List.map_congr_left
                      intro p hp
                      have hpi : p.item_id = itemID := by
                        have := (List.mem_filter.1 hp).2
                        simpa using this
                      have : p.item_id ≠ other := fun e => hoi (e.symm.trans hpi)
                      simp [this]

/-- The legacy `MarkItemAsDistributed` leaves a distributed item and its
participant rows as they are. -/
theorem MarkItemAsDistributed_keeps_distributed (s : Store) (itemID : Int)
    (it : ItemRow) (hfind : findItem s itemID = some it) (hst : it.status = "distributed")
    (faults : Faults) (now : Nat) (other : Int) :
    findItem (MarkItemAsDistributed faults now other s).2 itemID = some it
      ∧ participantsOf (MarkItemAsDistributed faults now other s).2 itemID
          = participantsOf s itemID := by
  unfold MarkItemAsDistributed
  split
  · exact ⟨hfind, rfl⟩
  · split
    · exact ⟨hfind, rfl⟩
    · rename_i it' hfind'
      split
      · exact ⟨hfind, rfl⟩
      · rename_i hst'
        have hoi : other ≠ itemID := by
          intro e
          subst e
          rw [hfind] at hfind'
          injection hfind' with e
          subst e
          rw [hst] at hst'
          exact absurd (not_not.1 hst') (by decide)
        split
        · exact ⟨hfind, rfl⟩
        · refine ⟨(findItem_updateItems_ne s itemID other _ ?_ hoi).trans hfind, rfl⟩
          intro _
          rfl

/-- Function `AssignItem` never touches participant rows or sale amounts, and leaves the
items with another ID alone; on the item it names it writes the status
`assigned` whatever the status was. -/
theorem AssignItem_effect (s : Store) (itemID : Int) (it : ItemRow)
    (hfind : findItem s itemID = some it) (faults : Faults) (now : Nat) (other : Int)
    (userID : String) :
    (AssignItem faults now other userID s).2.participants = s.participants
      ∧ (AssignItem faults now other userID s).2.profit_history = s.profit_history
      ∧ (other ≠ itemID → findItem (AssignItem faults now other userID s).2 itemID = some it)
      ∧ (other = itemID → faults 0 = false →
          findItem (AssignItem faults now other userID s).2 itemID
            = some { it with status := "assigned", assigned_to := some (cleanUserID userID),
                             updated_at := now }) := by
  unfold AssignItem
  simp only
  by_cases h0 : faults 0 = true
  · rw [if_pos h0]
    refine ⟨rfl, rfl, fun _ => hfind, fun _ hf => ?_⟩
    rw [hf] at h0
    cases h0
  · rw [if_neg h0]
    refine ⟨rfl, rfl, fun hne => ?_, fun he _ => ?_⟩
    · refine (findItem_updateItems_ne s itemID other _ ?_ hne).trans hfind
      intro _
      rfl
    · subst he
      rw [findItem_updateItems s other
        (fun it => { it with status := "assigned", assigned_to := some (cleanUserID userID),
                             updated_at := now }) (fun _ => rfl), hfind]
      rfl

/-! ## Failure of a step of the distribution -/

theorem distributeShares_fault (faults : Faults) (now : Nat) (itemID : Int)
    (shares : Shares) :
    ∀ (k0 : Nat) (tx : Store) (k : Nat), k0 ≤ k → k < k0 + 2 * shares.length →
      faults k = true → ∃ e, distributeShares faults now itemID k0 shares tx = .error e := by
  induction shares with
  | nil => intro k0 tx k h1 h2 _; simp at h2; omega
  | cons kv rest ih =>
    intro k0 tx k h1 h2 hf
    obtain ⟨u, v⟩ := kv
    simp only [distributeShares]
    by_cases f0 : faults k0 = true
    · exact ⟨_, by rw [if_pos f0]⟩
    · rw [if_neg f0]
      by_cases f1 : faults (k0 + 1) = true
      · exact ⟨_, by rw [if_pos f1]⟩
      · rw [if_neg f1]
        have hk0 : k ≠ k0 := fun e => f0 (e ▸ hf)
        have hk1 : k ≠ k0 + 1 := fun e => f1 (e ▸ hf)
        simp only [List.length_cons] at h2
        exact ih (k0 + 2) _ k (by omega) (by omega) hf

theorem distributeShares_first_fault (faults : Faults) (now : Nat) (itemID : Int)
    (shares : Shares) :
    ∀ (k0 : Nat) (tx : Store) (k : Nat), k0 ≤ k → k < k0 + 2 * shares.length →
      faults k = true → (∀ j, k0 ≤ j → j < k → faults j = false) →
      distributeShares faults now itemID k0 shares tx = .error (.driver k) := by
  induction shares with
  | nil => intro k0 tx k h1 h2 _ _; simp at h2; omega
  | cons kv rest ih =>
    intro k0 tx k h1 h2 hf hb
    obtain ⟨u, v⟩ := kv
    simp only [distributeShares]
    simp only [List.length_cons] at h2
    by_cases e0 : k = k0
    · subst e0
      rw [if_pos hf]
    · have f0 : faults k0 = false := hb k0 (le_refl _) (by omega)
      rw [f0]
      simp only [Bool.false_eq_true, if_false]
      by_cases e1 : k = k0 + 1
      · subst e1
        rw [if_pos hf]
      · have f1 : faults (k0 + 1) = false := hb (k0 + 1) (by omega) (by omega)
        rw [f1]
        simp only [Bool.false_eq_true, if_false]
        exact ih (k0 + 2) _ k (by omega) (by omega) hf
          (fun j hj1 hj2 => hb j (by omega) hj2)

theorem MarkItemAsSoldAndDistribute_error_keeps_store (faults : Faults) (now : Nat)
    (itemID saleAmount : Int) (shares : Shares) (s : Store) (e : DbError) (s' : Store)
    (h : MarkItemAsSoldAndDistribute faults now itemID saleAmount shares s = (some e, s')) :
    s' = s := by
  unfold MarkItemAsSoldAndDistribute at h
  split at h
  · exact (congrArg Prod.snd h).symm
  · split at h
    · exact (congrArg Prod.snd h).symm
    · split at h
      · exact (congrArg Prod.snd h).symm
      · split at h
        · exact (congrArg Prod.snd h).symm
        · split at h
          · exact (congrArg Prod.snd h).symm
          · simp only at h
            split at h
            · exact (congrArg Prod.snd h).symm
            · split at h
              · exact (congrArg Prod.snd h).symm
              · cases (congrArg Prod.fst h)

/-- C11: if a step of `MarkItemAsSoldAndDistribute` fails (the status update,
call 2; a participant share update or a ledger insert of any entry, calls 3 to
`2 + 2 * len(shares)`), the call returns an error and the store is the store of
before the call; when the item is assigned and the earlier calls went through,
the error is that of the failing call.  Every error return leaves the store
identical. -/
theorem failed_distribution_rolls_back (faults : Faults) (now : Nat)
    (itemID saleAmount : Int) (shares : Shares) (s : Store) :
    (∀ e s', MarkItemAsSoldAndDistribute faults now itemID saleAmount shares s
        = (some e, s') → s' = s)
    ∧ (∀ k, 2 ≤ k → k < 3 + 2 * shares.length → faults k = true →
        ∃ e, MarkItemAsSoldAndDistribute faults now itemID saleAmount shares s
          = (some e, s))
    ∧ (∀ k it, 2 ≤ k → k < 3 + 2 * shares.length → faults k = true →
        (∀ j, j < k → faults j = false) →
        findItem s itemID = some it → it.status = "assigned" →
        MarkItemAsSoldAndDistribute faults now itemID saleAmount shares s
          = (some (.driver k), s)) := by
  refine ⟨fun e s' h => MarkItemAsSoldAndDistribute_error_keeps_store faults now itemID
      saleAmount shares s e s' h, ?_, ?_⟩
  · intro k hk1 hk2 hf
    unfold MarkItemAsSoldAndDistribute
    split
    · exact ⟨_, rfl⟩
    · split
      · exact ⟨_, rfl⟩
      · split
        · exact ⟨_, rfl⟩
        · split
          · exact ⟨_, rfl⟩
          · split
            · exact ⟨_, rfl⟩
            · rename_i f2
              have hk3 : 3 ≤ k := by
                by_contra hc
                have : k = 2 := by omega
                exact f2 (this ▸ hf)
              obtain ⟨e, he⟩ := distributeShares_fault faults now itemID shares 3
                (updateItems itemID
                  (fun it => { it with status := "distributed",
                                       sale_amount := some saleAmount,
                                       updated_at := now }) s) k hk3 hk2 hf
              simp only [he]
              exact ⟨_, rfl⟩
  · intro k it hk1 hk2 hf hb hfind hst
    unfold MarkItemAsSoldAndDistribute
    have f0 : faults 0 = false := hb 0 (by omega)
    have f1 : faults 1 = false := hb 1 (by omega)
    simp only [f0, f1, hfind, hst, Bool.false_eq_true, if_false, ne_eq, not_true_eq_false]
    by_cases e2 : k = 2
    · subst e2
      rw [if_pos hf]
    · have f2 : faults 2 = false := hb 2 (by omega)
      simp only [f2, Bool.false_eq_true, if_false]
      rw [distributeShares_first_fault faults now itemID shares 3 _ k (by omega) hk2 hf
        (fun j _ hj => hb j hj)]

theorem failed_distribution_rolls_back_witness :
    MarkItemAsSoldAndDistribute (fun k => decide (k = 6)) 2 1 101
        [("A", 34), ("B", 33), ("C", 34)] ringAssigned
      = (some (.driver 6), ringAssigned) :=
  (failed_distribution_rolls_back (fun k => decide (k = 6)) 2 1 101
      [("A", 34), ("B", 33), ("C", 34)] ringAssigned).2.2 6 ringAssignedRow
    (by decide) (by decide) (by decide) (by decide) (by decide) (by decide)

/-! ## Item creation -/

theorem insertParticipants_ok_nodup (faults : Faults) (itemID : Int) (ps : List String) :
    ∀ (k : Nat) (tx tx' : Store), insertParticipants faults itemID k ps tx = .ok tx' →
      (ps.map cleanUserID).Nodup
      ∧ ∀ u ∈ ps.map cleanUserID, ∀ p ∈ tx.participants,
          ¬ (p.item_id = itemID ∧ p.user_id = u) := by
  induction ps with
  | nil => intro k tx tx' _; exact ⟨List.nodup_nil, fun u hu => by cases hu⟩
  | cons u rest ih =>
    intro k tx tx' h
    simp only [insertParticipants] at h
    split at h
    · cases h
    · split at h
      · cases h
      · rename_i hany
        obtain ⟨hnd, hfree⟩ := ih _ _ _ h
        have hany' : ∀ p ∈ tx.participants,
            ¬ (p.item_id = itemID ∧ p.user_id = cleanUserID u) := by
          intro p hp hc
          apply hany
          rw [List.any_eq_true]
          exact ⟨p, hp, by simpa using hc⟩
        constructor
        · rw [List.map_cons, List.nodup_cons]
          refine ⟨fun hmem => ?_, hnd⟩
          exact hfree _ hmem
            { id := nextRowid tx.seq_participants (tx.participants.map (fun p => p.id)),
              item_id := itemID, user_id := cleanUserID u, share_amount := none }
            (by simp) ⟨rfl, rfl⟩
        · intro w hw p hp
          rcases List.mem_cons.1 hw with e | hw'
          · subst e; exact hany' p hp
          · exact hfree w hw' p (by simp [hp])

theorem insertParticipants_noFaults_error (itemID : Int) (ps : List String) :
    ∀ (k : Nat) (tx : Store) (e : DbError),
      insertParticipants noFaults itemID k ps tx = .error e → e = .uniqueViolation := by
  induction ps with
  | nil => intro k tx e h; simp [insertParticipants] at h
  | cons u rest ih =>
    intro k tx e h
    simp only [insertParticipants, noFaults, Bool.false_eq_true, if_false] at h
    split at h
    · injection h with h; exact h.symm
    · exact ih _ _ _ h

theorem AddItem_error_keeps_store (faults : Faults) (now : Nat) (name : String)
    (estimatedValue : Int) (participants : List String) (s : Store)
    (itemID : Int) (e : DbError) (s' : Store)
    (h : AddItem faults now name estimatedValue participants s = ((itemID, some e), s')) :
    itemID = 0 ∧ s' = s := by
  unfold AddItem at h
  split at h
  · exact ⟨(congrArg (fun r => r.1.1) h).symm, (congrArg Prod.snd h).symm⟩
  · split at h
    · exact ⟨(congrArg (fun r => r.1.1) h).symm, (congrArg Prod.snd h).symm⟩
    · simp only at h
      split at h
      · exact ⟨(congrArg (fun r => r.1.1) h).symm, (congrArg Prod.snd h).symm⟩
      · split at h
        · exact ⟨(congrArg (fun r => r.1.1) h).symm, (congrArg Prod.snd h).symm⟩
        · split at h
          · exact ⟨(congrArg (fun r => r.1.1) h).symm, (congrArg Prod.snd h).symm⟩
          · cases (congrArg (fun r => r.1.2) h)

/-- What a successful `AddItem` has done: one item row with status `assigned`
under the returned fresh key and one participant row per entry of the list. -/
theorem AddItem_ok (faults : Faults) (now : Nat) (name : String)
    (estimatedValue : Int) (participants : List String) (s : Store)
    (itemID : Int) (s' : Store)
    (h : AddItem faults now name estimatedValue participants s = ((itemID, none), s')) :
    itemID = nextRowid s.seq_items (s.items.map (fun it => it.id))
    ∧ s'.items = s.items ++
        [{ id := itemID, name := name, estimated_value := estimatedValue,
           status := "assigned", assigned_to := none, sale_amount := none,
           created_at := now, updated_at := now }]
    ∧ s'.profit_history = s.profit_history
    ∧ (participants.map cleanUserID).Nodup
    ∧ ∃ new, s'.participants = s.participants ++ new
        ∧ new.map (fun p => (p.item_id, p.user_id, p.share_amount))
            = participants.map (fun u => (itemID, cleanUserID u, none)) := by
  unfold AddItem at h
  split at h
  · cases (congrArg (fun r => r.1.2) h)
  · split at h
    · cases (congrArg (fun r => r.1.2) h)
    · simp only at h
      split at h
      · cases (congrArg (fun r => r.1.2) h)
      · split at h
        · cases (congrArg (fun r => r.1.2) h)
        · rename_i tx' hok
          split at h
          · cases (congrArg (fun r => r.1.2) h)
          · have hid := congrArg (fun r => r.1.1) h
            have hs := congrArg Prod.snd h
            simp only at hid hs
            subst hs
            obtain ⟨h1, h2, _, _, new, h5, h6, h7⟩ := insertParticipants_ok _ _ _ _ _ _ hok
            obtain ⟨hnd, _⟩ := insertParticipants_ok_nodup _ _ _ _ _ _ hok
            refine ⟨hid.symm, ?_, h2, hnd, new, h5, ?_⟩
            · rw [h1, ← hid]
            · have e1 : new.map (fun p => (p.item_id, p.user_id, p.share_amount))
                  = (new.map (fun p => p.user_id)).map (fun u => (itemID, u, none)) := by
                rw [List.map_map]
                apply List.map_congr_left
                intro p hp
                have := h7 p hp
                simp only [Function.comp, this.1, this.2, hid]
              rw [e1, h6, List.map_map]
              rfl

/-- C12: for every name, estimated value and participant list (and whatever the
driver does), `AddItem` either returns an ID, having appended one item row with
status `assigned` and one participant row per listed ID, or returns an error and
leaves the store unchanged; a list with two entries that clean to the same user
ID always ends in the second case, by the uniqueness violation when no driver
call fails. -/
theorem AddItem_all_or_nothing (faults : Faults) (now : Nat) (name : String)
    (estimatedValue : Int) (participants : List String) (s : Store) :
    ((∃ itemID s' new,
        AddItem faults now name estimatedValue participants s = ((itemID, none), s')
        ∧ s'.items = s.items ++
            [{ id := itemID, name := name, estimated_value := estimatedValue,
               status := "assigned", assigned_to := none, sale_amount := none,
               created_at := now, updated_at := now }]
        ∧ s'.participants = s.participants ++ new
        ∧ new.map (fun p => (p.item_id, p.user_id, p.share_amount))
            = participants.map (fun u => (itemID, cleanUserID u, none))
        ∧ s'.profit_history = s.profit_history)
      ∨ (∃ e, AddItem faults now name estimatedValue participants s = ((0, some e), s)))
    ∧ (¬ (participants.map cleanUserID).Nodup →
        ∃ e, AddItem faults now name estimatedValue participants s = ((0, some e), s))
    ∧ (¬ (participants.map cleanUserID).Nodup →
        AddItem noFaults now name estimatedValue participants s
          = ((0, some .uniqueViolation), s)) := by
  have key : ∀ (f : Faults),
      (∃ itemID s', AddItem f now name estimatedValue participants s = ((itemID, none), s'))
      ∨ (∃ e, AddItem f now name estimatedValue participants s = ((0, some e), s)) := by
    intro f
    rcases hr : AddItem f now name estimatedValue participants s with ⟨⟨itemID, oe⟩, s'⟩
    cases oe with
    | none => exact Or.inl ⟨itemID, s', rfl⟩
    | some e =>
      obtain ⟨h1, h2⟩ := AddItem_error_keeps_store f now name estimatedValue participants s
        itemID e s' hr
      subst h1; subst h2
      exact Or.inr ⟨e, rfl⟩
  have dup : ∀ (f : Faults), ¬ (participants.map cleanUserID).Nodup →
      ∃ e, AddItem f now name estimatedValue participants s = ((0, some e), s) := by
    intro f hdup
    rcases key f with ⟨itemID, s', h⟩ | h
    · exact absurd (AddItem_ok f now name estimatedValue participants s itemID s' h).2.2.2.1
        hdup
    · exact h
  refine ⟨?_, dup faults, ?_⟩
  · rcases key faults with ⟨itemID, s', h⟩ | h
    · obtain ⟨_, h2, h3, _, new, h5, h6⟩ :=
        AddItem_ok faults now name estimatedValue participants s itemID s' h
      exact Or.inl ⟨itemID, s', new, h, h2, h5, h6, h3⟩
    · exact Or.inr h
  · intro hdup
    obtain ⟨e, he⟩ := dup noFaults hdup
    have : e = .uniqueViolation := by
      unfold AddItem at he
      simp only [noFaults, Bool.false_eq_true, if_false] at he
      split at he
      · rename_i e' herr
        have h1 := insertParticipants_noFaults_error _ _ _ _ _ herr
        have h2 := congrArg (fun r => r.1.2) he
        simp only [Option.some.injEq] at h2
        exact h2.symm.trans h1
      · cases (congrArg (fun r => r.1.2) he)
    rw [he, this]

theorem AddItem_all_or_nothing_witness :
    AddItem noFaults 1 "gem" 10 ["<@7>", "7"] ringAssigned
      = ((0, some .uniqueViolation), ringAssigned) :=
  (AddItem_all_or_nothing noFaults 1 "gem" 10 ["<@7>", "7"] ringAssigned).2.2 (by decide)

/-! ## Assignment, authorisation and the ledger -/

theorem findItem_none (s : Store) (itemID : Int) (h : findItem s itemID = none) :
    ∀ it ∈ s.items, it.id ≠ itemID := by
  intro it hit e
  unfold findItem at h
  have := List.find?_eq_none.1 h it hit
  simp [e] at this

theorem updateItems_unknown (s : Store) (itemID : Int) (f : ItemRow → ItemRow)
    (h : findItem s itemID = none) : updateItems itemID f s = s := by
  have hall := findItem_none s itemID h
  unfold updateItems
  have : s.items.map (fun it => if it.id = itemID then f it else it) = s.items := by
    conv_rhs => rw [← List.map_id s.items]
    apply List.map_congr_left
    intro it hit
    simp [hall it hit]
  rw [this]

/-- On an item ID that is not in the store `AssignItem` returns no error and
leaves the store as it is, unless the driver itself fails. -/
theorem AssignItem_unknown_item (s : Store) (itemID : Int) (userID : String) (now : Nat)
    (h : findItem s itemID = none) :
    AssignItem noFaults now itemID userID s = (none, s) := by
  unfold AssignItem
  simp only [noFaults, Bool.false_eq_true, if_false]
  rw [updateItems_unknown s itemID _ h]

theorem AssignItem_unknown_item_witness :
    AssignItem noFaults 3 42 "A" ringAssigned = (none, ringAssigned) :=
  AssignItem_unknown_item ringAssigned 42 "A" 3 (by decide)

/-- C14 (defect of `AssignItem`): item 42 is in neither store, yet `AssignItem`
returns no error; the `UPDATE` matches no row and nothing checks that. -/
theorem AssignItem_unknown_item_returns_nil :
    findItem emptyStore 42 = none
    ∧ AssignItem noFaults 1 42 "A" emptyStore = (none, emptyStore)
    ∧ findItem ringAssigned 42 = none
    ∧ AssignItem noFaults 3 42 "A" ringAssigned = (none, ringAssigned) := by
  decide

/-- C17: for every store, assigned item and requester whose user ID differs from
the item's assigned seller, `handleSlashSell` does not sell and leaves the store
unchanged; it answers that only the assigned seller can sell (unless reading the
item fails, which is answered as such). -/
theorem non_seller_cannot_sell (s : Store) (itemID : Int) (it : ItemRow)
    (seller requester : String)
    (hfind : findItem s itemID = some it) (hst : it.status = "assigned")
    (hseller : it.assigned_to = some seller) (hne : requester ≠ seller)
    (rowOrder : List ParticipantRow → List ParticipantRow)
    (shuffle : List String → List String) (rangeOrder : Shares → Shares)
    (faultsGet faultsMark : Faults) (now : Nat) (saleAmount : Int) :
    (handleSlashSell rowOrder shuffle rangeOrder faultsGet faultsMark now requester (some itemID)
        saleAmount s).2 = s
    ∧ (∀ m, (handleSlashSell rowOrder shuffle rangeOrder faultsGet faultsMark now requester
        (some itemID) saleAmount s).1 ≠ .sold m)
    ∧ (faultsGet 0 = false → faultsGet 1 = false →
        handleSlashSell rowOrder shuffle rangeOrder faultsGet faultsMark now requester (some itemID)
          saleAmount s = (.notSeller, s)) := by
  have hstat : ¬ (it.status = "sold" ∨ it.status = "distributed") := by
    rw [hst]; decide
  have hreq : it.assigned_to.getD "" ≠ requester := by
    rw [hseller]; exact fun e => hne e.symm
  have main : ∀ r, r = handleSlashSell rowOrder shuffle rangeOrder faultsGet faultsMark now requester
      (some itemID) saleAmount s →
      (∃ e, r = (.failedToGetItem e, s)) ∨ r = (.notSeller, s) := by
    intro r hr
    unfold handleSlashSell GetItem at hr
    simp only [hfind] at hr
    by_cases f0 : faultsGet 0 = true
    · simp only [f0, if_true] at hr
      exact Or.inl ⟨_, hr⟩
    · by_cases f1 : faultsGet 1 = true
      · have f0' : faultsGet 0 = false := by simpa using f0
        simp only [f0', f1, Bool.false_eq_true, if_true, if_false] at hr
        exact Or.inl ⟨_, hr⟩
      · have f0' : faultsGet 0 = false := by simpa using f0
        have f1' : faultsGet 1 = false := by simpa using f1
        simp only [f0', f1', Bool.false_eq_true, if_false, hstat, hreq, ne_eq,
          not_false_eq_true, if_true] at hr
        exact Or.inr hr
  refine ⟨?_, ?_, ?_⟩
  · rcases main _ rfl with ⟨e, h⟩ | h <;> rw [h]
  · intro m
    rcases main _ rfl with ⟨e, h⟩ | h <;> rw [h] <;> exact fun hc => by cases hc
  · intro f0 f1
    unfold handleSlashSell GetItem
    simp only [hfind, f0, f1, Bool.false_eq_true, if_false, hstat, hreq, ne_eq,
      not_false_eq_true, if_true]

theorem non_seller_cannot_sell_witness :
    (handleSlashSell byUserID List.reverse id noFaults noFaults 2 "B" (some 1) 101
        ringAssigned).2 = ringAssigned
    ∧ (∀ m, (handleSlashSell byUserID List.reverse id noFaults noFaults 2 "B" (some 1) 101
        ringAssigned).1 ≠ .sold m)
    ∧ (noFaults 0 = false → noFaults 1 = false →
        handleSlashSell byUserID List.reverse id noFaults noFaults 2 "B" (some 1) 101
          ringAssigned = (.notSeller, ringAssigned)) :=
  non_seller_cannot_sell ringAssigned 1 ringAssignedRow "A" "B" (by decide) (by decide)
    (by decide) (by decide) byUserID List.reverse id noFaults noFaults 2 101

theorem MarkItemAsSold_ledger (faults : Faults) (now : Nat) (itemID saleAmount : Int)
    (s : Store) :
    (MarkItemAsSold faults now itemID saleAmount s).2.profit_history = s.profit_history := by
  unfold MarkItemAsSold
  split
  · rfl
  · split
    · rfl
    · split
      · rfl
      · split
        · rfl
        · split
          · rfl
          · simp only
            split
            · rfl
            · split
              · rfl
              · split
                · rfl
                · split <;> rfl

theorem MarkItemAsDistributed_ledger (faults : Faults) (now : Nat) (itemID : Int)
    (s : Store) :
    (MarkItemAsDistributed faults now itemID s).2.profit_history = s.profit_history := by
  unfold MarkItemAsDistributed
  split
  · rfl
  · split
    · rfl
    · split
      · rfl
      · split <;> rfl

theorem AddItem_ledger (faults : Faults) (now : Nat) (name : String)
    (estimatedValue : Int) (participants : List String) (s : Store) :
    (AddItem faults now name estimatedValue participants s).2.profit_history
      = s.profit_history := by
  rcases hr : AddItem faults now name estimatedValue participants s with ⟨⟨itemID, oe⟩, s'⟩
  cases oe with
  | none => exact (AddItem_ok faults now name estimatedValue participants s itemID s' hr).2.2.1
  | some e =>
    rw [(AddItem_error_keeps_store faults now name estimatedValue participants s
      itemID e s' hr).2]

theorem MarkItemAsSoldAndDistribute_ledger (faults : Faults) (now : Nat)
    (itemID saleAmount : Int) (shares : Shares) (s : Store) :
    ∃ new, (MarkItemAsSoldAndDistribute faults now itemID saleAmount shares s).2.profit_history
        = s.profit_history ++ new
      ∧ ((MarkItemAsSoldAndDistribute faults now itemID saleAmount shares s).1 ≠ none →
          new = [])
      ∧ ((MarkItemAsSoldAndDistribute faults now itemID saleAmount shares s).1 = none →
          new.map ProfitRow.fact
            = shares.map (fun kv => (cleanUserID kv.1, itemID, kv.2, now))) := by
  rcases hr : MarkItemAsSoldAndDistribute faults now itemID saleAmount shares s with ⟨oe, s'⟩
  cases oe with
  | some e =>
    have := MarkItemAsSoldAndDistribute_error_keeps_store faults now itemID saleAmount
      shares s e s' hr
    subst this
    exact ⟨[], by simp, fun _ => rfl, fun h => by cases h⟩
  | none =>
    unfold MarkItemAsSoldAndDistribute at hr
    split at hr
    · cases (congrArg Prod.fst hr)
    · split at hr
      · cases (congrArg Prod.fst hr)
      · split at hr
        · cases (congrArg Prod.fst hr)
        · split at hr
          · cases (congrArg Prod.fst hr)
          · split at hr
            · cases (congrArg Prod.fst hr)
            · simp only at hr
              split at hr
              · cases (congrArg Prod.fst hr)
              · rename_i tx' hok
                split at hr
                · cases (congrArg Prod.fst hr)
                · have hs := congrArg Prod.snd hr
                  simp only at hs
                  subst hs
                  obtain ⟨_, _, new, h3, h4⟩ := distributeShares_ok _ _ _ _ _ _ _ hok
                  exact ⟨new, h3, fun h => absurd rfl h, fun _ => h4⟩

/-- C20: the ledger is append-only.  Whatever the store, the arguments and the
driver failures, `AddItem`, `AssignItem`, `MarkItemAsSold` and
`MarkItemAsDistributed` leave the ledger as it is, and
`MarkItemAsSoldAndDistribute` leaves it as it is when it returns an error and
otherwise keeps every row in place and appends one row per map entry. -/
theorem ledger_append_only (s : Store) (faults : Faults) (now : Nat) :
    (∀ name estimatedValue participants,
      (AddItem faults now name estimatedValue participants s).2.profit_history
        = s.profit_history)
    ∧ (∀ itemID userID,
      (AssignItem faults now itemID userID s).2.profit_history = s.profit_history)
    ∧ (∀ itemID saleAmount,
      (MarkItemAsSold faults now itemID saleAmount s).2.profit_history = s.profit_history)
    ∧ (∀ itemID,
      (MarkItemAsDistributed faults now itemID s).2.profit_history = s.profit_history)
    ∧ (∀ itemID saleAmount shares, ∃ new,
      (MarkItemAsSoldAndDistribute faults now itemID saleAmount shares s).2.profit_history
          = s.profit_history ++ new
      ∧ ((MarkItemAsSoldAndDistribute faults now itemID saleAmount shares s).1 ≠ none →
          new = [])
      ∧ ((MarkItemAsSoldAndDistribute faults now itemID saleAmount shares s).1 = none →
          new.map ProfitRow.fact
            = shares.map (fun kv => (cleanUserID kv.1, itemID, kv.2, now)))) := by
  refine ⟨fun name ev ps => AddItem_ledger faults now name ev ps s, ?_,
    fun itemID saleAmount => MarkItemAsSold_ledger faults now itemID saleAmount s,
    fun itemID => MarkItemAsDistributed_ledger faults now itemID s,
    fun itemID saleAmount shares =>
      MarkItemAsSoldAndDistribute_ledger faults now itemID saleAmount shares s⟩
  intro itemID userID
  unfold AssignItem
  simp only
  split <;> rfl

theorem ledger_append_only_witness :
    (AddItem noFaults 3 "gem" 10 ["D"] ringDistributed).2.profit_history
      = ringDistributed.profit_history :=
  (ledger_append_only ringDistributed noFaults 3).1 "gem" 10 ["D"]

/-! ## The round trip through `AddItem` and `GetItem` -/

theorem le_foldl_max_init (ids : List Int) (seq : Int) : seq ≤ ids.foldl max seq := by
  induction ids generalizing seq with
  | nil => exact le_refl seq
  | cons b l ih => exact le_trans (le_max_left seq b) (ih (max seq b))

theorem item_id_lt_nextItemID (s : Store) (it : ItemRow) (h : it ∈ s.items) :
    it.id < nextItemID s := by
  have := le_foldl_max (s.items.map (fun it => it.id)) s.seq_items it.id
    (List.mem_map_of_mem (fun it => it.id) h)
  unfold nextItemID nextRowid
  omega

theorem participant_item_id_lt (s : Store) (hs : participantsHaveItems s)
    (p : ParticipantRow) (hp : p ∈ s.participants) : p.item_id < nextItemID s := by
  obtain ⟨it, hit, e⟩ := hs p hp
  rw [← e]
  exact item_id_lt_nextItemID s it hit

theorem insertParticipants_noFaults (itemID : Int) (ps : List String) :
    ∀ (k : Nat) (tx : Store), (ps.map cleanUserID).Nodup →
      (∀ p ∈ tx.participants, p.item_id ≠ itemID) →
      ∃ tx', insertParticipants noFaults itemID k ps tx = .ok tx' := by
  have gen : ∀ (ps : List String) (k : Nat) (tx : Store), (ps.map cleanUserID).Nodup →
      (∀ p ∈ tx.participants, p.item_id = itemID → p.user_id ∉ ps.map cleanUserID) →
      ∃ tx', insertParticipants noFaults itemID k ps tx = .ok tx' := by
    intro ps
    induction ps with
    | nil => intro k tx _ _; exact ⟨tx, rfl⟩
    | cons u rest ih =>
      intro k tx hnd hfree
      have hnd' : cleanUserID u ∉ rest.map cleanUserID ∧ (rest.map cleanUserID).Nodup :=
        List.nodup_cons.1 hnd
      simp only [insertParticipants, noFaults, Bool.false_eq_true, if_false]
      have hany : ¬ (tx.participants.any
          (fun p => decide (p.item_id = itemID ∧ p.user_id = cleanUserID u)) = true) := by
        rw [List.any_eq_true]
        rintro ⟨p, hp, hc⟩
        have hc' : p.item_id = itemID ∧ p.user_id = cleanUserID u := by simpa using hc
        exact hfree p hp hc'.1 (by rw [hc'.2]; simp)
      rw [if_neg hany]
      apply ih _ _ hnd'.2
      intro p hp hpi
      rcases List.mem_append.1 hp with h | h
      · intro hm
        exact hfree p h hpi (by simp only [List.map_cons, List.mem_cons]; exact Or.inr hm)
      · have : p.user_id = cleanUserID u := by
          simp only [List.mem_singleton] at h
          rw [h]
        rw [this]
        exact hnd'.1
  intro k tx hnd hfree
  exact gen ps k tx hnd (fun p hp hpi => absurd hpi (hfree p hp))

/-- Without driver failures `AddItem` succeeds on every list whose cleaned
entries are distinct, provided no stray participant row sits under the new key. -/
theorem AddItem_noFaults (s : Store) (now : Nat) (name : String) (estimatedValue : Int)
    (participants : List String) (hnd : (participants.map cleanUserID).Nodup)
    (hs : participantsHaveItems s) :
    ∃ s', AddItem noFaults now name estimatedValue participants s
      = ((nextItemID s, none), s') := by
  obtain ⟨tx', h⟩ := insertParticipants_noFaults (nextItemID s) participants 3
    { s with
      items := s.items ++
        [{ id := nextItemID s, name := name, estimated_value := estimatedValue,
           status := "assigned", assigned_to := none, sale_amount := none,
           created_at := now, updated_at := now }],
      seq_items := nextItemID s } hnd
    (fun p hp => ne_of_lt (participant_item_id_lt s hs p hp))
  refine ⟨tx', ?_⟩
  unfold AddItem
  simp only [noFaults, Bool.false_eq_true, if_false]
  unfold nextItemID at h
  rw [h]
  rfl

/-- C13 as amended: for every name, estimated value and non-empty list of
participant IDs whose cleaned forms are distinct, on a store without stray
participant rows (every reachable store) and without driver failure, `AddItem`
followed by `GetItem` on the returned ID succeeds and returns that name and
estimated value, status `assigned`, no seller, sale amount 0 (none stored) and
exactly the cleaned participant IDs as a set, one participant for each, in
whatever order the engine hands the rows over, each with share 0 (none
stored). -/
theorem AddItem_GetItem_round_trip (s : Store) (now : Nat) (name : String)
    (estimatedValue : Int) (participants : List String)
    (rowOrder : List ParticipantRow → List ParticipantRow)
    (_hne : participants ≠ [])
    (hnd : (participants.map cleanUserID).Nodup) (hs : participantsHaveItems s)
    (hrow : ∀ l, (rowOrder l).Perm l) :
    ∃ itemID s' item,
      AddItem noFaults now name estimatedValue participants s = ((itemID, none), s')
      ∧ GetItem rowOrder noFaults itemID s' = .ok item
      ∧ item.ID = itemID ∧ item.Name = name ∧ item.EstimatedValue = estimatedValue
      ∧ item.Status = "assigned" ∧ item.AssignedTo = "" ∧ item.SaleAmount = 0
      ∧ (findItem s' itemID).map (fun it => it.sale_amount) = some none
      ∧ (∀ u, u ∈ item.Participants.map (fun p => p.UserID)
            ↔ u ∈ participants.map cleanUserID)
      ∧ (item.Participants.map (fun p => p.UserID)).Nodup
      ∧ item.Participants.length = participants.length
      ∧ (item.Participants.map (fun p => p.UserID)).Perm (participants.map cleanUserID)
      ∧ (∀ p ∈ item.Participants, p.ItemID = itemID ∧ p.ShareAmount = 0)
      ∧ (∀ p ∈ participantsOf s' itemID, p.share_amount = none) := by
  obtain ⟨s', hadd⟩ := AddItem_noFaults s now name estimatedValue participants hnd hs
  obtain ⟨_, hitems, _, _, new, hparts, hnew⟩ :=
    AddItem_ok noFaults now name estimatedValue participants s (nextItemID s) s' hadd
  have hfind : findItem s' (nextItemID s)
      = some { id := nextItemID s, name := name, estimated_value := estimatedValue,
               status := "assigned", assigned_to := none, sale_amount := none,
               created_at := now, updated_at := now } := by
    unfold findItem
    rw [hitems, List.find?_append]
    have hnone : s.items.find? (fun it => decide (it.id = nextItemID s)) = none := by
      rw [List.find?_eq_none]
      intro it hit
      have := item_id_lt_nextItemID s it hit
      simp only [decide_eq_true_eq]
      omega
    rw [hnone]
    simp
  have hrows : ∀ p ∈ new, p.item_id = nextItemID s ∧ p.share_amount = none := by
    intro p hp
    have hm : (p.item_id, p.user_id, p.share_amount)
        ∈ participants.map (fun u => (nextItemID s, cleanUserID u, (none : Option Int))) := by
      rw [← hnew]
      exact List.mem_map_of_mem (fun p => (p.item_id, p.user_id, p.share_amount)) hp
    obtain ⟨u, _, e⟩ := List.mem_map.1 hm
    simp only [Prod.mk.injEq] at e
    exact ⟨e.1.symm, e.2.2.symm⟩
  have hpo : participantsOf s' (nextItemID s) = new := by
    unfold participantsOf
    rw [hparts, List.filter_append]
    have h1 : s.participants.filter (fun p => decide (p.item_id = nextItemID s)) = [] := by
      rw [List.filter_eq_nil_iff]
      intro p hp
      have := participant_item_id_lt s hs p hp
      simp only [decide_eq_true_eq]
      omega
    have h2 : new.filter (fun p => decide (p.item_id = nextItemID s)) = new := by
      rw [List.filter_eq_self]
      intro p hp
      simp [(hrows p hp).1]
    rw [h1, h2, List.nil_append]
  have huids : new.map (fun p => p.user_id) = participants.map cleanUserID := by
    have := congrArg (List.map (fun t : Int × String × Option Int => t.2.1)) hnew
    simpa [List.map_map, Function.comp] using this
  have hperm : (((rowOrder (participantsOf s' (nextItemID s))).map (fun p =>
        ({ ID := p.id, ItemID := p.item_id, UserID := p.user_id,
           ShareAmount := p.share_amount.getD 0 } : Participant))).map
          (fun p => p.UserID)).Perm (participants.map cleanUserID) := by
    rw [hpo, List.map_map, ← huids]
    exact (hrow new).map _
  refine ⟨nextItemID s, s',
    { ID := nextItemID s, Name := name, EstimatedValue := estimatedValue,
      Status := "assigned", AssignedTo := "", SaleAmount := 0, CreatedAt := now,
      UpdatedAt := now,
      Participants := (rowOrder (participantsOf s' (nextItemID s))).map (fun p =>
        { ID := p.id, ItemID := p.item_id, UserID := p.user_id,
          ShareAmount := p.share_amount.getD 0 }) },
    hadd, ?_, rfl, rfl, rfl, rfl, rfl, rfl, ?_, fun u => hperm.mem_iff,
    hperm.nodup_iff.2 hnd, ?_, hperm, ?_, ?_⟩
  · unfold GetItem
    simp only [noFaults, Bool.false_eq_true, if_false, hfind]
    rfl
  · rw [hfind]; rfl
  · have := hperm.length_eq
    simpa using this
  · intro p hp
    rw [hpo] at hp
    obtain ⟨q, hq, rfl⟩ := List.mem_map.1 hp
    have hq' : q ∈ new := (hrow new).mem_iff.1 hq
    exact ⟨(hrows q hq').1, by simp [(hrows q hq').2]⟩
  · intro p hp
    rw [hpo] at hp
    exact (hrows p hp).2

theorem byUserID_perm (l : List ParticipantRow) : (byUserID l).Perm l :=
  List.perm_insertionSort _ l

theorem AddItem_GetItem_round_trip_witness :
    ∃ itemID s' item,
      AddItem noFaults 5 "gem" 10 ["<@C>", "A", "<@!B>"] ringDistributed
        = ((itemID, none), s')
      ∧ GetItem byUserID noFaults itemID s' = .ok item
      ∧ item.ID = itemID ∧ item.Name = "gem" ∧ item.EstimatedValue = 10
      ∧ item.Status = "assigned" ∧ item.AssignedTo = "" ∧ item.SaleAmount = 0
      ∧ (findItem s' itemID).map (fun it => it.sale_amount) = some none
      ∧ (∀ u, u ∈ item.Participants.map (fun p => p.UserID)
            ↔ u ∈ ["<@C>", "A", "<@!B>"].map cleanUserID)
      ∧ (item.Participants.map (fun p => p.UserID)).Nodup
      ∧ item.Participants.length = ["<@C>", "A", "<@!B>"].length
      ∧ (item.Participants.map (fun p => p.UserID)).Perm
          (["<@C>", "A", "<@!B>"].map cleanUserID)
      ∧ (∀ p ∈ item.Participants, p.ItemID = itemID ∧ p.ShareAmount = 0)
      ∧ (∀ p ∈ participantsOf s' itemID, p.share_amount = none) :=
  AddItem_GetItem_round_trip ringDistributed 5 "gem" 10 ["<@C>", "A", "<@!B>"] byUserID
    (by decide) (by decide) (by decide) byUserID_perm

/-- The round trip of `["<@C>", "A", "<@!B>"]` evaluated: read in the order of
the index the participants come back as `A`, `B`, `C`, read in the order of
insertion as `C`, `A`, `B`; the same set both times, in neither case the given
list. -/
theorem AddItem_GetItem_round_trip_example :
    (AddItem noFaults 1 "gem" 10 ["<@C>", "A", "<@!B>"] emptyStore).1 = (1, none)
    ∧ getItemUserIDs byUserID noFaults 1
        (AddItem noFaults 1 "gem" 10 ["<@C>", "A", "<@!B>"] emptyStore).2 = ["A", "B", "C"]
    ∧ getItemUserIDs id noFaults 1
        (AddItem noFaults 1 "gem" 10 ["<@C>", "A", "<@!B>"] emptyStore).2 = ["C", "A", "B"] := by
  decide

/-- C13 fails as stated: the list `["<@7>", "7"]` is non-empty with distinct
entries, yet both clean to `7` and `AddItem` fails on the uniqueness constraint;
and for the list `["<@7>"]` the round trip returns the participant `7`, not the
given `<@7>`, in whatever order the rows are read. -/
theorem AddItem_round_trip_counterexample :
    ["<@7>", "7"] ≠ [] ∧ ["<@7>", "7"].Nodup
    ∧ AddItem noFaults 1 "gem" 10 ["<@7>", "7"] emptyStore
        = ((0, some .uniqueViolation), emptyStore)
    ∧ (AddItem noFaults 1 "gem" 10 ["<@7>"] emptyStore).1 = (1, none)
    ∧ (∀ rowOrder : List ParticipantRow → List ParticipantRow, (∀ l, (rowOrder l).Perm l) →
        getItemUserIDs rowOrder noFaults 1 (AddItem noFaults 1 "gem" 10 ["<@7>"] emptyStore).2
          = ["7"])
    ∧ "7" ∉ ["<@7>"] := by
  refine ⟨by decide, by decide, by decide, by decide, ?_, by decide⟩
  intro rowOrder hrow
  have hs : (AddItem noFaults 1 "gem" 10 ["<@7>"] emptyStore).2
      = { items := [{ id := 1, name := "gem", estimated_value := 10, status := "assigned",
                      assigned_to := none, sale_amount := none, created_at := 1,
                      updated_at := 1 }],
          participants := [{ id := 1, item_id := 1, user_id := "7", share_amount := none }],
          profit_history := [], seq_items := 1, seq_participants := 1,
          seq_profit_history := 0 } := by
    decide
  rw [hs]
  have hone := List.perm_singleton.1
    (hrow [({ id := 1, item_id := 1, user_id := "7", share_amount := none } : ParticipantRow)])
  simp only [getItemUserIDs, GetItem, noFaults, findItem, participantsOf, List.find?,
    List.filter, Bool.false_eq_true, if_false, decide_True, hone, List.map]

/-! ## The shape of the store after each operation -/

theorem rowwise_refl (s : Store) : RowwiseUpdate s s :=
  ⟨id, id, fun _ => rfl, fun _ => ⟨rfl, rfl⟩, by simp, by simp⟩

theorem rowwise_updateItems (s : Store) (itemID : Int) (f : ItemRow → ItemRow)
    (hf : ∀ it, (f it).id = it.id) : RowwiseUpdate s (updateItems itemID f s) := by
  refine ⟨fun it => if it.id = itemID then f it else it, id, ?_, fun _ => ⟨rfl, rfl⟩, rfl,
    by simp [updateItems]⟩
  intro it
  by_cases h : it.id = itemID
  · simp only [if_pos h, hf]
  · simp only [if_neg h]

/-- What a successful `MarkItemAsSoldAndDistribute` has done. -/
theorem MarkItemAsSoldAndDistribute_ok (faults : Faults) (now : Nat)
    (itemID saleAmount : Int) (shares : Shares) (s s' : Store)
    (h : MarkItemAsSoldAndDistribute faults now itemID saleAmount shares s = (none, s')) :
    ∃ it, findItem s itemID = some it ∧ it.status = "assigned"
      ∧ s'.items = (updateItems itemID
          (fun it => { it with status := "distributed", sale_amount := some saleAmount,
                               updated_at := now }) s).items
      ∧ s'.participants = s.participants.map (applyShares itemID shares)
      ∧ ∃ new, s'.profit_history = s.profit_history ++ new
          ∧ new.map ProfitRow.fact
              = shares.map (fun kv => (cleanUserID kv.1, itemID, kv.2, now)) := by
  unfold MarkItemAsSoldAndDistribute at h
  split at h
  · cases (congrArg Prod.fst h)
  · split at h
    · cases (congrArg Prod.fst h)
    · split at h
      · cases (congrArg Prod.fst h)
      · rename_i it hfind
        split at h
        · cases (congrArg Prod.fst h)
        · rename_i hst
          split at h
          · cases (congrArg Prod.fst h)
          · simp only at h
            split at h
            · cases (congrArg Prod.fst h)
            · rename_i tx' hok
              split at h
              · cases (congrArg Prod.fst h)
              · have hs := congrArg Prod.snd h
                simp only at hs
                subst hs
                obtain ⟨h1, h2, new, h3, h4⟩ := distributeShares_ok _ _ _ _ _ _ _ hok
                exact ⟨it, hfind, not_not.1 hst, h1, h2, new, h3, h4⟩

theorem MarkItemAsSoldAndDistribute_rowwise (faults : Faults) (now : Nat)
    (itemID saleAmount : Int) (shares : Shares) (s : Store) :
    RowwiseUpdate s (MarkItemAsSoldAndDistribute faults now itemID saleAmount shares s).2 := by
  rcases hr : MarkItemAsSoldAndDistribute faults now itemID saleAmount shares s with ⟨oe, s'⟩
  cases oe with
  | some e =>
    rw [MarkItemAsSoldAndDistribute_error_keeps_store faults now itemID saleAmount shares s
      e s' hr]
    exact rowwise_refl s
  | none =>
    obtain ⟨it, _, _, h1, h2, _⟩ :=
      MarkItemAsSoldAndDistribute_ok faults now itemID saleAmount shares s s' hr
    refine ⟨fun it => if it.id = itemID then
        { it with status := "distributed", sale_amount := some saleAmount,
                  updated_at := now } else it,
      applyShares itemID shares, ?_, ?_, h1, h2⟩
    · intro it
      by_cases h : it.id = itemID
      · simp only [if_pos h]
      · simp only [if_neg h]
    · intro p
      exact ⟨(applyShares_keeps itemID shares p).2.1, (applyShares_keeps itemID shares p).2.2⟩

theorem AssignItem_rowwise (faults : Faults) (now : Nat) (itemID : Int) (userID : String)
    (s : Store) : RowwiseUpdate s (AssignItem faults now itemID userID s).2 := by
  unfold AssignItem
  simp only
  split
  · exact rowwise_refl s
  · exact rowwise_updateItems s itemID _ (fun _ => rfl)

theorem MarkItemAsDistributed_rowwise (faults : Faults) (now : Nat) (itemID : Int)
    (s : Store) : RowwiseUpdate s (MarkItemAsDistributed faults now itemID s).2 := by
  unfold MarkItemAsDistributed
  split
  · exact rowwise_refl s
  · split
    · exact rowwise_refl s
    · split
      · exact rowwise_refl s
      · split
        · exact rowwise_refl s
        · exact rowwise_updateItems s itemID _ (fun _ => rfl)

theorem MarkItemAsSold_rowwise (faults : Faults) (now : Nat) (itemID saleAmount : Int)
    (s : Store) : RowwiseUpdate s (MarkItemAsSold faults now itemID saleAmount s).2 := by
  unfold MarkItemAsSold
  split
  · exact rowwise_refl s
  · split
    · exact rowwise_refl s
    · split
      · exact rowwise_refl s
      · split
        · exact rowwise_refl s
        · split
          · exact rowwise_refl s
          · simp only
            split
            · exact rowwise_refl s
            · split
              · exact rowwise_refl s
              · split
                · exact rowwise_refl s
                · split
                  · exact rowwise_refl s
                  · refine ⟨fun it => if it.id = itemID then
                        { it with status := "sold", sale_amount := some saleAmount,
                                  updated_at := now } else it, _, ?_, ?_, rfl, rfl⟩
                    · intro it
                      by_cases h : it.id = itemID
                      · simp only [if_pos h]
                      · simp only [if_neg h]
                    · intro p
                      by_cases h : p.item_id = itemID
                      · simp only [if_pos h]
                        exact ⟨trivial, trivial⟩
                      · simp only [if_neg h]
                        exact ⟨trivial, trivial⟩

theorem participantsHaveItems_rowwise (s s' : Store) (h : RowwiseUpdate s s')
    (hs : participantsHaveItems s) : participantsHaveItems s' := by
  obtain ⟨f, g, hf, hg, hi, hp⟩ := h
  intro p' hp'
  rw [hp] at hp'
  obtain ⟨p, hpm, rfl⟩ := List.mem_map.1 hp'
  obtain ⟨it, hit, e⟩ := hs p hpm
  refine ⟨f it, ?_, ?_⟩
  · rw [hi]; exact List.mem_map_of_mem f hit
  · rw [hf, (hg p).1, e]

theorem participantsHaveItems_AddItem (faults : Faults) (now : Nat) (name : String)
    (estimatedValue : Int) (participants : List String) (s : Store)
    (hs : participantsHaveItems s) :
    participantsHaveItems (AddItem faults now name estimatedValue participants s).2 := by
  rcases hr : AddItem faults now name estimatedValue participants s with ⟨⟨itemID, oe⟩, s'⟩
  cases oe with
  | some e =>
    rw [(AddItem_error_keeps_store faults now name estimatedValue participants s
      itemID e s' hr).2]
    exact hs
  | none =>
    obtain ⟨_, hitems, _, _, new, hparts, hnew⟩ :=
      AddItem_ok faults now name estimatedValue participants s itemID s' hr
    intro p hp
    simp only at hp
    rw [hparts] at hp
    simp only
    rw [hitems]
    rcases List.mem_append.1 hp with h | h
    · obtain ⟨it, hit, e⟩ := hs p h
      exact ⟨it, List.mem_append_left _ hit, e⟩
    · have hm : (p.item_id, p.user_id, p.share_amount)
          ∈ participants.map (fun u => (itemID, cleanUserID u, (none : Option Int))) := by
        rw [← hnew]
        exact List.mem_map_of_mem (fun p => (p.item_id, p.user_id, p.share_amount)) h
      obtain ⟨u, _, e⟩ := List.mem_map.1 hm
      simp only [Prod.mk.injEq] at e
      exact ⟨_, List.mem_append_right _ (List.mem_singleton_self _), e.1⟩

/-- In every store reached from the empty one each participant row belongs to an
item of the store. -/
theorem reachable_participantsHaveItems (s : Store) (h : Reachable s) :
    participantsHaveItems s := by
  induction h with
  | empty => intro p hp; cases hp
  | addItem faults now name ev ps s _ ih =>
    exact participantsHaveItems_AddItem faults now name ev ps s ih
  | assignItem faults now itemID userID s _ ih =>
    exact participantsHaveItems_rowwise _ _ (AssignItem_rowwise faults now itemID userID s) ih
  | markItemAsSoldAndDistribute faults now itemID saleAmount shares s _ ih =>
    exact participantsHaveItems_rowwise _ _
      (MarkItemAsSoldAndDistribute_rowwise faults now itemID saleAmount shares s) ih
  | markItemAsSold faults now itemID saleAmount s _ ih =>
    exact participantsHaveItems_rowwise _ _
      (MarkItemAsSold_rowwise faults now itemID saleAmount s) ih
  | markItemAsDistributed faults now itemID s _ ih =>
    exact participantsHaveItems_rowwise _ _
      (MarkItemAsDistributed_rowwise faults now itemID s) ih

/-! ## Items, participants and sellers -/

theorem addMention_participants (botID mention : String) (st st' : ParseState)
    (h : addMention botID mention st = .ok st') :
    ∃ extra, st'.participants = st.participants ++ extra := by
  unfold addMention at h
  simp only at h
  split at h
  · split at h
    · cases h
    · injection h with h
      subst h
      exact ⟨_, rfl⟩
  · injection h with h
    subst h
    exact ⟨[], by simp⟩

theorem processParts_participants (botID : String) (parts : List String) :
    ∀ (st st' : ParseState), processParts botID parts st = .ok st' →
      ∃ extra, st'.participants = st.participants ++ extra := by
  induction parts with
  | nil =>
    intro st st' h
    simp only [processParts, Except.ok.injEq] at h
    subst h
    exact ⟨[], by simp⟩
  | cons part rest ih =>
    intro st st' h
    simp only [processParts] at h
    split at h
    · exact ih _ _ h
    · split at h
      · cases h
      · split at h
        · cases h
        · rename_i st1 h1
          obtain ⟨e1, he1⟩ := addMention_participants _ _ _ _ h1
          obtain ⟨e2, he2⟩ := ih _ _ h
          exact ⟨e1 ++ e2, by rw [he2, he1, List.append_assoc]⟩

theorem processMentions_participants (botID : String) (mentions : List String) :
    ∀ (st st' : ParseState), processMentions botID mentions st = .ok st' →
      ∃ extra, st'.participants = st.participants ++ extra := by
  induction mentions with
  | nil =>
    intro st st' h
    simp only [processMentions, Except.ok.injEq] at h
    subst h
    exact ⟨[], by simp⟩
  | cons mention rest ih =>
    intro st st' h
    simp only [processMentions] at h
    split at h
    · split at h
      · cases h
      · rename_i st1 h1
        obtain ⟨e1, he1⟩ := processParts_participants _ _ _ _ h1
        obtain ⟨e2, he2⟩ := ih _ _ h
        exact ⟨e1 ++ e2, by rw [he2, he1, List.append_assoc]⟩
    · split at h
      · cases h
      · split at h
        · cases h
        · split at h
          · split at h
            · cases h
            · rename_i st1 h1
              obtain ⟨e1, he1⟩ := addMention_participants _ _ _ _ h1
              obtain ⟨e2, he2⟩ := ih _ _ h
              exact ⟨e1 ++ e2, by rw [he2, he1, List.append_assoc]⟩
          · exact ih _ _ h

/-- The store `handleSlashAdd` leaves: the store it found, or the store after a
successful `AddItem` whose list starts with the seller, followed or not by the
`AssignItem` of that seller. -/
theorem handleSlashAdd_store (faultsAdd faultsAssign : Faults) (nowAdd nowAssign : Nat)
    (botID caller : String) (sellerOpt : Option String) (itemName : String)
    (estimatedValue : Int) (participantsStr : String) (s : Store) :
    (handleSlashAdd faultsAdd faultsAssign nowAdd nowAssign botID caller sellerOpt itemName
        estimatedValue participantsStr s).2 = s
    ∨ ∃ others itemID s1,
        AddItem faultsAdd nowAdd itemName estimatedValue (sellerOpt.getD caller :: others) s
          = ((itemID, none), s1)
        ∧ ((handleSlashAdd faultsAdd faultsAssign nowAdd nowAssign botID caller sellerOpt
              itemName estimatedValue participantsStr s).2 = s1
          ∨ (handleSlashAdd faultsAdd faultsAssign nowAdd nowAssign botID caller sellerOpt
              itemName estimatedValue participantsStr s).2
            = updateItems itemID
                (fun it => { it with status := "assigned",
                                     assigned_to := some (cleanUserID (sellerOpt.getD caller)),
                                     updated_at := nowAssign }) s1) := by
  unfold handleSlashAdd
  simp only
  split
  · exact Or.inl rfl
  · split
    · exact Or.inl rfl
    · rename_i st hst
      obtain ⟨others, hothers⟩ := processMentions_participants _ _ _ _ hst
      simp only [List.singleton_append] at hothers
      rw [hothers]
      rcases hadd : AddItem faultsAdd nowAdd itemName estimatedValue
          (sellerOpt.getD caller :: others) s with ⟨⟨itemID, oe⟩, s1⟩
      cases oe with
      | some e =>
        simp only
        left
        exact (AddItem_error_keeps_store _ _ _ _ _ _ _ _ _ hadd).2
      | none =>
        simp only
        right
        refine ⟨others, itemID, s1, hadd, ?_⟩
        unfold AssignItem
        simp only
        split
        · rename_i e s2 hassign
          split at hassign
          · left
            exact (congrArg Prod.snd hassign).symm
          · cases (congrArg Prod.fst hassign)
        · rename_i s2 hassign
          split at hassign
          · cases (congrArg Prod.fst hassign)
          · right
            exact (congrArg Prod.snd hassign).symm

/-- The store `handleSlashSell` leaves: the store it found, or the store after a
successful `MarkItemAsSoldAndDistribute`. -/
theorem handleSlashSell_store (rowOrder : List ParticipantRow → List ParticipantRow)
    (shuffle : List String → List String) (rangeOrder : Shares → Shares) (faultsGet faultsMark : Faults) (now : Nat)
    (requester : String) (parsedItemID : Option Int) (saleAmount : Int) (s : Store) :
    (handleSlashSell rowOrder shuffle rangeOrder faultsGet faultsMark now requester parsedItemID
        saleAmount s).2 = s
    ∨ ∃ itemID shares,
        MarkItemAsSoldAndDistribute faultsMark now itemID saleAmount shares s
          = (none, (handleSlashSell rowOrder shuffle rangeOrder faultsGet faultsMark now requester
              parsedItemID saleAmount s).2) := by
  unfold handleSlashSell
  split
  · exact Or.inl rfl
  · rename_i itemID
    split
    · exact Or.inl rfl
    · rename_i item _
      split
      · exact Or.inl rfl
      · split
        · exact Or.inl rfl
        · split
          · exact Or.inl rfl
          · rename_i shares _
            split
            · rename_i e s' hm
              left
              exact MarkItemAsSoldAndDistribute_error_keeps_store _ _ _ _ _ _ _ _ hm
            · rename_i s' hm
              right
              exact ⟨itemID, rangeOrder shares, hm⟩

theorem itemsHaveSeller_AddItem (faults : Faults) (now : Nat) (name : String)
    (estimatedValue : Int) (seller : String) (others : List String) (s s1 : Store)
    (itemID : Int)
    (hadd : AddItem faults now name estimatedValue (seller :: others) s = ((itemID, none), s1))
    (hs : itemsHaveSellerAmongParticipants s) :
    itemsHaveSellerAmongParticipants s1
    ∧ ∃ p ∈ s1.participants, p.item_id = itemID ∧ p.user_id = cleanUserID seller := by
  obtain ⟨_, hitems, _, _, new, hparts, hnew⟩ :=
    AddItem_ok faults now name estimatedValue (seller :: others) s itemID s1 hadd
  have hrow : ∃ p ∈ s1.participants, p.item_id = itemID ∧ p.user_id = cleanUserID seller := by
    cases new with
    | nil => simp at hnew
    | cons q qs =>
      simp only [List.map_cons, List.cons.injEq, Prod.mk.injEq] at hnew
      exact ⟨q, by rw [hparts]; simp, hnew.1.1, hnew.1.2.1⟩
  refine ⟨?_, hrow⟩
  intro it hit
  rw [hitems] at hit
  rcases List.mem_append.1 hit with h | h
  · obtain ⟨h1, h2⟩ := hs it h
    constructor
    · obtain ⟨p, hp, e⟩ := h1
      exact ⟨p, by rw [hparts]; exact List.mem_append_left _ hp, e⟩
    · intro u hu
      obtain ⟨p, hp, e⟩ := h2 u hu
      exact ⟨p, by rw [hparts]; exact List.mem_append_left _ hp, e⟩
  · simp only [List.mem_singleton] at h
    subst h
    constructor
    · obtain ⟨p, hp, e, _⟩ := hrow
      exact ⟨p, hp, e⟩
    · intro u hu
      cases hu

theorem itemsHaveSeller_assign (s : Store) (itemID : Int) (u : String) (now : Nat)
    (hs : itemsHaveSellerAmongParticipants s)
    (hrow : ∃ p ∈ s.participants, p.item_id = itemID ∧ p.user_id = u) :
    itemsHaveSellerAmongParticipants (updateItems itemID
      (fun it => { it with status := "assigned", assigned_to := some u,
                           updated_at := now }) s) := by
  intro it' hit'
  simp only [updateItems, List.mem_map] at hit'
  obtain ⟨it, hit, e⟩ := hit'
  by_cases h : it.id = itemID
  · rw [if_pos h] at e
    subst e
    obtain ⟨p, hp, e1, e2⟩ := hrow
    refine ⟨⟨p, hp, e1.trans h.symm⟩, ?_⟩
    intro w hw
    have : w = u := by
      simp only [Option.mem_def, Option.some.injEq] at hw
      exact hw.symm
    subst this
    exact ⟨p, hp, e1.trans h.symm, e2⟩
  · rw [if_neg h] at e
    subst e
    exact hs it hit

theorem itemsHaveSeller_distribute (faults : Faults) (now : Nat) (itemID saleAmount : Int)
    (shares : Shares) (s s' : Store)
    (h : MarkItemAsSoldAndDistribute faults now itemID saleAmount shares s = (none, s'))
    (hs : itemsHaveSellerAmongParticipants s) : itemsHaveSellerAmongParticipants s' := by
  obtain ⟨_, _, _, hitems, hparts, _⟩ :=
    MarkItemAsSoldAndDistribute_ok faults now itemID saleAmount shares s s' h
  intro it' hit'
  rw [hitems] at hit'
  simp only [updateItems, List.mem_map] at hit'
  obtain ⟨it, hit, e⟩ := hit'
  have hid : it'.id = it.id ∧ it'.assigned_to = it.assigned_to := by
    by_cases hc : it.id = itemID
    · rw [if_pos hc] at e; subst e; exact ⟨rfl, rfl⟩
    · rw [if_neg hc] at e; subst e; exact ⟨rfl, rfl⟩
  obtain ⟨h1, h2⟩ := hs it hit
  have lift : ∀ p ∈ s.participants, applyShares itemID shares p ∈ s'.participants := by
    intro p hp
    rw [hparts]
    exact List.mem_map_of_mem _ hp
  constructor
  · obtain ⟨p, hp, e1⟩ := h1
    exact ⟨_, lift p hp, by rw [(applyShares_keeps itemID shares p).2.1, e1, hid.1]⟩
  · intro u hu
    rw [hid.2] at hu
    obtain ⟨p, hp, e1, e2⟩ := h2 u hu
    exact ⟨_, lift p hp, by rw [(applyShares_keeps itemID shares p).2.1, e1, hid.1],
      by rw [(applyShares_keeps itemID shares p).2.2, e2]⟩

/-- C15 as amended: in every store reachable from the empty store through the
commands `/docteur add` and `/docteur sell`, every item has at least one
participant and the seller of every item that has one is one of its
participants. -/
theorem command_reachable_items_have_seller (s : Store) (h : CommandReachable s) :
    itemsHaveSellerAmongParticipants s := by
  induction h with
  | empty => intro it hit; cases hit
  | add faultsAdd faultsAssign nowAdd nowAssign botID caller sellerOpt itemName
      estimatedValue participantsStr s _ ih =>
    rcases handleSlashAdd_store faultsAdd faultsAssign nowAdd nowAssign botID caller
      sellerOpt itemName estimatedValue participantsStr s with h | ⟨others, itemID, s1, hadd, h⟩
    · rw [h]; exact ih
    · obtain ⟨h1, hrow⟩ := itemsHaveSeller_AddItem _ _ _ _ _ _ _ _ _ hadd ih
      rcases h with h | h
      · rw [h]; exact h1
      · rw [h]; exact itemsHaveSeller_assign s1 itemID _ nowAssign h1 hrow
  | sell rowOrder shuffle rangeOrder faultsGet faultsMark now requester parsedItemID saleAmount
      s _ ih =>
    rcases handleSlashSell_store rowOrder shuffle rangeOrder faultsGet faultsMark now requester
      parsedItemID saleAmount s with h | ⟨itemID, shares, h⟩
    · rw [h]; exact ih
    · exact itemsHaveSeller_distribute _ _ _ _ _ _ _ h ih

theorem command_reachable_items_have_seller_witness :
    itemsHaveSellerAmongParticipants
      (handleSlashAdd noFaults noFaults 1 2 "99" "10" none "ring" 90 "<@11>, <@!12> <@13>"
        emptyStore).2 :=
  command_reachable_items_have_seller _
    (CommandReachable.add noFaults noFaults 1 2 "99" "10" none "ring" 90
      "<@11>, <@!12> <@13>" emptyStore CommandReachable.empty)

/-- C15 fails as stated: `AddItem` with an empty list is a store operation and
leaves item 1 without any participant, and `AssignItem 1 "Z"` makes a user the
seller of the ring who is none of its participants. -/
theorem seller_invariant_counterexample :
    Reachable gemAlone
    ∧ (findItem gemAlone 1).isSome = true ∧ participantsOf gemAlone 1 = []
    ∧ ¬ itemsHaveSellerAmongParticipants gemAlone
    ∧ Reachable ringStranger
    ∧ (findItem ringStranger 1).map (fun it => it.assigned_to) = some (some "Z")
    ∧ (participantsOf ringStranger 1).map (fun p => p.user_id) = ["A", "B", "C"]
    ∧ ¬ itemsHaveSellerAmongParticipants ringStranger :=
  ⟨Reachable.addItem noFaults 1 "gem" 10 [] emptyStore Reachable.empty,
    by decide, by decide, by decide,
    Reachable.assignItem noFaults 3 1 "Z" ringAssigned
      (Reachable.assignItem noFaults 1 1 "A" _
        (Reachable.addItem noFaults 1 "ring" 90 ["A", "B", "C"] emptyStore Reachable.empty)),
    by decide, by decide, by decide⟩

/-! ## The sums after a sale -/

theorem sharesGet_not_mem_keys (m : Shares) (u : String) (h : u ∉ sharesKeys m) :
    sharesGet m u = 0 := by
  induction m with
  | nil => rfl
  | cons kv rest ih =>
    obtain ⟨k, v⟩ := kv
    simp only [sharesKeys, List.map_cons, List.mem_cons, not_or] at h
    have hk : ¬ k = u := fun e => h.1 e.symm
    simp only [sharesGet, if_neg hk]
    exact ih h.2

theorem sharesGet_of_mem (m : Shares) (u : String) (v : Int)
    (hnd : (sharesKeys m).Nodup) (h : (u, v) ∈ m) : sharesGet m u = v := by
  induction m with
  | nil => cases h
  | cons kv rest ih =>
    obtain ⟨k, w⟩ := kv
    have hnd' : k ∉ sharesKeys rest ∧ (sharesKeys rest).Nodup := by
      simpa [sharesKeys] using hnd
    rcases List.mem_cons.1 h with e | h'
    · injection e with e1 e2
      subst e1; subst e2
      simp [sharesGet]
    · have hk : ¬ k = u := by
        intro e
        subst e
        exact hnd'.1 (List.mem_map_of_mem Prod.fst h')
      simp only [sharesGet, if_neg hk]
      exact ih hnd'.2 h'

theorem sharesGet_perm (m m' : Shares) (u : String) (hp : m'.Perm m)
    (hnd : (sharesKeys m).Nodup) : sharesGet m' u = sharesGet m u := by
  have hkeys : (sharesKeys m').Perm (sharesKeys m) := hp.map Prod.fst
  by_cases hu : u ∈ sharesKeys m
  · obtain ⟨kv, hkv, e⟩ := List.mem_map.1 hu
    obtain ⟨k, v⟩ := kv
    simp only at e
    subst e
    rw [sharesGet_of_mem m k v hnd hkv,
      sharesGet_of_mem m' k v (hkeys.nodup_iff.2 hnd) (hp.mem_iff.2 hkv)]
  · rw [sharesGet_not_mem_keys m u hu,
      sharesGet_not_mem_keys m' u (fun h => hu (hkeys.mem_iff.1 h))]

theorem sharesSum_perm (m m' : Shares) (hp : m'.Perm m) : sharesSum m' = sharesSum m :=
  (hp.map Prod.snd).sum_eq

theorem sharesSum_tabulate_eq (us : List String) (f : String → Int) :
    sharesSum (tabulate us f) = (us.map f).sum := by
  unfold sharesSum tabulate
  rw [List.map_map]
  rfl

/-- The shares computed by `handleSlashSell` sum to the sale amount. -/
theorem handleSlashSellShares_sum (shuffle : List String → List String)
    (hsh : ∀ l, (shuffle l).Perm l) (saleAmount : Int) (ps : List Participant)
    (seller : String) (h0 : 0 ≤ saleAmount)
    (hnd : (userIDs ps).Nodup) (hs : seller ∈ userIDs ps) (m : Shares)
    (hm : handleSlashSellShares shuffle saleAmount ps seller = some m) :
    sharesSum m = saleAmount ∧ sharesKeys m = userIDs ps := by
  rw [handleSlashSellShares_eq shuffle hsh saleAmount ps seller hnd hs] at hm
  injection hm with hm
  subst hm
  refine ⟨?_, sharesKeys_tabulate _ _⟩
  rw [sharesSum_tabulate,
    sum_indicator _ _ hnd (bumped_nodup shuffle hsh saleAmount ps seller hnd)
      (bumped_sub shuffle hsh saleAmount ps seller hs),
    bumped_length shuffle hsh saleAmount ps seller h0 hnd hs]
  have hlen : (userIDs ps).length = ps.length := by simp [userIDs]
  rw [hlen]
  exact base_mul_add_remainder saleAmount ps

theorem MarkItemAsSoldAndDistribute_noFaults (s : Store) (itemID : Int) (it : ItemRow)
    (hfind : findItem s itemID = some it) (hst : it.status = "assigned")
    (now : Nat) (saleAmount : Int) (shares : Shares) :
    ∃ s', MarkItemAsSoldAndDistribute noFaults now itemID saleAmount shares s = (none, s') := by
  obtain ⟨tx', _, h1, _⟩ := distributeShares_noFaults now itemID shares 3
    (updateItems itemID
      (fun it => { it with status := "distributed", sale_amount := some saleAmount,
                           updated_at := now }) s)
  refine ⟨tx', ?_⟩
  unfold MarkItemAsSoldAndDistribute
  simp only [noFaults, Bool.false_eq_true, if_false, hfind, hst, ne_eq, not_true_eq_false]
  rw [h1]

/-- What a sale reported by `handleSlashSell` consisted of. -/
theorem handleSlashSell_sold (rowOrder : List ParticipantRow → List ParticipantRow)
    (shuffle : List String → List String)
    (rangeOrder : Shares → Shares) (faultsGet faultsMark : Faults) (now : Nat)
    (requester : String) (itemID saleAmount : Int) (s s' : Store) (shares : Shares)
    (h : handleSlashSell rowOrder shuffle rangeOrder faultsGet faultsMark now requester
      (some itemID) saleAmount s = (.sold shares, s')) :
    ∃ it, findItem s itemID = some it
      ∧ it.assigned_to.getD "" = requester
      ∧ handleSlashSellShares shuffle saleAmount
          ((rowOrder (participantsOf s itemID)).map (fun p =>
            { ID := p.id, ItemID := p.item_id, UserID := p.user_id,
              ShareAmount := p.share_amount.getD 0 }))
          (it.assigned_to.getD "") = some shares
      ∧ MarkItemAsSoldAndDistribute faultsMark now itemID saleAmount (rangeOrder shares) s
          = (none, s') := by
  unfold handleSlashSell at h
  simp only at h
  split at h
  · cases (congrArg Prod.fst h)
  · rename_i item hget
    unfold GetItem at hget
    split at hget
    · cases hget
    · split at hget
      · cases hget
      · rename_i it hfind
        split at hget
        · cases hget
        · injection hget with hget
          subst hget
          simp only at h
          split at h
          · cases (congrArg Prod.fst h)
          · split at h
            · cases (congrArg Prod.fst h)
            · rename_i hreq
              split at h
              · cases (congrArg Prod.fst h)
              · rename_i sh hsh
                split at h
                · cases (congrArg Prod.fst h)
                · rename_i s2 hm
                  have e1 := congrArg Prod.fst h
                  have e2 := congrArg Prod.snd h
                  simp only [SellOutcome.sold.injEq] at e1 e2
                  subst e1; subst e2
                  exact ⟨it, hfind, not_not.1 hreq, hsh, hm⟩

/-- C16 as amended: for every assigned item with `n ≥ 1` distinct participants
whose IDs the mention clean-up leaves unchanged and whose seller is one of them,
and every sale amount `≥ 0`, a sale that `handleSlashSell` reports leaves the
item with that sale amount stored, every participant share set, the shares
summing to the sale amount, and the ledger grown by rows of that item whose
amounts sum to the sale amount; and the seller's request does end in a sale when
no driver call fails. -/
theorem sale_sums_to_saleAmount (s : Store) (itemID : Int) (it : ItemRow) (seller : String)
    (saleAmount : Int) (rowOrder : List ParticipantRow → List ParticipantRow)
    (shuffle : List String → List String) (rangeOrder : Shares → Shares) (now : Nat)
    (hrow : ∀ l, (rowOrder l).Perm l)
    (hsh : ∀ l, (shuffle l).Perm l) (hro : ∀ m, (rangeOrder m).Perm m)
    (hfind : findItem s itemID = some it) (hst : it.status = "assigned")
    (hseller : it.assigned_to = some seller)
    (_hn : 1 ≤ (participantsOf s itemID).length)
    (hnd : ((participantsOf s itemID).map (fun p => p.user_id)).Nodup)
    (hmem : seller ∈ (participantsOf s itemID).map (fun p => p.user_id))
    (hclean : ∀ u ∈ (participantsOf s itemID).map (fun p => p.user_id), cleanUserID u = u)
    (h0 : 0 ≤ saleAmount) :
    (∀ faultsGet faultsMark requester shares s',
      handleSlashSell rowOrder shuffle rangeOrder faultsGet faultsMark now requester (some itemID)
        saleAmount s = (.sold shares, s') →
      (findItem s' itemID).map (fun it => (it.status, it.sale_amount))
          = some ("distributed", some saleAmount)
      ∧ (∀ p ∈ participantsOf s' itemID, p.share_amount ≠ none)
      ∧ ((participantsOf s' itemID).map (fun p => p.share_amount.getD 0)).sum = saleAmount
      ∧ ∃ new, s'.profit_history = s.profit_history ++ new
          ∧ (∀ r ∈ new, r.item_id = itemID)
          ∧ (new.map (fun r => r.amount)).sum = saleAmount)
    ∧ ∃ shares s',
        handleSlashSell rowOrder shuffle rangeOrder noFaults noFaults now seller (some itemID)
          saleAmount s = (.sold shares, s') := by
  have hP : ((rowOrder (participantsOf s itemID)).map (fun p => p.user_id)).Perm
      ((participantsOf s itemID).map (fun p => p.user_id)) :=
    (hrow (participantsOf s itemID)).map (fun p => p.user_id)
  have hndP : ((rowOrder (participantsOf s itemID)).map (fun p => p.user_id)).Nodup :=
    hP.nodup_iff.2 hnd
  have hmemP : seller ∈ (rowOrder (participantsOf s itemID)).map (fun p => p.user_id) :=
    hP.mem_iff.2 hmem
  have hids : userIDs ((rowOrder (participantsOf s itemID)).map (fun p =>
        ({ ID := p.id, ItemID := p.item_id, UserID := p.user_id,
           ShareAmount := p.share_amount.getD 0 } : Participant)))
      = (rowOrder (participantsOf s itemID)).map (fun p => p.user_id) := by
    simp [userIDs, List.map_map, Function.comp]
  have hgetD : it.assigned_to.getD "" = seller := by rw [hseller]; rfl
  constructor
  · intro faultsGet faultsMark requester shares s' hsold
    obtain ⟨it', hfind', _, hshares, hmark⟩ :=
      handleSlashSell_sold _ _ _ _ _ _ _ _ _ _ _ _ hsold
    rw [hfind] at hfind'
    injection hfind' with e
    subst e
    rw [hgetD] at hshares
    obtain ⟨hsum, hkeys⟩ := handleSlashSellShares_sum shuffle hsh saleAmount _ seller h0
      (by rw [hids]; exact hndP) (by rw [hids]; exact hmemP) shares hshares
    rw [hids] at hkeys
    obtain ⟨_, _, _, hitems, hparts, new, hledger, hnew⟩ :=
      MarkItemAsSoldAndDistribute_ok _ _ _ _ _ _ _ hmark
    have hRkeys : (sharesKeys (rangeOrder shares)).Perm
        ((participantsOf s itemID).map (fun p => p.user_id)) := by
      refine List.Perm.trans ?_ hP
      rw [← hkeys]
      exact (hro shares).map Prod.fst
    have hRnd : (sharesKeys (rangeOrder shares)).Nodup := hRkeys.nodup_iff.2 hnd
    have hRclean : ∀ u ∈ sharesKeys (rangeOrder shares), cleanUserID u = u :=
      fun u hu => hclean u (hRkeys.mem_iff.1 hu)
    have hpo : participantsOf s' itemID
        = (participantsOf s itemID).map (applyShares itemID (rangeOrder shares)) := by
      unfold participantsOf
      rw [hparts]
      exact participantsOf_map _ _ _ (fun p => (applyShares_keeps itemID _ p).2.1)
    have hshare : ∀ p ∈ participantsOf s itemID,
        (applyShares itemID (rangeOrder shares) p).share_amount
          = some (sharesGet shares p.user_id) := by
      intro p hp
      have hpi : p.item_id = itemID := by
        have := (List.mem_filter.1 hp).2
        simpa using this
      have hpk : p.user_id ∈ sharesKeys (rangeOrder shares) :=
        hRkeys.mem_iff.2 (List.mem_map_of_mem (fun p => p.user_id) hp)
      rw [applyShares_share itemID _ p hpi hRnd hRclean, if_pos hpk,
        sharesGet_perm shares (rangeOrder shares) p.user_id (hro shares)
          (by rw [hkeys]; exact hndP)]
    refine ⟨?_, ?_, ?_, new, hledger, ?_, ?_⟩
    · have e : findItem s' itemID = findItem (updateItems itemID
          (fun it => { it with status := "distributed", sale_amount := some saleAmount,
                               updated_at := now }) s) itemID := by
        unfold findItem; rw [hitems]
      rw [e, findItem_updateItems s itemID
        (fun it => { it with status := "distributed", sale_amount := some saleAmount,
                             updated_at := now }) (fun _ => rfl), hfind]
      rfl
    · intro p hp
      rw [hpo] at hp
      obtain ⟨q, hq, rfl⟩ := List.mem_map.1 hp
      rw [hshare q hq]
      exact fun hc => by cases hc
    · rw [hpo, List.map_map]
      have e1 : (participantsOf s itemID).map
            ((fun p => p.share_amount.getD 0) ∘ applyShares itemID (rangeOrder shares))
          = ((participantsOf s itemID).map (fun p => p.user_id)).map (sharesGet shares) := by
        rw [List.map_map]
        apply List.map_congr_left
        intro p hp
        simp only [Function.comp, hshare p hp, Option.getD_some]
      rw [e1, ← hsum]
      have e2 : shares = tabulate (sharesKeys shares) (sharesGet shares) := by
        have hnd' : (sharesKeys shares).Nodup := by rw [hkeys]; exact hndP
        unfold tabulate sharesKeys
        rw [List.map_map]
        conv_lhs => rw [← List.map_id shares]
        apply List.map_congr_left
        intro kv hkv
        obtain ⟨k, v⟩ := kv
        simp only [Function.comp, id]
        rw [sharesGet_of_mem shares k v hnd' hkv]
      conv_rhs => rw [e2, sharesSum_tabulate_eq]
      rw [hkeys]
      exact ((hP.map (sharesGet shares)).sum_eq).symm
    · intro r hr
      have hm : r.fact ∈ (rangeOrder shares).map
          (fun kv => (cleanUserID kv.1, itemID, kv.2, now)) := by
        rw [← hnew]
        exact List.mem_map_of_mem ProfitRow.fact hr
      obtain ⟨kv, _, e⟩ := List.mem_map.1 hm
      have := congrArg (fun t : String × Int × Int × Nat => t.2.1) e
      exact this.symm
    · have e1 : new.map (fun r => r.amount)
          = (new.map ProfitRow.fact).map (fun t => t.2.2.1) := by
        rw [List.map_map]; rfl
      rw [e1, hnew, List.map_map, ← hsum, ← sharesSum_perm shares (rangeOrder shares) (hro shares)]
      rfl
  · obtain ⟨m, hm⟩ : ∃ m, handleSlashSellShares shuffle saleAmount
        ((rowOrder (participantsOf s itemID)).map (fun p =>
          ({ ID := p.id, ItemID := p.item_id, UserID := p.user_id,
             ShareAmount := p.share_amount.getD 0 } : Participant))) seller = some m :=
      ⟨_, handleSlashSellShares_eq shuffle hsh saleAmount _ seller
        (by rw [hids]; exact hndP) (by rw [hids]; exact hmemP)⟩
    obtain ⟨s', hs'⟩ := MarkItemAsSoldAndDistribute_noFaults s itemID it hfind hst now
      saleAmount (rangeOrder m)
    refine ⟨m, s', ?_⟩
    have hstat : ¬ (it.status = "sold" ∨ it.status = "distributed") := by
      rw [hst]; decide
    unfold handleSlashSell GetItem
    simp only [noFaults, Bool.false_eq_true, if_false, hfind, hstat, hgetD, ne_eq,
      not_true_eq_false, hm]
    rw [hs']

theorem sale_sums_to_saleAmount_witness :
    (findItem ringSold 1).map (fun it => (it.status, it.sale_amount))
        = some ("distributed", some 101)
    ∧ (∀ p ∈ participantsOf ringSold 1, p.share_amount ≠ none)
    ∧ ((participantsOf ringSold 1).map (fun p => p.share_amount.getD 0)).sum = 101
    ∧ ∃ new, ringSold.profit_history = ringAssigned.profit_history ++ new
        ∧ (∀ r ∈ new, r.item_id = 1)
        ∧ (new.map (fun r => r.amount)).sum = 101 :=
  (sale_sums_to_saleAmount ringAssigned 1 ringAssignedRow "A" 101 id List.reverse List.reverse 2
      (fun l => List.Perm.refl l) (fun l => List.reverse_perm l) (fun m => List.reverse_perm m)
      (by decide) (by decide) (by decide) (by decide) (by decide) (by decide) (by decide)
      (by decide)).1
    noFaults noFaults "A" [("A", 34), ("B", 33), ("C", 34)] ringSold (by decide)

/-- C16 fails as stated: the gem has the single participant `!5`, who is its
seller; the sale for 10 is reported as done and stores the sale amount 10, but
the share is written for the cleaned key `5`, so the participant's share stays
unset and the shares of the item sum to 0. -/
theorem sale_sums_counterexample :
    (findItem gemAssigned 1).map (fun it => (it.status, it.assigned_to))
        = some ("assigned", some "!5")
    ∧ (participantsOf gemAssigned 1).map (fun p => p.user_id) = ["!5"]
    ∧ handleSlashSell id List.reverse List.reverse noFaults noFaults 2 "!5" (some 1) 10
        gemAssigned = (.sold [("!5", 10)], gemSold)
    ∧ (findItem gemSold 1).map (fun it => (it.status, it.sale_amount))
        = some ("distributed", some 10)
    ∧ (participantsOf gemSold 1).map (fun p => p.share_amount) = [none]
    ∧ ((participantsOf gemSold 1).map (fun p => p.share_amount.getD 0)).sum ≠ 10 := by
  decide

/-! ## The leaderboard -/

theorem insertByTotal_perm (p : UserProfit) (l : List UserProfit) :
    (insertByTotal p l).Perm (p :: l) := by
  induction l with
  | nil => exact List.Perm.refl _
  | cons q rest ih =>
    simp only [insertByTotal]
    split
    · exact List.Perm.refl _
    · exact ((List.Perm.cons q ih).trans (List.Perm.swap p q rest))

theorem insertByTotal_sorted (p : UserProfit) (l : List UserProfit)
    (h : l.Pairwise (fun a b => ¬ (b.Total > a.Total))) :
    (insertByTotal p l).Pairwise (fun a b => ¬ (b.Total > a.Total)) := by
  induction l with
  | nil => simp [insertByTotal]
  | cons q rest ih =>
    obtain ⟨hq, hrest⟩ := List.pairwise_cons.1 h
    simp only [insertByTotal]
    split
    · rename_i hpq
      refine List.pairwise_cons.2 ⟨?_, h⟩
      intro b hb
      rcases List.mem_cons.1 hb with e | hb'
      · subst e; omega
      · have := hq b hb'
        omega
    · rename_i hpq
      refine List.pairwise_cons.2 ⟨?_, ih hrest⟩
      intro b hb
      rcases List.mem_cons.1 ((insertByTotal_perm p rest).mem_iff.1 hb) with e | hb'
      · subst e; omega
      · exact hq b hb'

theorem sortByTotal_sorts : SortsByTotal sortByTotal := by
  intro l
  induction l with
  | nil => exact ⟨List.Perm.refl _, List.Pairwise.nil⟩
  | cons p rest ih =>
    simp only [sortByTotal, List.foldr_cons]
    exact ⟨(insertByTotal_perm p _).trans (List.Perm.cons p ih.1),
      insertByTotal_sorted p _ ih.2⟩

theorem addRecord_keys (l : List UserProfit) (record : ProfitRecord) :
    (addRecord l record).map (fun p => p.UserID)
      = if record.UserID ∈ l.map (fun p => p.UserID) then l.map (fun p => p.UserID)
        else l.map (fun p => p.UserID) ++ [record.UserID] := by
  induction l with
  | nil => simp [addRecord, creditRecord]
  | cons q rest ih =>
    simp only [addRecord]
    by_cases h : q.UserID = record.UserID
    · simp [h, creditRecord]
    · have h' : ¬ record.UserID = q.UserID := fun e => h e.symm
      rw [if_neg h, List.map_cons, ih]
      by_cases hm : record.UserID ∈ rest.map (fun p => p.UserID)
      · simp [hm]
      · simp only [hm, if_false, List.map_cons, List.mem_cons, h', false_or,
          List.cons_append]

theorem userProfits_nodup (records : List ProfitRecord) :
    ((userProfits records).map (fun p => p.UserID)).Nodup := by
  have gen : ∀ (rs : List ProfitRecord) (acc : List UserProfit),
      (acc.map (fun p => p.UserID)).Nodup →
      ((rs.foldl addRecord acc).map (fun p => p.UserID)).Nodup := by
    intro rs
    induction rs with
    | nil => intro acc h; exact h
    | cons r rest ih =>
      intro acc h
      rw [List.foldl_cons]
      apply ih
      rw [addRecord_keys]
      split
      · exact h
      · rename_i hm
        rw [List.nodup_append]
        refine ⟨h, List.nodup_singleton _, ?_⟩
        intro a ha hb
        simp only [List.mem_singleton] at hb
        subst hb
        exact hm ha
  exact gen records [] List.nodup_nil

/-- C19 as amended: for every list of records, every order in which the map is
ranged over and every outcome of `sort.Slice`, the leaderboard is ordered by
total descending and holds exactly the users with a positive total, once each;
the order among users of equal total is not determined. -/
theorem leaderboard_descending (rangeOrder sortSlice : List UserProfit → List UserProfit)
    (hro : ∀ l, (rangeOrder l).Perm l) (hsort : SortsByTotal sortSlice)
    (records : List ProfitRecord) :
    (leaderboard rangeOrder sortSlice records).Pairwise (fun a b => a.Total ≥ b.Total)
    ∧ (leaderboard rangeOrder sortSlice records).Perm
        ((userProfits records).filter (fun p => decide (p.Total > 0)))
    ∧ ((leaderboard rangeOrder sortSlice records).map (fun p => p.UserID)).Nodup := by
  have hperm : (leaderboard rangeOrder sortSlice records).Perm
      ((userProfits records).filter (fun p => decide (p.Total > 0))) :=
    (hsort _).1.trans ((hro _).filter _)
  refine ⟨?_, hperm, ?_⟩
  · refine List.Pairwise.imp ?_ (hsort _).2
    intro a b h
    omega
  · have h1 : (((userProfits records).filter (fun p => decide (p.Total > 0))).map
        (fun p => p.UserID)).Nodup :=
      List.Nodup.sublist
        (List.Sublist.map (fun p : UserProfit => p.UserID)
          (List.filter_sublist (userProfits records)))
        (userProfits_nodup records)
    exact (hperm.map (fun p => p.UserID)).nodup_iff.2 h1

theorem leaderboard_descending_witness :
    (leaderboard List.reverse sortByTotal tiedRecords).Pairwise
        (fun a b => a.Total ≥ b.Total)
    ∧ (leaderboard List.reverse sortByTotal tiedRecords).Perm
        ((userProfits tiedRecords).filter (fun p => decide (p.Total > 0)))
    ∧ ((leaderboard List.reverse sortByTotal tiedRecords).map (fun p => p.UserID)).Nodup :=
  leaderboard_descending List.reverse sortByTotal (fun l => List.reverse_perm l)
    sortByTotal_sorts tiedRecords

/-- C19 fails as stated: `A` and `B` both total 5; with the map ranged over in
insertion order the insertion sort puts `B` before `A`, against ascending user
ID, and with the map ranged over in the opposite order the same records give `A`
before `B`; both are outcomes the comparison of line 1004 allows. -/
theorem leaderboard_tie_counterexample :
    SortsByTotal sortByTotal
    ∧ (∀ l : List UserProfit, (id l).Perm l)
    ∧ (∀ l : List UserProfit, (List.reverse l).Perm l)
    ∧ (leaderboard id sortByTotal tiedRecords).map (fun p => (p.UserID, p.Total))
        = [("B", 5), ("A", 5)]
    ∧ "A".toList < "B".toList
    ∧ (leaderboard List.reverse sortByTotal tiedRecords).map (fun p => (p.UserID, p.Total))
        = [("A", 5), ("B", 5)] :=
  ⟨sortByTotal_sorts, fun l => List.Perm.refl l, fun l => List.reverse_perm l,
    by decide, by decide, by decide⟩

/-! ## One sale after the other -/

/-- Run one after the other, two distributions of the same item cannot both
succeed: after a successful `MarkItemAsSoldAndDistribute` every further call on
that item returns the invalid-state error (or an earlier driver error) and
leaves the store of the first call as it is. -/
theorem second_distribution_rejected (faults faults2 : Faults) (now now2 : Nat)
    (itemID saleAmount saleAmount2 : Int) (shares shares2 : Shares) (s s' : Store)
    (h : MarkItemAsSoldAndDistribute faults now itemID saleAmount shares s = (none, s')) :
    ∃ e, MarkItemAsSoldAndDistribute faults2 now2 itemID saleAmount2 shares2 s'
      = (some e, s') := by
  obtain ⟨it, hfind, _, hitems, _⟩ :=
    MarkItemAsSoldAndDistribute_ok faults now itemID saleAmount shares s s' h
  have e : findItem s' itemID = findItem (updateItems itemID
      (fun it => { it with status := "distributed", sale_amount := some saleAmount,
                           updated_at := now }) s) itemID := by
    unfold findItem; rw [hitems]
  have hfind' : findItem s' itemID
      = some { it with status := "distributed", sale_amount := some saleAmount,
                       updated_at := now } := by
    rw [e, findItem_updateItems s itemID
      (fun it => { it with status := "distributed", sale_amount := some saleAmount,
                           updated_at := now }) (fun _ => rfl), hfind]
    rfl
  exact MarkItemAsSoldAndDistribute_not_assigned faults2 now2 itemID saleAmount2 shares2 s'
    _ hfind' (by
      show ("distributed" : String) ≠ "assigned"
      decide)

theorem second_distribution_rejected_witness :
    ∃ e, MarkItemAsSoldAndDistribute noFaults 3 1 55 [("A", 55)] ringDistributed
      = (some e, ringDistributed) :=
  second_distribution_rejected noFaults noFaults 2 3 1 101 55
    [("A", 34), ("B", 33), ("C", 34)] [("A", 55)] ringAssigned ringDistributed (by decide)

/-! ## Negative sale amounts -/

theorem tmod_nonpos_of_nonpos (a b : Int) (h : a ≤ 0) : a.tmod b ≤ 0 := by
  have h1 := Int.tmod_add_tdiv a b
  have h2 := Int.tmod_add_tdiv (-a) b
  have h3 : (0 : Int) ≤ (-a).tmod b := Int.tmod_nonneg b (by omega)
  rw [Int.neg_tdiv] at h2
  have h4 : b * -(a.tdiv b) = -(b * a.tdiv b) := by ring
  rw [h4] at h2
  omega

/-- Without a positive remainder no entry is incremented: the map gives every
participant the base amount. -/
theorem handleSlashSellShares_no_remainder (shuffle : List String → List String)
    (saleAmount : Int) (ps : List Participant) (seller : String)
    (hn : 1 ≤ ps.length) (hnd : (userIDs ps).Nodup)
    (hr : saleRemainder saleAmount ps ≤ 0) :
    handleSlashSellShares shuffle saleAmount ps seller
      = some (tabulate (userIDs ps) (fun _ => baseShareAmount saleAmount ps)) := by
  unfold handleSlashSellShares
  have hn' : ps.length ≠ 0 := by omega
  have hr' : ¬ saleRemainder saleAmount ps > 0 := by omega
  simp only [if_neg hn', if_neg hr', initShares_eq _ ps hnd]

theorem sharesSum_tabulate_const (us : List String) (b : Int) :
    sharesSum (tabulate us (fun _ => b)) = (us.length : Int) * b := by
  induction us with
  | nil => simp [sharesSum, tabulate]
  | cons u us ih =>
    simp only [sharesSum, tabulate, List.map_cons, List.sum_cons, List.length_cons,
      List.map_map] at ih ⊢
    rw [ih]
    push_cast
    ring

/-- C23: for every negative sale amount and `n ≥ 2` distinct participants, the
seller among them, with the amount not divisible by `n`, Go's remainder is
negative, so `handleSlashSell` hands out no bonus: every share is
`saleAmount / n` truncated toward zero and the shares sum to more than the sale
amount; and the sell path accepts the amount: the seller's request on such an
item ends in a sale. -/
theorem negative_sale_no_bonus (shuffle : List String → List String) (saleAmount : Int)
    (ps : List Participant) (seller : String)
    (hneg : saleAmount < 0) (hn : 2 ≤ ps.length)
    (hnd : (userIDs ps).Nodup) (_hs : seller ∈ userIDs ps)
    (hdiv : ¬ ((ps.length : Int) ∣ saleAmount)) :
    ∃ m, handleSlashSellShares shuffle saleAmount ps seller = some m
      ∧ saleRemainder saleAmount ps < 0
      ∧ (∀ u ∈ userIDs ps, sharesGet m u = saleAmount.tdiv (ps.length : Int))
      ∧ (∀ kv ∈ m, kv.2 = saleAmount.tdiv (ps.length : Int))
      ∧ sharesSum m = (ps.length : Int) * saleAmount.tdiv (ps.length : Int)
      ∧ sharesSum m > saleAmount
      ∧ ∀ (s : Store) (itemID : Int) (it : ItemRow)
          (rowOrder : List ParticipantRow → List ParticipantRow)
          (rangeOrder : Shares → Shares) (now : Nat),
          findItem s itemID = some it → it.status = "assigned" →
          it.assigned_to = some seller →
          (rowOrder (participantsOf s itemID)).map (fun p =>
            ({ ID := p.id, ItemID := p.item_id, UserID := p.user_id,
               ShareAmount := p.share_amount.getD 0 } : Participant)) = ps →
          ∃ s', handleSlashSell rowOrder shuffle rangeOrder noFaults noFaults now seller
            (some itemID) saleAmount s = (.sold m, s') := by
  have hr0 : saleRemainder saleAmount ps ≤ 0 := tmod_nonpos_of_nonpos _ _ (by omega)
  have hrne : saleRemainder saleAmount ps ≠ 0 := fun e => hdiv (Int.dvd_of_tmod_eq_zero e)
  have hr : saleRemainder saleAmount ps < 0 := by omega
  have hm := handleSlashSellShares_no_remainder shuffle saleAmount ps seller (by omega) hnd hr0
  have hsum : sharesSum (tabulate (userIDs ps) (fun _ => baseShareAmount saleAmount ps))
      = (ps.length : Int) * saleAmount.tdiv (ps.length : Int) := by
    rw [sharesSum_tabulate_const]
    have : (userIDs ps).length = ps.length := by simp [userIDs]
    rw [this]
    rfl
  refine ⟨_, hm, hr, ?_, ?_, hsum, ?_, ?_⟩
  · intro u hu
    rw [sharesGet_tabulate _ _ _ hu]
    rfl
  · intro kv hkv
    simp only [tabulate, List.mem_map] at hkv
    obtain ⟨u, _, rfl⟩ := hkv
    rfl
  · rw [hsum]
    have := base_mul_add_remainder saleAmount ps
    unfold baseShareAmount at this
    omega
  · intro s itemID it rowOrder rangeOrder now hfind hst hseller hps
    obtain ⟨s', hs'⟩ := MarkItemAsSoldAndDistribute_noFaults s itemID it hfind hst now
      saleAmount (rangeOrder (tabulate (userIDs ps) (fun _ => baseShareAmount saleAmount ps)))
    refine ⟨s', ?_⟩
    have hstat : ¬ (it.status = "sold" ∨ it.status = "distributed") := by
      rw [hst]; decide
    have hgetD : it.assigned_to.getD "" = seller := by rw [hseller]; rfl
    unfold handleSlashSell GetItem
    simp only [noFaults, Bool.false_eq_true, if_false, hfind, hstat, hgetD, ne_eq,
      not_true_eq_false, hps, hm]
    rw [hs']

theorem negative_sale_no_bonus_witness :
    ∃ m, handleSlashSellShares List.reverse (-101) abc "A" = some m
      ∧ saleRemainder (-101) abc < 0
      ∧ (∀ u ∈ userIDs abc, sharesGet m u = (-101 : Int).tdiv ((abc.length : Nat) : Int))
      ∧ (∀ kv ∈ m, kv.2 = (-101 : Int).tdiv ((abc.length : Nat) : Int))
      ∧ sharesSum m = ((abc.length : Nat) : Int) * (-101 : Int).tdiv ((abc.length : Nat) : Int)
      ∧ sharesSum m > -101
      ∧ ∀ (s : Store) (itemID : Int) (it : ItemRow)
          (rowOrder : List ParticipantRow → List ParticipantRow)
          (rangeOrder : Shares → Shares) (now : Nat),
          findItem s itemID = some it → it.status = "assigned" →
          it.assigned_to = some "A" →
          (rowOrder (participantsOf s itemID)).map (fun p =>
            ({ ID := p.id, ItemID := p.item_id, UserID := p.user_id,
               ShareAmount := p.share_amount.getD 0 } : Participant)) = abc →
          ∃ s', handleSlashSell rowOrder List.reverse rangeOrder noFaults noFaults now "A"
            (some itemID) (-101) s = (.sold m, s') :=
  negative_sale_no_bonus List.reverse (-101) abc "A" (by decide) (by decide) (by decide)
    (by decide) (by decide)

/-- The ring sold by its seller for -101: three shares of -33, sum -99. -/
theorem negative_sale_example :
    (handleSlashSell id List.reverse id noFaults noFaults 2 "A" (some 1) (-101) ringAssigned).1
      = .sold [("A", -33), ("B", -33), ("C", -33)] := by
  decide

/-! ## The legacy `MarkItemAsSold` -/

theorem sum_map_const (l : List ParticipantRow) (c : Int) :
    (l.map (fun _ => c)).sum = (l.length : Int) * c := by
  induction l with
  | nil => simp
  | cons p rest ih =>
    simp only [List.map_cons, List.sum_cons, List.length_cons, ih]
    push_cast
    ring

/-- C24: for every assigned item with `count ≥ 1` participants and every sale
amount `≥ 0`, the legacy `MarkItemAsSold` (no driver failure) sets the status to
`sold`, stores the sale amount and gives every participant of the item the share
`saleAmount / count`; the stored shares sum to
`saleAmount - saleAmount mod count`, less than the sale amount whenever `count`
does not divide it, and the ledger is left as it was. -/
theorem MarkItemAsSold_equal_shares (s : Store) (itemID : Int) (it : ItemRow)
    (saleAmount : Int) (now : Nat)
    (hfind : findItem s itemID = some it) (hst : it.status = "assigned")
    (hcount : 1 ≤ (participantsOf s itemID).length) (h0 : 0 ≤ saleAmount) :
    ∃ s', MarkItemAsSold noFaults now itemID saleAmount s = (none, s')
      ∧ findItem s' itemID
          = some { it with status := "sold", sale_amount := some saleAmount,
                           updated_at := now }
      ∧ (participantsOf s' itemID).map (fun p => (p.id, p.user_id, p.share_amount))
          = (participantsOf s itemID).map (fun p =>
              (p.id, p.user_id,
                some (saleAmount / ((participantsOf s itemID).length : Int))))
      ∧ ((participantsOf s' itemID).map (fun p => p.share_amount.getD 0)).sum
          = saleAmount - saleAmount % ((participantsOf s itemID).length : Int)
      ∧ (saleAmount % ((participantsOf s itemID).length : Int) ≠ 0 →
          ((participantsOf s' itemID).map (fun p => p.share_amount.getD 0)).sum < saleAmount)
      ∧ s'.profit_history = s.profit_history := by
  have hcnt : (participantsOf (updateItems itemID
      (fun it => { it with status := "sold", sale_amount := some saleAmount,
                           updated_at := now }) s) itemID) = participantsOf s itemID := rfl
  have hc0 : (participantsOf s itemID).length ≠ 0 := by omega
  have hdiv : saleAmount.tdiv ((participantsOf s itemID).length : Int)
      = saleAmount / ((participantsOf s itemID).length : Int) :=
    Int.tdiv_eq_ediv h0 (Int.ofNat_nonneg _)
  have hpo : ∀ q : Int, participantsOf
      { (updateItems itemID
          (fun it => { it with status := "sold", sale_amount := some saleAmount,
                               updated_at := now }) s) with
        participants := s.participants.map (fun p =>
          if p.item_id = itemID then { p with share_amount := some q } else p) } itemID
      = (participantsOf s itemID).map (fun p => { p with share_amount := some q }) := by
    intro q
    unfold participantsOf
    simp only
    rw [participantsOf_map _ _ _ (fun p => by split <;> rfl)]
    apply List.map_congr_left
    intro p hp
    have hpi : p.item_id = itemID := by
      have := (List.mem_filter.1 hp).2
      simpa using this
    rw [if_pos hpi]
  have hsum : ∀ q : Int, (((participantsOf s itemID).map (fun p =>
        ({ p with share_amount := some q } : ParticipantRow))).map
          (fun p => p.share_amount.getD 0)).sum
      = ((participantsOf s itemID).length : Int) * q := by
    intro q
    rw [List.map_map]
    have : ((fun p : ParticipantRow => p.share_amount.getD 0) ∘ fun p : ParticipantRow =>
          ({ p with share_amount := some q } : ParticipantRow)) = fun _ => q := by
      funext p; rfl
    rw [this, sum_map_const]
  have hmod := Int.emod_add_ediv saleAmount ((participantsOf s itemID).length : Int)
  refine ⟨({ (updateItems itemID
        (fun it => { it with status := "sold", sale_amount := some saleAmount,
                             updated_at := now }) s) with
      participants := s.participants.map (fun p =>
        if p.item_id = itemID then
          { p with share_amount := some (saleAmount / ((participantsOf s itemID).length : Int)) }
        else p) } : Store), ?_, ?_, ?_, ?_, ?_, ?_⟩
  · unfold MarkItemAsSold
    simp only [noFaults, Bool.false_eq_true, if_false, hfind, hst, ne_eq, not_true_eq_false,
      hcnt, hc0, hdiv]
    rfl
  · exact (findItem_updateItems s itemID
      (fun it => { it with status := "sold", sale_amount := some saleAmount,
                           updated_at := now }) (fun _ => rfl)).trans (by rw [hfind]; rfl)
  · rw [hpo, List.map_map]
    rfl
  · rw [hpo, hsum]
    omega
  · intro hne
    rw [hpo, hsum]
    have : 0 ≤ saleAmount % ((participantsOf s itemID).length : Int) :=
      Int.emod_nonneg _ (by exact_mod_cast hc0)
    omega
  · rfl

theorem MarkItemAsSold_equal_shares_witness :
    ∃ s', MarkItemAsSold noFaults 2 1 101 ringAssigned = (none, s')
      ∧ findItem s' 1
          = some { ringAssignedRow with status := "sold", sale_amount := some 101,
                                        updated_at := 2 }
      ∧ (participantsOf s' 1).map (fun p => (p.id, p.user_id, p.share_amount))
          = (participantsOf ringAssigned 1).map (fun p =>
              (p.id, p.user_id,
                some (101 / ((participantsOf ringAssigned 1).length : Int))))
      ∧ ((participantsOf s' 1).map (fun p => p.share_amount.getD 0)).sum
          = 101 - 101 % ((participantsOf ringAssigned 1).length : Int)
      ∧ (101 % ((participantsOf ringAssigned 1).length : Int) ≠ 0 →
          ((participantsOf s' 1).map (fun p => p.share_amount.getD 0)).sum < 101)
      ∧ s'.profit_history = ringAssigned.profit_history :=
  MarkItemAsSold_equal_shares ringAssigned 1 ringAssignedRow 101 2 (by decide) (by decide)
    (by decide) (by decide)

/-- The ring marked as sold for 101 through the legacy path: three shares of 33. -/
theorem MarkItemAsSold_example :
    (participantsOf (MarkItemAsSold noFaults 2 1 101 ringAssigned).2 1).map
        (fun p => (p.user_id, p.share_amount))
      = [("A", some 33), ("B", some 33), ("C", some 33)]
    ∧ (MarkItemAsSold noFaults 2 1 101 ringAssigned).2.profit_history = [] := by
  decide

/-! ## No division by zero after the add flow -/

theorem handleSlashSellShares_eq_none (shuffle : List String → List String)
    (saleAmount : Int) (ps : List Participant) (seller : String)
    (h : handleSlashSellShares shuffle saleAmount ps seller = none) : ps.length = 0 := by
  unfold handleSlashSellShares at h
  split at h
  · assumption
  · simp only at h
    split at h
    · split at h <;> cases h
    · cases h

/-- The invariant of the stores the commands reach: every item has a participant
and a seller that is set is one of them. -/
theorem commandReachable_invariant (s : Store) (h : CommandReachable s) :
    itemsHaveSellerAmongParticipants s := by
  induction h with
  | empty => intro it hit; cases hit
  | add faultsAdd faultsAssign nowAdd nowAssign botID caller sellerOpt itemName
      estimatedValue participantsStr s _ ih =>
    rcases handleSlashAdd_store faultsAdd faultsAssign nowAdd nowAssign botID caller
      sellerOpt itemName estimatedValue participantsStr s with h | ⟨others, itemID, s1, hadd, h⟩
    · rw [h]; exact ih
    · obtain ⟨h1, hrow⟩ := itemsHaveSeller_AddItem _ _ _ _ _ _ _ _ _ hadd ih
      rcases h with h | h
      · rw [h]; exact h1
      · rw [h]; exact itemsHaveSeller_assign s1 itemID _ nowAssign h1 hrow
  | sell rowOrder shuffle rangeOrder faultsGet faultsMark now requester parsedItemID saleAmount
      s _ ih =>
    rcases handleSlashSell_store rowOrder shuffle rangeOrder faultsGet faultsMark now requester
      parsedItemID saleAmount s with h | ⟨itemID, shares, h⟩
    · rw [h]; exact ih
    · exact itemsHaveSeller_distribute _ _ _ _ _ _ _ h ih

theorem participantsOf_ne_nil (s : Store) (hs : itemsHaveSellerAmongParticipants s)
    (itemID : Int) (it : ItemRow) (hfind : findItem s itemID = some it) :
    participantsOf s itemID ≠ [] := by
  obtain ⟨hmem, hid⟩ := findItem_some s itemID it hfind
  obtain ⟨p, hp, e⟩ := (hs it hmem).1
  intro hnil
  have : p ∈ participantsOf s itemID := by
    unfold participantsOf
    rw [List.mem_filter]
    exact ⟨hp, by simp [e, hid]⟩
  rw [hnil] at this
  cases this

theorem handleSlashSell_no_divideByZero (s : Store)
    (hs : itemsHaveSellerAmongParticipants s)
    (rowOrder : List ParticipantRow → List ParticipantRow) (hrow : ∀ l, (rowOrder l).Perm l)
    (shuffle : List String → List String) (rangeOrder : Shares → Shares)
    (faultsGet faultsMark : Faults) (now : Nat) (requester : String)
    (parsedItemID : Option Int) (saleAmount : Int) :
    (handleSlashSell rowOrder shuffle rangeOrder faultsGet faultsMark now requester parsedItemID
      saleAmount s).1 ≠ .divideByZero := by
  unfold handleSlashSell
  split
  · exact fun h => by cases h
  · rename_i itemID
    split
    · exact fun h => by cases h
    · rename_i item hget
      split
      · exact fun h => by cases h
      · split
        · exact fun h => by cases h
        · split
          · rename_i hnone
            exfalso
            have hlen := handleSlashSellShares_eq_none _ _ _ _ hnone
            unfold GetItem at hget
            split at hget
            · cases hget
            · split at hget
              · cases hget
              · rename_i it hfind
                split at hget
                · cases hget
                · injection hget with hget
                  subst hget
                  simp only [List.length_map] at hlen
                  rw [(hrow (participantsOf s itemID)).length_eq] at hlen
                  exact participantsOf_ne_nil s hs itemID it hfind
                    (List.length_eq_zero.1 hlen)
          · split <;> exact fun h => by cases h

theorem addMention_error (botID mention : String) (st : ParseState) (r : AddOutcome)
    (h : addMention botID mention st = .error r) : ∃ u, r = .duplicateUser u := by
  unfold addMention at h
  simp only at h
  split at h
  · split at h
    · injection h with h
      exact ⟨_, h.symm⟩
    · cases h
  · cases h

theorem processParts_error (botID : String) (parts : List String) :
    ∀ (st : ParseState) (r : AddOutcome), processParts botID parts st = .error r →
      r = .invalidMention ∨ ∃ u, r = .duplicateUser u := by
  induction parts with
  | nil => intro st r h; simp [processParts] at h
  | cons part rest ih =>
    intro st r h
    simp only [processParts] at h
    split at h
    · exact ih _ _ h
    · split at h
      · injection h with h
        exact Or.inl h.symm
      · split at h
        · rename_i r' h1
          injection h with h
          subst h
          exact Or.inr (addMention_error _ _ _ _ h1)
        · exact ih _ _ h

theorem processMentions_error (botID : String) (mentions : List String) :
    ∀ (st : ParseState) (r : AddOutcome), processMentions botID mentions st = .error r →
      r = .invalidMention ∨ r = .concatenatedMentions ∨ ∃ u, r = .duplicateUser u := by
  induction mentions with
  | nil => intro st r h; simp [processMentions] at h
  | cons mention rest ih =>
    intro st r h
    simp only [processMentions] at h
    split at h
    · split at h
      · rename_i r' h1
        injection h with h
        subst h
        rcases processParts_error _ _ _ _ h1 with e | e
        · exact Or.inl e
        · exact Or.inr (Or.inr e)
      · exact ih _ _ h
    · split at h
      · injection h with h
        exact Or.inr (Or.inl h.symm)
      · split at h
        · injection h with h
          exact Or.inl h.symm
        · split at h
          · split at h
            · rename_i r' h1
              injection h with h
              subst h
              exact Or.inr (Or.inr (addMention_error _ _ _ _ h1))
            · exact ih _ _ h
          · exact ih _ _ h

/-- The list `handleSlashAdd` hands to `AddItem` starts with the seller. -/
theorem handleSlashAdd_added (faultsAdd faultsAssign : Faults) (nowAdd nowAssign : Nat)
    (botID caller : String) (sellerOpt : Option String) (itemName : String)
    (estimatedValue : Int) (participantsStr : String) (s : Store)
    (itemID : Int) (participants : List String)
    (h : (handleSlashAdd faultsAdd faultsAssign nowAdd nowAssign botID caller sellerOpt
      itemName estimatedValue participantsStr s).1 = .added itemID participants) :
    ∃ others s1, participants = sellerOpt.getD caller :: others
      ∧ AddItem faultsAdd nowAdd itemName estimatedValue participants s
          = ((itemID, none), s1) := by
  unfold handleSlashAdd at h
  simp only at h
  split at h
  · cases h
  · split at h
    · rename_i r hpm
      simp only at h
      subst h
      rcases processMentions_error _ _ _ _ hpm with e | e | ⟨u, e⟩ <;> cases e
    · rename_i st hst
      obtain ⟨others, hothers⟩ := processMentions_participants _ _ _ _ hst
      simp only [List.singleton_append] at hothers
      split at h
      · cases h
      · rename_i itemID' s1 hadd
        split at h
        · cases h
        · simp only [AddOutcome.added.injEq] at h
          obtain ⟨h1, h2⟩ := h
          subst h1; subst h2
          exact ⟨others, s1, hothers, hadd⟩

/-- C22: in every store reached through the commands `handleSlashSell` never
meets an empty participant list: every item of the store has a participant row,
so the outcome is never the division by zero; and the list that
`handleSlashAdd` hands to `AddItem` when it adds an item starts with the seller,
whatever the `participants` option holds.  This holds in whatever order
`GetItem` reads the participant rows. -/
theorem add_flow_never_divides_by_zero (s : Store) (h : CommandReachable s) :
    (∀ (rowOrder : List ParticipantRow → List ParticipantRow),
      (∀ l, (rowOrder l).Perm l) →
      ∀ (shuffle : List String → List String) (rangeOrder : Shares → Shares)
        (faultsGet faultsMark : Faults) (now : Nat) (requester : String)
        (parsedItemID : Option Int) (saleAmount : Int),
      (handleSlashSell rowOrder shuffle rangeOrder faultsGet faultsMark now requester
        parsedItemID saleAmount s).1 ≠ .divideByZero)
    ∧ (∀ itemID it, findItem s itemID = some it → participantsOf s itemID ≠ [])
    ∧ (∀ (rowOrder : List ParticipantRow → List ParticipantRow),
      (∀ l, (rowOrder l).Perm l) →
      ∀ (faultsGet : Faults) (itemID : Int) (item : Item),
        GetItem rowOrder faultsGet itemID s = .ok item → item.Participants.length ≠ 0)
    ∧ (∀ (faultsAdd faultsAssign : Faults) (nowAdd nowAssign : Nat) (botID caller : String)
        (sellerOpt : Option String) (itemName : String) (estimatedValue : Int)
        (participantsStr : String) (itemID : Int) (participants : List String),
      (handleSlashAdd faultsAdd faultsAssign nowAdd nowAssign botID caller sellerOpt
        itemName estimatedValue participantsStr s).1 = .added itemID participants →
      ∃ others s1, participants = sellerOpt.getD caller :: others
        ∧ AddItem faultsAdd nowAdd itemName estimatedValue participants s
            = ((itemID, none), s1)) := by
  have hinv := commandReachable_invariant s h
  refine ⟨fun rowOrder hrow shuffle rangeOrder faultsGet faultsMark now requester parsedItemID
        saleAmount =>
      handleSlashSell_no_divideByZero s hinv rowOrder hrow shuffle rangeOrder faultsGet
        faultsMark now requester parsedItemID saleAmount,
    fun itemID it hfind => participantsOf_ne_nil s hinv itemID it hfind, ?_,
    fun faultsAdd faultsAssign nowAdd nowAssign botID caller sellerOpt itemName
        estimatedValue participantsStr itemID participants hadd =>
      handleSlashAdd_added faultsAdd faultsAssign nowAdd nowAssign botID caller sellerOpt
        itemName estimatedValue participantsStr s itemID participants hadd⟩
  intro rowOrder hrow faultsGet itemID item hget
  unfold GetItem at hget
  split at hget
  · cases hget
  · split at hget
    · cases hget
    · rename_i it hfind
      split at hget
      · cases hget
      · injection hget with hget
        subst hget
        simp only [List.length_map]
        intro hlen
        rw [(hrow (participantsOf s itemID)).length_eq] at hlen
        exact participantsOf_ne_nil s hinv itemID it hfind (List.length_eq_zero.1 hlen)

theorem add_flow_never_divides_by_zero_witness :
    (handleSlashSell List.reverse List.reverse id noFaults noFaults 3 "10" (some 1) 10
      (handleSlashAdd noFaults noFaults 1 2 "99" "10" none "ring" 90 "<@99>"
        emptyStore).2).1 ≠ .divideByZero :=
  (add_flow_never_divides_by_zero _
    (CommandReachable.add noFaults noFaults 1 2 "99" "10" none "ring" 90 "<@99>"
      emptyStore CommandReachable.empty)).1 List.reverse (fun l => List.reverse_perm l)
    List.reverse id noFaults noFaults 3 "10" (some 1) 10

/-- The add flow on the empty store with only the bot mentioned: the item is
added with the caller, who is the seller, as its single participant. -/
theorem add_flow_example :
    (handleSlashAdd noFaults noFaults 1 2 "99" "10" none "ring" 90 "<@99>" emptyStore).1
      = .added 1 ["10"]
    ∧ getItemUserIDs id noFaults 1
        (handleSlashAdd noFaults noFaults 1 2 "99" "10" none "ring" 90 "<@99>"
          emptyStore).2 = ["10"] := by
  decide

/-- Outside the add flow the division by zero does occur: `AddItem` with an
empty list followed by `AssignItem` gives an item that the seller's sell request
meets with no participant. -/
theorem divide_by_zero_outside_add_flow :
    (handleSlashSell id List.reverse id noFaults noFaults 3 "A" (some 1) 10
      (AssignItem noFaults 2 1 "A" gemAlone).2).1 = .divideByZero := by
  decide

/-! ## The outcome of the shuffle

Before `rand.Shuffle` the handler re-seeds the global generator of `math/rand`
with the clock (`rand.Seed(time.Now().UnixNano())`, line 867); the permutation
that results is the parameter `shuffle`.  When the remainder is 2 or more the
map depends on it. -/

/-- With 101 for `[A, B, C]` and seller `A` the second bonus goes to `B` when the
shuffle leaves `[B, C]` in place and to `C` when it swaps them. -/
theorem shares_depend_on_shuffle_outcome :
    handleSlashSellShares id 101 abc "A" = some [("A", 34), ("B", 34), ("C", 33)]
    ∧ handleSlashSellShares List.reverse 101 abc "A"
        = some [("A", 34), ("B", 33), ("C", 34)]
    ∧ handleSlashSellShares id 101 abc "A"
        ≠ handleSlashSellShares List.reverse 101 abc "A" := by
  decide

/-! ## Total profit and profit history -/

theorem sumInt64_some (xs : List Int) :
    ∀ (acc total : Int), sumInt64 acc xs = some total → total = acc + xs.sum := by
  induction xs with
  | nil =>
    intro acc total h
    simp only [sumInt64, Option.some.injEq] at h
    simp [h]
  | cons x rest ih =>
    intro acc total h
    simp only [sumInt64] at h
    split at h
    · rw [ih _ _ h, List.sum_cons]
      ring
    · cases h

theorem joinedProfitRows_amounts (s : Store) (userID : String)
    (hs : ledgerRowsHaveOneItem s) :
    (joinedProfitRows s userID).map (fun r => r.Amount)
      = (s.profit_history.filter (fun p => decide (p.user_id = userID))).map
          (fun p => p.amount) := by
  unfold joinedProfitRows
  have gen : ∀ (l : List ProfitRow), (∀ p ∈ l, p ∈ s.profit_history) →
      (l.flatMap (fun p =>
        (s.items.filter (fun i => decide (p.item_id = i.id))).map (fun i =>
          ({ ID := p.id, UserID := p.user_id, ItemID := p.item_id, ItemName := i.name,
             Amount := p.amount, TransactionDate := p.transaction_date } : ProfitRecord)))).map
        (fun r => r.Amount) = l.map (fun p => p.amount) := by
    intro l
    induction l with
    | nil => intro _; rfl
    | cons p rest ih =>
      intro hl
      rw [List.flatMap_cons, List.map_append, ih (fun q hq => hl q (List.mem_cons_of_mem _ hq)),
        List.map_cons]
      obtain ⟨i, hi⟩ := List.length_eq_one.1 (hs p (hl p (List.mem_cons_self _ _)))
      rw [hi]
      rfl
  exact gen _ (fun p hp => (List.mem_filter.1 hp).1)

/-- For a user ID that the clean-up leaves unchanged, on a store in which every
ledger row has exactly one item row, the total that `GetTotalUserProfit` returns
without error is the sum of the amounts of the records that
`GetUserProfitHistory` returns. -/
theorem GetTotalUserProfit_plain_id (s : Store) (userID : String)
    (orderBy : List ProfitRecord → List ProfitRecord)
    (hord : ∀ l, (orderBy l).Perm l) (hclean : cleanUserID userID = userID)
    (hs : ledgerRowsHaveOneItem s) (total : Int)
    (h : GetTotalUserProfit noFaults userID s = (total, none)) :
    ∃ records, GetUserProfitHistory noFaults orderBy userID s = .ok records
      ∧ (records.map (fun r => r.Amount)).sum = total := by
  refine ⟨orderBy (joinedProfitRows s userID), ?_, ?_⟩
  · unfold GetUserProfitHistory
    simp only [hclean, noFaults, Bool.false_eq_true, if_false]
    have : (List.range (orderBy (joinedProfitRows s userID)).length).find?
        (fun _ => false) = none := by
      rw [List.find?_eq_none]
      intro x _ hx
      cases hx
    rw [this]
  · rw [((hord _).map (fun r => r.Amount)).sum_eq, joinedProfitRows_amounts s userID hs]
    unfold GetTotalUserProfit at h
    simp only [noFaults, Bool.false_eq_true, if_false] at h
    split at h
    · rename_i t ht
      have e := congrArg Prod.fst h
      simp only at e
      subst e
      have := sumInt64_some _ _ _ ht
      omega
    · cases (congrArg Prod.snd h)

theorem GetTotalUserProfit_plain_id_witness :
    ∃ records, GetUserProfitHistory noFaults List.reverse "123" gemSold123 = .ok records
      ∧ (records.map (fun r => r.Amount)).sum = 10 :=
  GetTotalUserProfit_plain_id gemSold123 "123" List.reverse (fun l => List.reverse_perm l)
    (by decide) (by decide) 10 (by decide)

/-- C25 (defect of `GetTotalUserProfit`): the user `123` has one ledger row of 10.
Asked with the plain ID both functions agree on 10; asked with the mention
`<@123>` or `<@!123>`, `GetUserProfitHistory` cleans the ID and returns the
record, while `GetTotalUserProfit` compares the mention itself with `user_id`
and returns 0. -/
theorem GetTotalUserProfit_mention_form :
    gemSold123.profit_history.map ProfitRow.fact = [("123", 1, 10, 3)]
    ∧ GetTotalUserProfit noFaults "123" gemSold123 = (10, none)
    ∧ historyTotal noFaults id "123" gemSold123 = 10
    ∧ GetTotalUserProfit noFaults "<@123>" gemSold123 = (0, none)
    ∧ historyTotal noFaults id "<@123>" gemSold123 = 10
    ∧ GetTotalUserProfit noFaults "<@!123>" gemSold123 = (0, none)
    ∧ historyTotal noFaults id "<@!123>" gemSold123 = 10 := by
  decide
